import Mathlib

/-!
# Call tree of `pkg/storage/tree/tree.go`

A shallow embedding of the prefix tree (`treeNode`, `Tree`) and of its
operations `insert`, `Insert`, `Merge`, `clone`/`Clone` and `Iterate`.

Conventions of the embedding

* a Go `[]byte` is a `List Nat` (one entry per byte); label bytes are only ever
  compared and copied, so nothing depends on the bound 256;
* a Go `uint64` is a `Nat`, and every `+` and `*` of the source is followed by
  `% u64` (`u64 = 2 ^ 64`), Go's wrap-around;
* a `*treeNode` that is only read is the node value itself; a `*treeNode` into
  the tree being mutated (`dstNodes` of `Merge`) is the list of child indices
  leading from the root to that node;
* a callback is modelled by the list of the argument tuples it is called with,
  in call order;
* a `for` loop whose trip count is not given by a slice being ranged over
  takes a fuel argument and returns `none` when the fuel runs out.
-/

namespace Pyroscope

/-! ## Data model -/

/-- Modulus of Go's `uint64` arithmetic. -/
def u64 : Nat := 2 ^ 64

/-- The constant `semicolon = byte(';')`. -/
def semicolon : Nat := 59

/-- Struct `treeNode` (tree.go:17): name, total, self and the child slice. -/
inductive treeNode where
  | mk (Name : List Nat) (Total : Nat) (Self : Nat) (ChildrenNodes : List treeNode) : treeNode

namespace treeNode

/-- Field `Name`. -/
def Name : treeNode → List Nat
  | mk n _ _ _ => n

/-- Field `Total`. -/
def Total : treeNode → Nat
  | mk _ t _ _ => t

/-- Field `Self`. -/
def Self : treeNode → Nat
  | mk _ _ s _ => s

/-- Field `ChildrenNodes`. -/
def ChildrenNodes : treeNode → List treeNode
  | mk _ _ _ c => c

end treeNode

/-- Function `newNode` (tree.go:41): zero counters, empty child slice. -/
def newNode (label : List Nat) : treeNode :=
  treeNode.mk label 0 0 []

/-- Struct `Tree` (tree.go:54); the mutex carries no data. -/
structure Tree where
  root : treeNode

/-- Function `New` (tree.go:59). -/
def New : Tree :=
  ⟨newNode []⟩

/-! ## Generic list helpers -/

/-- Replace the element at index `i` by its image under `f` (an in-place update
through a pointer to the `i`-th element). -/
def modifyAt {α : Type} (f : α → α) : Nat → List α → List α
  | _, [] => []
  | 0, a :: l => f a :: l
  | i + 1, a :: l => a :: modifyAt f i l

/-- The effect of `s = append(s, x); copy(s[i+1:], s[i:]); s[i] = x` for
`i ≤ len(s)`: `x` is placed at index `i`, later elements move one to the right. -/
def insertAt {α : Type} (x : α) (i : Nat) (s : List α) : List α :=
  s.take i ++ x :: s.drop i

/-! ## clone / Clone -/

mutual
/-- Method `treeNode.clone` (tree.go:28): `n.Total * m / d` and `n.Self * m / d`
in `uint64` arithmetic, children cloned in order. -/
def treeNode.clone (m d : Nat) : treeNode → treeNode
  | .mk name total self children =>
    .mk name (total * m % u64 / d) (self * m % u64 / d) (treeNode.cloneChildren m d children)
/-- The `for i, cn := range n.ChildrenNodes` loop of `clone`. -/
def treeNode.cloneChildren (m d : Nat) : List treeNode → List treeNode
  | [] => []
  | cn :: rest => treeNode.clone m d cn :: treeNode.cloneChildren m d rest
end

/-- The conversion `uint64(x.Int64())` of a `big.Int` that fits an `int64`
(two's complement for a negative value). -/
def uint64OfInt (x : Int) : Nat :=
  (x % (u64 : Int)).toNat

/-- Method `Tree.Clone` (tree.go:269). `num` and `den` are `r.Num()` and
`r.Denom()`. The division by `d` in `clone` is evaluated first at the root, so
`d = 0` is a run-time panic (`none`) whatever the tree. -/
def Tree.Clone (t : Tree) (num den : Int) : Option Tree :=
  let m := uint64OfInt num
  let d := uint64OfInt den
  if d = 0 then none else some ⟨t.root.clone m d⟩

/-! ## Predicates on trees -/

mutual
/-- All nodes of the subtree rooted at a node, the node itself first. -/
def treeNode.nodes : treeNode → List treeNode
  | .mk name total self children =>
    .mk name total self children :: treeNode.nodesList children
/-- All nodes of a forest. -/
def treeNode.nodesList : List treeNode → List treeNode
  | [] => []
  | c :: rest => treeNode.nodes c ++ treeNode.nodesList rest
end

/-- Sum of the `Total` fields of a child slice (no wrap-around). -/
def sumTotals (cs : List treeNode) : Nat :=
  (cs.map treeNode.Total).sum

/-- Every counter of the tree is a `uint64` value. -/
def treeNode.isU64 (n : treeNode) : Prop :=
  ∀ x ∈ n.nodes, x.Total < u64 ∧ x.Self < u64

/-- The node invariant `total == self + Σ child.total`, evaluated in `uint64`. -/
def treeNode.nodeInv (x : treeNode) : Prop :=
  x.Total = (x.Self + sumTotals x.ChildrenNodes) % u64

/-- The node invariant without wrap-around: the sum itself is the total. -/
def treeNode.nodeInvExact (x : treeNode) : Prop :=
  x.Total = x.Self + sumTotals x.ChildrenNodes

/-- The node reached from `n` by following a list of child indices, if any. -/
def treeNode.nodeAtIdx : treeNode → List Nat → Option treeNode
  | n, [] => some n
  | n, i :: p =>
    match n.ChildrenNodes[i]? with
    | some c => c.nodeAtIdx p
    | none => none

/-! ### Sample trees -/

/-- The tree of `Insert("a;b", 5); Insert("a;c", 3)` on an empty tree. -/
def sampleTree : Tree :=
  ⟨.mk [] 8 0 [.mk [97] 8 0 [.mk [98] 5 5 [], .mk [99] 3 3 []]]⟩

/-- The tree of `Insert("a", 2 ^ 63)` on an empty tree. -/
def bigTree : Tree :=
  ⟨.mk [] (2 ^ 63) 0 [.mk [97] (2 ^ 63) (2 ^ 63) []]⟩

/-- The tree of `Insert("a", 1); Insert("b", 1)` on an empty tree. -/
def twoLeaves : Tree :=
  ⟨.mk [] 2 0 [.mk [97] 1 1 [], .mk [98] 1 1 []]⟩

/-! ## Iterate -/

/-- Function `prependBytes` (tree.go:99): `x` becomes the first element. -/
def prependBytes (s : List (List Nat)) (x : List Nat) : List (List Nat) :=
  x :: s

/-- The loop `for len(nodes) > 0` of `Tree.Iterate` (tree.go:172), with the
calls made to `cb` so far as an accumulator. `none` is either the panic of
`prefixes[0]` on an empty slice or exhausted fuel.

In Go `label` may share its backing array with `prefix`, and so with the `label`
of a sibling. The bytes of a prefix of length `n` are only overwritten by a node
whose own prefix is shorter than `n`, and such a node is taken from the work
list after every node below the owner of the prefix, because children are put
in front of the list. So at the time of each call `cb` receives the bytes of the
prefix, the separator and the name, which is what the list value here holds. -/
def iterateLoop : Nat → List treeNode → List (List Nat) → List (List Nat × Nat) →
    Option (List (List Nat × Nat))
  | _, [], _, calls => some calls
  | 0, _ :: _, _, _ => none
  | _ + 1, _ :: _, [], _ => none
  | fuel + 1, node :: nodes, pre :: prefixes, calls =>
    let label := (pre ++ [semicolon]) ++ node.Name
    let calls := calls ++ [(label, node.Self)]
    let nodes := node.ChildrenNodes ++ nodes
    let prefixes := (List.range node.ChildrenNodes.length).foldl
      (fun ps _ => prependBytes ps label) prefixes
    iterateLoop fuel nodes prefixes calls

/-- Method `Tree.Iterate` (tree.go:168): the list of `(key, val)` pairs passed to
`cb`, in call order. -/
def Tree.Iterate (fuel : Nat) (t : Tree) : Option (List (List Nat × Nat)) :=
  iterateLoop fuel [t.root] [[]] []

/-! ### Specification vocabulary for traversals -/

mutual
/-- The child-index paths of all nodes of a tree: the node itself (`[]`), then
the nodes below its first child, then those below its second child, ... -/
def treeNode.paths : treeNode → List (List Nat)
  | .mk _ _ _ cs => [] :: treeNode.pathsFrom 0 cs
/-- The paths through the children `cs`, the first of which has index `i`. -/
def treeNode.pathsFrom : Nat → List treeNode → List (List Nat)
  | _, [] => []
  | i, c :: cs => (treeNode.paths c).map (fun p => i :: p) ++ treeNode.pathsFrom (i + 1) cs
end

/-- The key of the node at child-index path `p` below `n`, where `parentKey` is
the key of the parent of `n`: each node's key is its parent's key, then the
separator, then its own name. (`[]` for a path that leads nowhere.) -/
def treeNode.keyFrom (parentKey : List Nat) : treeNode → List Nat → List Nat
  | n, [] => parentKey ++ [semicolon] ++ n.Name
  | n, i :: p =>
    match n.ChildrenNodes[i]? with
    | some c => c.keyFrom (parentKey ++ [semicolon] ++ n.Name) p
    | none => []

/-- The key of the node at path `p` of a tree whose root has the empty parent key. -/
def treeNode.keyAt (root : treeNode) (p : List Nat) : List Nat :=
  root.keyFrom [] p

/-- The `Self` of the node at path `p` (0 for a path that leads nowhere). -/
def treeNode.selfAt (root : treeNode) (p : List Nat) : Nat :=
  match root.nodeAtIdx p with
  | some n => n.Self
  | none => 0

/-- The tree of `Insert("a;b", 1); Insert("c", 1)` on an empty tree. -/
def deepThenWide : Tree :=
  ⟨.mk [] 2 0 [.mk [97] 1 0 [.mk [98] 1 1 []], .mk [99] 1 1 []]⟩

/-- The calls made while the loop works off one node and everything below it. -/
def visitsOf (pre : List Nat) (n : treeNode) : List (List Nat × Nat) :=
  n.paths.map (fun p => (n.keyFrom pre p, n.selfAt p))

/-! ## insert / Insert -/

/-- Go's `bytes.Compare`: lexicographic comparison of byte slices, `-1`, `0`
or `+1`. -/
def bytesCompare : List Nat → List Nat → Int
  | [], [] => 0
  | [], _ :: _ => -1
  | _ :: _, [] => 1
  | a :: as, b :: bs =>
    if a < b then -1 else if b < a then 1 else bytesCompare as bs

/-- Go's `bytes.Equal`. -/
def bytesEqual (a b : List Nat) : Bool :=
  decide (a = b)

/-- Go's `bytes.Split(s, sep)` for a one-byte separator: the pieces of `s`
between the separators, as many as there are separators plus one. -/
def bytesSplit (sep : Nat) : List Nat → List (List Nat)
  | [] => [[]]
  | b :: rest =>
    if b = sep then [] :: bytesSplit sep rest
    else
      match bytesSplit sep rest with
      | [] => [[b]]
      | l :: ls => (b :: l) :: ls

/-- The loop of Go's `sort.Search`: `for i < j { h := (i+j)/2; if !f(h) { i = h+1 }
else { j = h } }; return i`. Every round shrinks `j - i`, so `j - i` rounds of
fuel let the loop leave by its own test. -/
def searchLoop (f : Nat → Bool) : Nat → Nat → Nat → Nat
  | 0, i, _ => i
  | fuel + 1, i, j =>
    if i < j then
      let h := (i + j) / 2
      if !f h then searchLoop f fuel (h + 1) j else searchLoop f fuel i h
    else i

/-- Go's `sort.Search(n, f)`. -/
def sortSearch (n : Nat) (f : Nat → Bool) : Nat :=
  searchLoop f n 0 n

/-- Method `treeNode.insert` (tree.go:127). The result is the node after the
call and the index `i` of the child the Go code returns a pointer to. -/
def treeNode.insert (n : treeNode) (targetLabel : List Nat) : treeNode × Nat :=
  let i := sortSearch n.ChildrenNodes.length (fun i =>
    match n.ChildrenNodes[i]? with
    | some c => decide (bytesCompare c.Name targetLabel ≥ 0)
    | none => false)
  let searchFailed := decide (i = n.ChildrenNodes.length)
  let differs :=
    match n.ChildrenNodes[i]? with
    | some c => !bytesEqual c.Name targetLabel
    | none => true
  if searchFailed || differs then
    (.mk n.Name n.Total n.Self (insertAt (newNode targetLabel) i n.ChildrenNodes), i)
  else
    (n, i)

/-- The loop `for _, l := range labels` of `Tree.Insert` (tree.go:155) with the
two statements after it, started at `node`: the result is `node` after the walk. -/
def insertLabels (value : Nat) : List (List Nat) → treeNode → treeNode
  | [], node =>
    .mk node.Name ((node.Total + value) % u64) ((node.Self + value) % u64) node.ChildrenNodes
  | l :: labels, node =>
    let r := node.insert l
    .mk r.1.Name ((r.1.Total + value) % u64) r.1.Self
      (modifyAt (insertLabels value labels) r.2 r.1.ChildrenNodes)

/-- Method `Tree.Insert` (tree.go:151). -/
def Tree.Insert (t : Tree) (key : List Nat) (value : Nat) : Tree :=
  ⟨insertLabels value (bytesSplit semicolon key) t.root⟩

/-! ## Merge -/

/-- Apply `f` to the node at child-index path `p` (a write through a pointer). -/
def updateAtIdx (f : treeNode → treeNode) : List Nat → treeNode → treeNode
  | [], n => f n
  | i :: p, n => .mk n.Name n.Total n.Self (modifyAt (updateAtIdx f p) i n.ChildrenNodes)

/-- Function `prependTreeNode` (tree.go:92), on either of the two work lists. -/
def prependTreeNode {α : Type} (s : List α) (x : α) : List α :=
  x :: s

/-- A pointer keeps denoting its node when a new child is inserted at index `i`
below the node at path `dtp`: a path through child `j ≥ i` of that node now
goes through child `j + 1`. -/
def shiftPath : List Nat → Nat → List Nat → List Nat
  | [], i, j :: rest => if i ≤ j then (j + 1) :: rest else j :: rest
  | [], _, [] => []
  | a :: dtp, i, b :: q => if a = b then b :: shiftPath dtp i q else b :: q
  | _ :: _, _, [] => []

/-- The variables of the loop of `Merge`: the receiver's tree and the two work
lists. `srcNodes` holds nodes of the source, `dstNodes` pointers into `root`. -/
structure MergeState where
  root : treeNode
  srcNodes : List treeNode
  dstNodes : List (List Nat)

/-- One round of `for _, srcChildNode := range st.ChildrenNodes` (tree.go:84),
where `dtp` points to `dt`. `none` is a pointer that leads nowhere. -/
def mergeChild (dtp : List Nat) (s : MergeState) (srcChildNode : treeNode) :
    Option MergeState :=
  match s.root.nodeAtIdx dtp with
  | none => none
  | some dt =>
    let r := dt.insert srcChildNode.Name
    let created := decide (r.1.ChildrenNodes.length ≠ dt.ChildrenNodes.length)
    let dstNodes := if created then s.dstNodes.map (shiftPath dtp r.2) else s.dstNodes
    some ⟨updateAtIdx (fun _ => r.1) dtp s.root,
      prependTreeNode s.srcNodes srcChildNode,
      prependTreeNode dstNodes (dtp ++ [r.2])⟩

/-- The loop `for len(srcNodes) > 0` of `Tree.Merge` (tree.go:74). `none` is the
panic of `dstNodes[0]` on an empty slice, a pointer that leads nowhere, or
exhausted fuel. -/
def mergeLoop : Nat → MergeState → Option treeNode
  | _, ⟨root, [], _⟩ => some root
  | 0, ⟨_, _ :: _, _⟩ => none
  | _ + 1, ⟨_, _ :: _, []⟩ => none
  | fuel + 1, ⟨root, st :: srcNodes, dtp :: dstNodes⟩ =>
    match root.nodeAtIdx dtp with
    | none => none
    | some _ =>
      let root := updateAtIdx (fun dt =>
        .mk dt.Name ((dt.Total + st.Total) % u64) ((dt.Self + st.Self) % u64)
          dt.ChildrenNodes) dtp root
      match st.ChildrenNodes.foldlM (mergeChild dtp) ⟨root, srcNodes, dstNodes⟩ with
      | none => none
      | some s => mergeLoop fuel s

/-- Method `Tree.Merge` (tree.go:65): the receiver after `t.Merge(src)`. The
source is only read, and a node's fields are read when the node is taken from
`srcNodes`. -/
def Tree.Merge (fuel : Nat) (t src : Tree) : Option Tree :=
  (mergeLoop fuel ⟨t.root, [src.root], [[]]⟩).map Tree.mk

/-! ### Specification vocabulary for Insert and Merge -/

/-- The names of a child slice are strictly increasing in the order of
`bytes.Compare` (so no two children share a name). -/
def sortedNames (cs : List treeNode) : Prop :=
  (cs.map treeNode.Name).Pairwise (fun a b => bytesCompare a b < 0)

/-- Every node of the tree has strictly sorted children. -/
def treeNode.sorted (n : treeNode) : Prop :=
  ∀ x ∈ n.nodes, sortedNames x.ChildrenNodes

/-- The first child called `l`, if any. -/
def childNamed (l : List Nat) (cs : List treeNode) : Option treeNode :=
  cs.find? (fun c => decide (c.Name = l))

/-- The node reached from `n` by following a list of labels, if any. -/
def treeNode.nodeAt : treeNode → List (List Nat) → Option treeNode
  | n, [] => some n
  | n, l :: p =>
    match childNamed l n.ChildrenNodes with
    | some c => c.nodeAt p
    | none => none

/-- The `Total` at a label path, an absent node counting as 0. -/
def treeNode.totalAt (n : treeNode) (p : List (List Nat)) : Nat :=
  match n.nodeAt p with
  | some x => x.Total
  | none => 0

/-- The `Self` at a label path, an absent node counting as 0. -/
def treeNode.selfAtLabels (n : treeNode) (p : List (List Nat)) : Nat :=
  match n.nodeAt p with
  | some x => x.Self
  | none => 0

/-- The trees obtained from `New()` by `Insert` and `Merge` calls, where a
merged-in tree is obtained the same way (it may be the receiver itself). -/
inductive Reachable : Tree → Prop
  | new : Reachable New
  | insert {t : Tree} (key : List Nat) (value : Nat) :
      Reachable t → Reachable (t.Insert key value)
  | merge {t src t' : Tree} (fuel : Nat) :
      Reachable t → Reachable src → t.Merge fuel src = some t' → Reachable t'

/-! ### Merge, one source node at a time

The loop of `Merge` uses `srcNodes`/`dstNodes` as stacks: the pair pushed last
is taken next, so the whole subtree of a source child is merged before the
child pushed before it is looked at. `mergeNode` states the same computation
by recursion on the source node; `mergeLoop_node` proves the two equal. -/

/-- The new index of the child formerly at index `j`, after an insertion at
index `i` among its siblings. -/
def shiftIdx (i j : Nat) : Nat :=
  if i ≤ j then j + 1 else j

/-- The loop `for _, srcChildNode := range st.ChildrenNodes` seen from `dt`
alone: the labels are inserted one after the other; `acc` holds the indices of
the children returned so far, last first, kept up to date when a later
insertion moves them. -/
def insertNames : List (List Nat) → treeNode → List Nat → treeNode × List Nat
  | [], dt, acc => (dt, acc)
  | l :: ls, dt, acc =>
    let r := dt.insert l
    let created := decide (r.1.ChildrenNodes.length ≠ dt.ChildrenNodes.length)
    let acc := if created then acc.map (shiftIdx r.2) else acc
    insertNames ls r.1 (r.2 :: acc)

mutual
/-- The destination node `dt` once the pair `(st, dt)` and all the pairs pushed
on its account have been worked off. -/
def mergeNode (dt : treeNode) : treeNode → treeNode
  | .mk _ total self cs =>
    let r := insertNames (cs.map treeNode.Name)
      (.mk dt.Name ((dt.Total + total) % u64) ((dt.Self + self) % u64) dt.ChildrenNodes) []
    .mk r.1.Name r.1.Total r.1.Self (mergeKids r.1.ChildrenNodes r.2.reverse cs)
/-- The children `ch` of a destination node once the pairs of the source
children `cs` with the children of `ch` at the given indices have been worked
off, the last pair first. -/
def mergeKids (ch : List treeNode) : List Nat → List treeNode → List treeNode
  | i :: is, s :: ss => modifyAt (fun d => mergeNode d s) i (mergeKids ch is ss)
  | [], _ => ch
  | _ :: _, [] => ch
end

/-- The tree of `Insert("x;y", 10)` on an empty tree. -/
def treeXY : Tree :=
  ⟨.mk [] 10 0 [.mk [120] 10 0 [.mk [121] 10 10 []]]⟩

/-- The tree of `Insert("x;z", 7)` on an empty tree. -/
def treeXZ : Tree :=
  ⟨.mk [] 7 0 [.mk [120] 7 0 [.mk [122] 7 7 []]]⟩

/-- The result of merging `treeXY` into `treeXZ`. -/
def treeXYZ : Tree :=
  ⟨.mk [] 17 0 [.mk [120] 17 0 [.mk [121] 10 10 [], .mk [122] 7 7 []]]⟩

/-! ## IterateWithChildKeys, iterateWithTotal, RootKey, String -/

/-- Function `copiedByteSlice` (tree.go:192): a fresh slice holding the same bytes. -/
def copiedByteSlice (oldSlice : List Nat) : List Nat :=
  oldSlice

/-- Function `keyWithPrefix` (tree.go:198). -/
def keyWithPrefix (node : treeNode) (pre : List Nat) : List Nat :=
  copiedByteSlice ((pre ++ [semicolon]) ++ node.Name)

/-- Function `keysWithPrefix` (tree.go:206): one key per node, appended in order. -/
def keysWithPrefix (nodes : List treeNode) (pre : List Nat) : List (List Nat) :=
  nodes.foldl (fun keys node => keys ++ [keyWithPrefix node pre]) []

/-- Function `firstPrefix` (tree.go:215). -/
def firstPrefix : List Nat :=
  []

/-- The loop `for len(nodes) > 0` of `Tree.IterateWithChildKeys` (tree.go:224),
with the calls `(key, val, childKeys)` made to `cb` so far as an accumulator.
`none` is the panic of `prefixes[0]` on an empty slice or exhausted fuel. -/
def iterateWithChildKeysLoop : Nat → List treeNode → List (List Nat) →
    List (List Nat × Nat × List (List Nat)) → Option (List (List Nat × Nat × List (List Nat)))
  | _, [], _, calls => some calls
  | 0, _ :: _, _, _ => none
  | _ + 1, _ :: _, [], _ => none
  | fuel + 1, node :: nodes, pre :: prefixes, calls =>
    let key := keyWithPrefix node pre
    let children := node.ChildrenNodes
    let prefixForChildren := key
    let childKeys := keysWithPrefix children prefixForChildren
    let calls := calls ++ [(key, node.Self, childKeys)]
    let nodes := children ++ nodes
    let prefixes := (List.range children.length).foldl
      (fun ps _ => prependBytes ps prefixForChildren) prefixes
    iterateWithChildKeysLoop fuel nodes prefixes calls

/-- Method `Tree.IterateWithChildKeys` (tree.go:220): the list of
`(key, val, childKeys)` triples passed to `cb`, in call order. -/
def Tree.IterateWithChildKeys (fuel : Nat) (t : Tree) :
    Option (List (List Nat × Nat × List (List Nat))) :=
  iterateWithChildKeysLoop fuel [t.root] [firstPrefix] []

/-- The loop of `Tree.iterateWithTotal` (tree.go:251). The callback may keep
state, so its answer is a function of the totals it was called with before and
of the total it is called with; the result is the list of totals passed to it. -/
def iterateWithTotalLoop (cb : List Nat → Nat → Bool) : Nat → List treeNode → List Nat →
    Option (List Nat)
  | _, [], calls => some calls
  | 0, _ :: _, _ => none
  | fuel + 1, node :: nodes, calls =>
    if cb calls node.Total then
      iterateWithTotalLoop cb fuel (node.ChildrenNodes ++ nodes) (calls ++ [node.Total])
    else
      iterateWithTotalLoop cb fuel nodes (calls ++ [node.Total])

/-- Method `Tree.iterateWithTotal` (tree.go:248). -/
def Tree.iterateWithTotal (cb : List Nat → Nat → Bool) (fuel : Nat) (t : Tree) :
    Option (List Nat) :=
  iterateWithTotalLoop cb fuel [t.root] []

/-- Method `Tree.RootKey` (tree.go:265). -/
def Tree.RootKey (t : Tree) : List Nat :=
  keyWithPrefix t.root firstPrefix

/-- The callback of `Tree.String` (tree.go:118) run over the calls of `Iterate`:
for `v > 0` the record `(k[2:], v)` that is formatted into a line of the result;
`none` is the panic of the slice expression `k[2:]` on a key shorter than 2. -/
def stringLines : List (List Nat × Nat) → Option (List (List Nat × Nat))
  | [] => some []
  | (k, v) :: rest =>
    if v > 0 then
      if 2 ≤ k.length then (stringLines rest).map (fun ls => (k.drop 2, v) :: ls) else none
    else stringLines rest

/-- Method `Tree.String` (tree.go:113), as the list of `(quoted bytes, value)`
records of its lines. -/
def Tree.String (fuel : Nat) (t : Tree) : Option (List (List Nat × Nat)) :=
  (t.Iterate fuel).bind stringLines

/-- The children keys passed along with the node at child-index path `p` below
`n`: the key of that node, the separator and the child's name, per child. -/
def treeNode.childKeysFrom (parentKey : List Nat) (n : treeNode) (p : List Nat) :
    List (List Nat) :=
  match n.nodeAtIdx p with
  | some x => x.ChildrenNodes.map (fun c => n.keyFrom parentKey p ++ [semicolon] ++ c.Name)
  | none => []

/-- The calls of `IterateWithChildKeys` for one node and everything below it. -/
def visitsWithChildKeys (pre : List Nat) (n : treeNode) :
    List (List Nat × Nat × List (List Nat)) :=
  n.paths.map (fun p => (n.keyFrom pre p, n.selfAt p, n.childKeysFrom pre p))

/-! ## decodeLevels (`scripts/decode-resp/decode.go`) -/

/-- A Go `int` result on a 64-bit platform: the value wrapped to the signed
64-bit range. -/
def wrapInt (x : Int) : Int :=
  (x + 9223372036854775808) % 18446744073709551616 - 9223372036854775808

/-- An index expression `s[i]` with a Go `int` index: `none` is the run-time
panic "index out of range" (a negative index included). -/
def indexInt {α : Type} (s : List α) (i : Int) : Option α :=
  if 0 ≤ i then s[i.toNat]? else none

/-- Struct `OutputItem` (decode.go:28). -/
structure OutputItem where
  Name : List Nat
  Offset : Int
  Total : Int
  Self : Int
deriving DecidableEq

/-- Struct `OutputFlamebearer` (decode.go:24). -/
structure OutputFlamebearer where
  Levels : List (List OutputItem)
deriving DecidableEq

/-- Struct `Output` (decode.go:20). -/
structure Output where
  Flamebearer : OutputFlamebearer
deriving DecidableEq

/-- Modelled from the spec: the struct `tree.Flamebearer`, declared in a file of
package `tree` that is not among the sources; per the spec a name table and
per-level integer sequences, the two fields `decodeLevels` reads. -/
structure Flamebearer where
  Names : List (List Nat)
  Levels : List (List Int)

/-- Struct `Input` (decode.go:8), reduced to the field `decodeLevels` reads; the
pointer is taken to be non-nil. -/
structure Input where
  Flamebearer : Flamebearer

/-- The loop `for i, N := 0, len(row); i < N; i += 4` of `decodeLevels`
(decode.go:43) with its variables `i`, `prev` and `outRow`. `none` is an index
out of range, or exhausted fuel. -/
def decodeRowLoop (names : List (List Nat)) (row : List Int) :
    Nat → Nat → Int → List OutputItem → Option (List OutputItem)
  | 0, i, _, outRow => if i < row.length then none else some outRow
  | fuel + 1, i, prev, outRow =>
    if i < row.length then
      match row[i + 3]?, row[i]?, row[i + 1]?, row[i + 2]? with
      | some ni, some a, some b, some c =>
        match indexInt names ni with
        | some name =>
          decodeRowLoop names row fuel (i + 4) (wrapInt (prev + wrapInt (a + b)))
            (outRow ++ [⟨name, wrapInt (a + prev), b, c⟩])
        | none => none
      | _, _, _, _ => none
    else some outRow

/-- The body of `for _, row := range levels` (decode.go:39): `i` grows by 4 in
every round, so `len(row)` rounds always let the inner loop end by its test. -/
def decodeRow (names : List (List Nat)) (row : List Int) : Option (List OutputItem) :=
  decodeRowLoop names row row.length 0 0 []

/-- The loop `for _, row := range levels` (decode.go:39) with its variable
`outLevels`. -/
def decodeRows (names : List (List Nat)) :
    List (List Int) → List (List OutputItem) → Option (List (List OutputItem))
  | [], outLevels => some outLevels
  | row :: rest, outLevels =>
    match decodeRow names row with
    | some outRow => decodeRows names rest (outLevels ++ [outRow])
    | none => none

/-- Function `decodeLevels` (decode.go:35); `none` is a run-time panic. -/
def decodeLevels (input : Input) : Option Output :=
  (decodeRows input.Flamebearer.Names input.Flamebearer.Levels []).map
    (fun outLevels => ⟨⟨outLevels⟩⟩)

/-! ### Specification vocabulary for decodeLevels -/

/-- The sum over the items `k < j` of a row of `offsetDelta + total`. -/
def sumBefore (row : List Int) (j : Nat) : Int :=
  ((List.range j).map (fun k => row.getD (4 * k) 0 + row.getD (4 * k + 1) 0)).sum

/-- The offset of item `j` of a row as a sum of integers: its own `offsetDelta`
plus the `offsetDelta` and `total` of every earlier item. -/
def exactOffset (row : List Int) (j : Nat) : Int :=
  row.getD (4 * j) 0 + sumBefore row j

/-- Item `j` of the decoded row. -/
def decodedItem (names : List (List Nat)) (row : List Int) (j : Nat) : OutputItem :=
  ⟨names.getD (row.getD (4 * j + 3) 0).toNat [], wrapInt (exactOffset row j),
    row.getD (4 * j + 1) 0, row.getD (4 * j + 2) 0⟩

/-- A row is well formed: its length is a multiple of 4 and every name index is
within the name table. -/
def rowWellFormed (names : List (List Nat)) (row : List Int) : Prop :=
  4 ∣ row.length ∧
    ∀ j, j < row.length / 4 → 0 ≤ row.getD (4 * j + 3) 0 ∧ row.getD (4 * j + 3) 0 < names.length

/-- The row recursion of `decodeRowLoop` on the list of the entries not yet
read, four at a time. -/
def decodeList (names : List (List Nat)) : List Int → Int → Option (List OutputItem)
  | [], _ => some []
  | a :: b :: c :: ni :: rest, prev =>
    match indexInt names ni with
    | some name =>
      (decodeList names rest (wrapInt (prev + wrapInt (a + b)))).map
        (fun items => ⟨name, wrapInt (a + prev), b, c⟩ :: items)
    | none => none
  | [_], _ => none
  | [_, _], _ => none
  | [_, _, _], _ => none

/-- A well-formed input of two levels over the names `"a"` and `"b"`. -/
def sampleInput : Input :=
  ⟨⟨[[97], [98]], [[0, 10, 2, 0], [0, 4, 4, 1, 2, 3, 3, 0]]⟩⟩

/-! ## Profile.Get (`pkg/convert/profile_extra.go`)

The message types of the generated file `profile.pb.go` are not among the
sources; they are declared here with the fields `profile_extra.go` reads. A Go
`string` is the list of its bytes, a `uint64` id a `Nat`, an `int64` an `Int`. -/

/-- Modelled from the spec: message `ValueType`, a declared sample type; `Type_`
is the field `Type`, the index of its name in the string table. -/
structure ValueType where
  Type_ : Int

/-- Modelled from the spec: message `Line`, a function reference of a location. -/
structure Line where
  FunctionId : Nat

/-- Modelled from the spec: message `Location`, an entry of the location table. -/
structure Location where
  Id : Nat
  Line : List Line

/-- Modelled from the spec: message `Function`, an entry of the function table;
`Name` is the index of its name in the string table. -/
structure Function where
  Id : Nat
  Name : Int

/-- Modelled from the spec: message `Label`, a key/value string label of a sample. -/
structure Label where
  Key : Int
  Str : Int

/-- Modelled from the spec: message `Sample`. -/
structure Sample where
  LocationId : List Nat
  Value : List Int
  Label : List Label

/-- Modelled from the spec: message `Profile`, the symbolized profile. -/
structure Profile where
  SampleType : List ValueType
  Sample : List Sample
  Location : List Location
  Function : List Function
  StringTable : List (List Nat)

/-- Method `Profile.findLocation` (profile_extra.go:72); `none` is `(nil, false)`. -/
def Profile.findLocation (x : Profile) (lid : Nat) : Option Pyroscope.Location :=
  let idx := sortSearch x.Location.length (fun i =>
    match x.Location[i]? with
    | some l => decide (l.Id ≥ lid)
    | none => false)
  if idx < x.Location.length then
    match x.Location[idx]? with
    | some l => if l.Id = lid then some l else none
    | none => none
  else none

/-- Method `Profile.findFunction` (profile_extra.go:84); `none` is `(nil, false)`. -/
def Profile.findFunction (x : Profile) (fid : Nat) : Option Pyroscope.Function :=
  let idx := sortSearch x.Function.length (fun i =>
    match x.Function[i]? with
    | some f => decide (f.Id ≥ fid)
    | none => false)
  if idx < x.Function.length then
    match x.Function[idx]? with
    | some f => if f.Id = fid then some f else none
    | none => none
  else none

/-- Method `Profile.findFunctionName` (profile_extra.go:54). The outer `none` is a
run-time panic (`loc.Line[0]` or `x.StringTable[fn.Name]` out of range); the
inner value is the name when `ok` is true and `none` when it is false. -/
def Profile.findFunctionName (x : Profile) (locID : Nat) : Option (Option (List Nat)) :=
  match x.findLocation locID with
  | some loc =>
    match loc.Line[0]? with
    | none => none
    | some line =>
      match x.findFunction line.FunctionId with
      | some fn =>
        match indexInt x.StringTable fn.Name with
        | some name => some (some name)
        | none => none
      | none => some none
  | none => some none

/-- The loop `for i, v := range x.SampleType` of `Get` (profile_extra.go:16),
started at index `i`, with `valueIndex` still 0: the value of `valueIndex` after
the loop. `none` is the panic of `x.StringTable[v.Type]`. -/
def valueIndexLoop (stringTable : List (List Nat)) (sampleType : List Nat) :
    List ValueType → Nat → Option Nat
  | [], _ => some 0
  | v :: rest, i =>
    match indexInt stringTable v.Type_ with
    | none => none
    | some name =>
      if name = sampleType then some i else valueIndexLoop stringTable sampleType rest (i + 1)

/-- The statements of `Get` that set `valueIndex` (profile_extra.go:14-22). -/
def Profile.valueIndex (x : Profile) (sampleType : List Nat) : Option Nat :=
  if sampleType ≠ [] then valueIndexLoop x.StringTable sampleType x.SampleType 0 else some 0

/-- The loop `for i := len(s.LocationId) - 1; i >= 0; i--` of `Get`
(profile_extra.go:30) over the location ids still to visit, given in visiting
order, with the buffer `b`. -/
def Profile.nameLoop (x : Profile) : List Nat → List Nat → Option (List Nat)
  | [], b => some b
  | locID :: rest, b =>
    match x.findFunctionName locID with
    | none => none
    | some none => x.nameLoop rest b
    | some (some name) =>
      x.nameLoop rest ((if b.length > 0 then b ++ [semicolon] else b) ++ name)

/-- The loop `for _, l := range s.Label` of `Get` (profile_extra.go:42); it only
prints, and panics (`false`) when an index into the string table is out of range. -/
def Profile.labelLoop (x : Profile) : List Label → Bool
  | [] => true
  | l :: rest =>
    if l.Str ≠ 0 then
      match indexInt x.StringTable l.Key, indexInt x.StringTable l.Str with
      | some _, some _ => x.labelLoop rest
      | _, _ => false
    else x.labelLoop rest

/-- The loop `for _, s := range x.Sample` of `Get` (profile_extra.go:29), with
the calls `(name, val)` made to `cb` so far; the buffer is empty at the start of
every round (`b.Reset()`). -/
def Profile.sampleLoop (x : Profile) (valueIndex : Nat) :
    List Pyroscope.Sample → List (List Nat × Int) → Option (List (List Nat × Int))
  | [], calls => some calls
  | s :: rest, calls =>
    match x.nameLoop s.LocationId.reverse [] with
    | none => none
    | some name =>
      match s.Value[valueIndex]? with
      | none => none
      | some val =>
        if x.labelLoop s.Label then x.sampleLoop valueIndex rest (calls ++ [(name, val)])
        else none

/-- What a call of `Get` that returns leaves behind: the calls made to `cb`, in
order, and the returned `error` (`none` for `nil`). -/
structure GetResult where
  calls : List (List Nat × Int)
  err : Option (List Nat)
deriving DecidableEq

/-- Method `Profile.Get` (profile_extra.go:13); `none` is a run-time panic. The
only return statement is `return nil`. -/
def Profile.Get (x : Profile) (sampleType : List Nat) : Option GetResult :=
  match x.valueIndex sampleType with
  | none => none
  | some valueIndex =>
    match x.sampleLoop valueIndex x.Sample [] with
    | none => none
    | some calls => some ⟨calls, none⟩

/-! ### Specification vocabulary for Get -/

/-- The indices used by `Get` are in range: every declared sample type and every
function names a string of the string table, every location has a line, and
every label with a string value has its key and value in the string table. -/
def Profile.wellFormed (x : Profile) : Prop :=
  (∀ v ∈ x.SampleType, 0 ≤ v.Type_ ∧ v.Type_ < x.StringTable.length) ∧
  (∀ f ∈ x.Function, 0 ≤ f.Name ∧ f.Name < x.StringTable.length) ∧
  (∀ l ∈ x.Location, l.Line ≠ []) ∧
  (∀ s ∈ x.Sample, ∀ l ∈ s.Label, l.Str ≠ 0 →
    (0 ≤ l.Key ∧ l.Key < x.StringTable.length) ∧ (0 ≤ l.Str ∧ l.Str < x.StringTable.length))

/-- A profile with the functions `"a"` (id 1) and `""` (id 2), one location per
function, and one sample whose stack is location 1 (outermost), location 2. -/
def emptyNameProfile : Profile :=
  { SampleType := [⟨0⟩]
    Sample := [⟨[1, 2], [5], []⟩]
    Location := [⟨1, [⟨1⟩]⟩, ⟨2, [⟨2⟩]⟩]
    Function := [⟨1, 1⟩, ⟨2, 0⟩]
    StringTable := [[], [97]] }

/-- A profile with sample types `"cpu"`-like names `"a"` and `"b"`, functions
`"a"` (id 1) and `"b"` (id 3), locations 1 and 3, and two samples; the first
sample refers to location 5, which is not in the location table. -/
def sampleProfile : Profile :=
  { SampleType := [⟨1⟩, ⟨2⟩]
    Sample := [⟨[1, 5, 3], [7, 8], []⟩, ⟨[3], [1, 2], []⟩]
    Location := [⟨1, [⟨1⟩]⟩, ⟨3, [⟨3⟩]⟩]
    Function := [⟨1, 1⟩, ⟨3, 2⟩]
    StringTable := [[], [97], [98]] }

/-- What one round of the name loop of `Get` does to the buffer `b` for a
resolved `name` (profile_extra.go:35-38). -/
def appendName (b name : List Nat) : List Nat :=
  (if b.length > 0 then b ++ [semicolon] else b) ++ name

/-- The names of the resolvable frames among the location ids `ids`, in the order
given: the frames for which `findFunctionName` answers `ok`. -/
def Profile.resolvedNames (x : Profile) (ids : List Nat) : List (List Nat) :=
  ids.filterMap (fun id => (x.findFunctionName id).join)

/-- The names joined with a single `;` between consecutive names. -/
def joinNames (names : List (List Nat)) : List Nat :=
  List.intercalate [semicolon] names

/-- The trees obtained from `New()` by `Insert`, `Merge` and `Clone` calls that
return, where a merged-in tree is obtained the same way. -/
inductive ReachableWithClone : Tree → Prop
  | new : ReachableWithClone New
  | insert {t : Tree} (key : List Nat) (value : Nat) :
      ReachableWithClone t → ReachableWithClone (t.Insert key value)
  | merge {t src t' : Tree} (fuel : Nat) :
      ReachableWithClone t → ReachableWithClone src → t.Merge fuel src = some t' →
      ReachableWithClone t'
  | clone {t t' : Tree} (num den : Int) :
      ReachableWithClone t → t.Clone num den = some t' → ReachableWithClone t'

/-- The result of `Clone(1/2)` on `sampleTree`. -/
def halvedSampleTree : Tree :=
  ⟨.mk [] 4 0 [.mk [97] 4 0 [.mk [98] 2 2 [], .mk [99] 1 1 []]]⟩

/-- The names along the child-index path `p` below `n`: the label path of the
node at `p` (cut off where the path leads nowhere). -/
def treeNode.labelsAt : treeNode → List Nat → List (List Nat)
  | _, [] => []
  | n, i :: p =>
    match n.ChildrenNodes[i]? with
    | some c => c.Name :: c.labelsAt p
    | none => []

/-- The tree after the calls `Insert(key, value)` for the pairs of `ops`, in
order, on the tree `t`. -/
def insertAll (t : Tree) (ops : List (List Nat × Nat)) : Tree :=
  ops.foldl (fun t kv => t.Insert kv.1 kv.2) t

/-- The sum of the values of the calls of `ops` whose key is `k`. -/
def weightOf (ops : List (List Nat × Nat)) (k : List Nat) : Nat :=
  ((ops.filter (fun kv => decide (kv.1 = k))).map Prod.snd).sum

/-- Go's `(*big.Rat).Num()` for the ratio `a/b` of two positive integers: a
`big.Rat` holds its value in lowest terms, so the numerator read by `Clone` is
`a` divided by the greatest common divisor. -/
def ratNum (a b : Nat) : Nat :=
  a / Nat.gcd a b

/-- Go's `(*big.Rat).Denom()` for the ratio `a/b` of two positive integers: the
denominator in lowest terms. -/
def ratDenom (a b : Nat) : Nat :=
  b / Nat.gcd a b

/-- A profile whose second declared sample type names string 99 of a table of
three strings; one sample with two values. -/
def badTypeProfile : Profile :=
  { SampleType := [⟨1⟩, ⟨99⟩]
    Sample := [⟨[1], [7, 8], []⟩]
    Location := [⟨1, [⟨1⟩]⟩]
    Function := [⟨1, 1⟩]
    StringTable := [[], [97], [98]] }

/-! ## Theorems -/

@[simp] theorem treeNode.Name_mk (n : List Nat) (t s : Nat) (c : List treeNode) :
    (treeNode.mk n t s c).Name = n := rfl

@[simp] theorem treeNode.Total_mk (n : List Nat) (t s : Nat) (c : List treeNode) :
    (treeNode.mk n t s c).Total = t := rfl

@[simp] theorem treeNode.Self_mk (n : List Nat) (t s : Nat) (c : List treeNode) :
    (treeNode.mk n t s c).Self = s := rfl

@[simp] theorem treeNode.ChildrenNodes_mk (n : List Nat) (t s : Nat) (c : List treeNode) :
    (treeNode.mk n t s c).ChildrenNodes = c := rfl


section CloneLemmas

theorem cloneChildren_eq_map (m d : Nat) :
    ∀ cs : List treeNode, treeNode.cloneChildren m d cs = cs.map (treeNode.clone m d)
  | [] => by simp [treeNode.cloneChildren]
  | c :: cs => by simp [treeNode.cloneChildren, cloneChildren_eq_map m d cs]

theorem clone_mk (m d : Nat) (name : List Nat) (total self : Nat) (cs : List treeNode) :
    (treeNode.mk name total self cs).clone m d
      = .mk name (total * m % u64 / d) (self * m % u64 / d) (cs.map (treeNode.clone m d)) := by
  rw [treeNode.clone, cloneChildren_eq_map]

theorem nodesList_eq_flatMap :
    ∀ cs : List treeNode, treeNode.nodesList cs = cs.flatMap treeNode.nodes
  | [] => by simp [treeNode.nodesList]
  | c :: cs => by simp [treeNode.nodesList, nodesList_eq_flatMap cs]

theorem nodes_mk (name : List Nat) (total self : Nat) (cs : List treeNode) :
    (treeNode.mk name total self cs).nodes
      = .mk name total self cs :: cs.flatMap treeNode.nodes := by
  rw [treeNode.nodes, nodesList_eq_flatMap]

theorem self_mem_nodes (n : treeNode) : n ∈ n.nodes := by
  cases n; simp [nodes_mk]

theorem mem_nodes_of_child {n c x : treeNode} (hc : c ∈ n.ChildrenNodes) (hx : x ∈ c.nodes) :
    x ∈ n.nodes := by
  cases n with
  | mk name total self cs =>
    simp only [treeNode.ChildrenNodes_mk] at hc
    rw [nodes_mk]
    exact List.mem_cons_of_mem _ (List.mem_flatMap.2 ⟨c, hc, hx⟩)

mutual
theorem clone_one_one : ∀ n : treeNode, n.isU64 → n.clone 1 1 = n
  | .mk name total self cs => by
    intro h
    have h0 := h _ (self_mem_nodes _)
    simp only [treeNode.Total_mk, treeNode.Self_mk] at h0
    rw [treeNode.clone, cloneChildren_one_one cs
      (fun c hc x hx => h x (mem_nodes_of_child (n := .mk name total self cs) hc hx))]
    simp [Nat.mod_eq_of_lt h0.1, Nat.mod_eq_of_lt h0.2]
theorem cloneChildren_one_one : ∀ cs : List treeNode, (∀ c ∈ cs, c.isU64) →
    treeNode.cloneChildren 1 1 cs = cs
  | [], _ => by simp [treeNode.cloneChildren]
  | c :: cs, h => by
    rw [treeNode.cloneChildren, clone_one_one c (h c (List.mem_cons_self _ _)),
      cloneChildren_one_one cs (fun c' hc' => h c' (List.mem_cons_of_mem _ hc'))]
end

theorem nodeAtIdx_clone (m d : Nat) : ∀ (p : List Nat) (n : treeNode),
    (n.clone m d).nodeAtIdx p = (n.nodeAtIdx p).map (treeNode.clone m d)
  | [], n => by simp [treeNode.nodeAtIdx]
  | i :: p, .mk name total self cs => by
    rw [clone_mk]
    simp only [treeNode.nodeAtIdx, treeNode.ChildrenNodes_mk, List.getElem?_map]
    cases h : cs[i]? with
    | none => simp
    | some c => simpa using nodeAtIdx_clone m d p c

theorem nodes_clone (m d : Nat) (n : treeNode) :
    ∀ x, x ∈ (n.clone m d).nodes → ∃ y ∈ n.nodes, x = y.clone m d := by
  suffices h : ∀ (k : Nat) (n : treeNode) (x : treeNode), n.nodes.length ≤ k →
      x ∈ (n.clone m d).nodes → ∃ y ∈ n.nodes, x = y.clone m d from
    fun x hx => h _ n x le_rfl hx
  intro k
  induction k with
  | zero =>
    intro n x hk
    cases n
    simp [nodes_mk] at hk
  | succ k ih =>
    intro n x hk hx
    cases n with
    | mk name total self cs =>
      rw [clone_mk, nodes_mk] at hx
      rw [nodes_mk] at hk
      rcases List.mem_cons.1 hx with hx | hx
      · exact ⟨_, self_mem_nodes _, by rw [hx, clone_mk]⟩
      · obtain ⟨c', hc', hxc⟩ := List.mem_flatMap.1 hx
        obtain ⟨c, hc, rfl⟩ := List.mem_map.1 hc'
        have hlen : c.nodes.length ≤ k := by
          have h1 : c.nodes.length ≤ (cs.flatMap treeNode.nodes).length := by
            have := List.sublist_flatten_of_mem (List.mem_map_of_mem treeNode.nodes hc)
            simpa [List.flatMap] using this.length_le
          simp only [List.length_cons] at hk
          omega
        obtain ⟨y, hy, hxy⟩ := ih c x hlen hxc
        exact ⟨y, mem_nodes_of_child (n := .mk name total self cs) hc hy, hxy⟩

theorem uint64OfInt_natCast (n : Nat) (h : n < 2 ^ 63) : uint64OfInt (n : Int) = n := by
  unfold uint64OfInt u64
  have h2 : n < 2 ^ 64 := by omega
  have : ((n : Int) % ((2 ^ 64 : Nat) : Int)) = (n : Int) := by
    exact_mod_cast congrArg (Nat.cast (R := Int)) (Nat.mod_eq_of_lt h2)
  rw [this]
  simp

theorem floor_sum_bounds (m d : Nat) (hd : 0 < d) :
    ∀ (l : List Nat) (s : Nat),
      s * m / d + (l.map (fun a => a * m / d)).sum ≤ (s + l.sum) * m / d ∧
      (s + l.sum) * m / d ≤ s * m / d + (l.map (fun a => a * m / d)).sum + l.length
  | [], s => by simp
  | a :: l, s => by
    have ih := floor_sum_bounds m d hd l (s + a)
    have h1 := Nat.add_div (a := s * m) (b := a * m) hd
    simp only [List.sum_cons, List.map_cons, List.length_cons]
    rw [← Nat.add_assoc s a l.sum]
    rw [Nat.add_mul s a m] at ih
    rw [h1] at ih
    split_ifs at ih <;> omega

theorem exact_bounds : ∀ (k : Nat) (n : treeNode), n.nodes.length ≤ k →
    (∀ x ∈ n.nodes, x.nodeInvExact) → ∀ x ∈ n.nodes, x.Total ≤ n.Total := by
  intro k
  induction k with
  | zero =>
    intro n hk
    cases n
    simp [nodes_mk] at hk
  | succ k ih =>
    intro n hk hinv x hx
    cases n with
    | mk name total self cs =>
      have hroot := hinv _ (self_mem_nodes _)
      simp only [treeNode.nodeInvExact, treeNode.Total_mk, treeNode.Self_mk,
        treeNode.ChildrenNodes_mk] at hroot
      rw [nodes_mk] at hx hk
      rcases List.mem_cons.1 hx with hx | hx
      · rw [hx]
      · obtain ⟨c, hc, hxc⟩ := List.mem_flatMap.1 hx
        have hlen : c.nodes.length ≤ k := by
          have h1 : c.nodes.length ≤ (cs.flatMap treeNode.nodes).length := by
            have := List.sublist_flatten_of_mem (List.mem_map_of_mem treeNode.nodes hc)
            simpa [List.flatMap] using this.length_le
          simp only [List.length_cons] at hk
          omega
        have h2 := ih c hlen
          (fun y hy => hinv y (mem_nodes_of_child (n := .mk name total self cs) hc hy)) x hxc
        have h3 : c.Total ≤ sumTotals cs :=
          List.single_le_sum (fun _ _ => Nat.zero_le _) _ (List.mem_map_of_mem _ hc)
        simp only [treeNode.Total_mk]
        omega

end CloneLemmas

theorem sampleTree_isU64 : sampleTree.root.isU64 := by
  intro x hx
  simp [sampleTree, nodes_mk] at hx
  rcases hx with rfl | rfl | rfl | rfl <;> simp [u64]

/-! ### Clone -/

/-- C6: on a tree of `uint64` counters, `Clone` with ratio 1/1 returns a tree
equal to the source: same nodes, names, child order, `Self` and `Total`. -/
theorem Clone_one_one (t : Tree) (h : t.root.isU64) : t.Clone 1 1 = some t := by
  have h1 : uint64OfInt 1 = 1 := uint64OfInt_natCast 1 (by norm_num)
  simp [Tree.Clone, h1, clone_one_one t.root h]

theorem Clone_one_one_witness : sampleTree.root.isU64 ∧ sampleTree.Clone 1 1 = some sampleTree :=
  ⟨sampleTree_isU64, Clone_one_one sampleTree sampleTree_isU64⟩

/-- C7 as stated fails: cloning `bigTree` (counters `2 ^ 63`) with ratio 2/3
(a ratio in lowest terms, so `Clone` reads the terms 2 and 3)
yields 0 at the root, not `floor(2 ^ 63 * 2 / 3)`, because `n.Total * m` wraps
around before the division. -/
theorem Clone_floor_counterexample :
    ¬ (∀ (t : Tree) (num den : Nat), t.root.isU64 → 0 < num → num < 2 ^ 63 → 0 < den →
        den < 2 ^ 63 →
        ∃ c, t.Clone num den = some c ∧
          ∀ p n, t.root.nodeAtIdx p = some n →
            ∃ n', c.root.nodeAtIdx p = some n' ∧ n'.Name = n.Name ∧
              n'.Self = n.Self * num / den ∧ n'.Total = n.Total * num / den) := by
  intro h
  have hu : bigTree.root.isU64 := by
    intro x hx
    simp [bigTree, nodes_mk] at hx
    rcases hx with rfl | rfl <;> simp [u64]
  obtain ⟨c, hc, hall⟩ := h bigTree 2 3 hu (by norm_num) (by norm_num) (by norm_num)
    (by norm_num)
  obtain ⟨n', hn', -, -, htot⟩ := hall [] bigTree.root rfl
  have h2 : uint64OfInt 2 = 2 := uint64OfInt_natCast 2 (by norm_num)
  have h3 : uint64OfInt 3 = 3 := uint64OfInt_natCast 3 (by norm_num)
  have hc' : bigTree.Clone ((2 : Nat) : Int) ((3 : Nat) : Int)
      = some ⟨bigTree.root.clone 2 3⟩ := by
    simp [Tree.Clone, h2, h3]
  rw [hc'] at hc
  simp only [Option.some.injEq] at hc
  subst hc
  simp only [treeNode.nodeAtIdx, Option.some.injEq] at hn'
  subst hn'
  simp [bigTree, clone_mk, u64] at htot

theorem ratNum_mul_gcd (a b : Nat) : ratNum a b * Nat.gcd a b = a :=
  Nat.div_mul_cancel (Nat.gcd_dvd_left a b)

theorem ratDenom_mul_gcd (a b : Nat) : ratDenom a b * Nat.gcd a b = b :=
  Nat.div_mul_cancel (Nat.gcd_dvd_right a b)

theorem ratDenom_pos (a b : Nat) (hb : 0 < b) : 0 < ratDenom a b :=
  Nat.div_pos (Nat.le_of_dvd hb (Nat.gcd_dvd_right a b)) (Nat.gcd_pos_of_pos_right a hb)

theorem rat_coprime (a b : Nat) (hb : 0 < b) : Nat.Coprime (ratNum a b) (ratDenom a b) :=
  Nat.coprime_div_gcd_div_gcd (Nat.gcd_pos_of_pos_right a hb)

theorem rat_floor (a b v : Nat) (hb : 0 < b) : v * ratNum a b / ratDenom a b = v * a / b := by
  have hg : 0 < Nat.gcd a b := Nat.gcd_pos_of_pos_right a hb
  have e : v * a / b = v * ratNum a b * Nat.gcd a b / (ratDenom a b * Nat.gcd a b) := by
    rw [Nat.mul_assoc, ratNum_mul_gcd, ratDenom_mul_gcd]
  rw [e, Nat.mul_div_mul_right _ _ hg]

/-- C7 (amended): `Clone` reads the ratio in lowest terms. For a ratio `a/b` of
positive integers let `num = ratNum a b` and `den = ratDenom a b` be its terms in
lowest terms (the values of `r.Num()` and `r.Denom()`), each fitting an `int64`.
`Clone` succeeds and the clone has the shape of the source (a child-index path
leads to a node in one iff it does in the other, with the same name and the same
number of children); the node's `Self` is `((Self * num) mod 2^64) / den` and its
`Total` is `((Total * num) mod 2^64) / den`, which is `floor(Self * a / b)` resp.
`floor(Total * a / b)` whenever the product with `num` is below `2^64`; when
`num = 1` (as in `Clone(1/2)` or `Clone(2/4)`) every `uint64` counter is divided
by `den`. -/
theorem Clone_scaled (t : Tree) (a b : Nat) (ha : 0 < a) (hb : 0 < b)
    (hn' : ratNum a b < 2 ^ 63) (hd' : ratDenom a b < 2 ^ 63) :
    Nat.Coprime (ratNum a b) (ratDenom a b) ∧
    (Nat.Coprime a b → ratNum a b = a ∧ ratDenom a b = b) ∧
    ∃ c, t.Clone (ratNum a b) (ratDenom a b) = some c ∧
      ∀ p, (t.root.nodeAtIdx p = none → c.root.nodeAtIdx p = none) ∧
        ∀ n, t.root.nodeAtIdx p = some n →
          ∃ n', c.root.nodeAtIdx p = some n' ∧ n'.Name = n.Name ∧
            n'.ChildrenNodes.length = n.ChildrenNodes.length ∧
            n'.Self = n.Self * ratNum a b % u64 / ratDenom a b ∧
            n'.Total = n.Total * ratNum a b % u64 / ratDenom a b ∧
            (n.Self * ratNum a b < u64 → n'.Self = n.Self * a / b) ∧
            (n.Total * ratNum a b < u64 → n'.Total = n.Total * a / b) ∧
            (ratNum a b = 1 → n.Self < u64 → n'.Self = n.Self / ratDenom a b) ∧
            (ratNum a b = 1 → n.Total < u64 → n'.Total = n.Total / ratDenom a b) := by
  have _ := ha
  have hd := ratDenom_pos a b hb
  refine ⟨rat_coprime a b hb, fun hc => ?_, ⟨t.root.clone (ratNum a b) (ratDenom a b)⟩, ?_, ?_⟩
  · have hg : Nat.gcd a b = 1 := hc
    simp [ratNum, ratDenom, hg]
  · simp [Tree.Clone, uint64OfInt_natCast _ hn', uint64OfInt_natCast _ hd', hd.ne']
  · intro p
    refine ⟨fun h => by simp [nodeAtIdx_clone, h], fun n h => ?_⟩
    refine ⟨n.clone (ratNum a b) (ratDenom a b), by simp [nodeAtIdx_clone, h], ?_⟩
    cases n with
    | mk name total self cs =>
      rw [clone_mk]
      simp only [treeNode.Name_mk, treeNode.Self_mk, treeNode.Total_mk,
        treeNode.ChildrenNodes_mk, List.length_map, true_and]
      refine ⟨fun h => by rw [Nat.mod_eq_of_lt h, rat_floor a b _ hb],
        fun h => by rw [Nat.mod_eq_of_lt h, rat_floor a b _ hb],
        fun h1 h => ?_, fun h1 h => ?_⟩
      · rw [h1, Nat.mul_one, Nat.mod_eq_of_lt h]
      · rw [h1, Nat.mul_one, Nat.mod_eq_of_lt h]

theorem Clone_scaled_witness :
    (0 < 2 ∧ 0 < 4 ∧ ratNum 2 4 = 1 ∧ ratDenom 2 4 = 2) ∧
    bigTree.Clone ((ratNum 2 4 : Nat) : Int) ((ratDenom 2 4 : Nat) : Int)
      = some ⟨.mk [] (2 ^ 62) 0 [.mk [97] (2 ^ 62) (2 ^ 62) []]⟩ ∧
    ∃ c, bigTree.Clone ((ratNum 2 4 : Nat) : Int) ((ratDenom 2 4 : Nat) : Int) = some c ∧
      ∃ n', c.root.nodeAtIdx [] = some n' ∧ n'.Total = 2 ^ 63 * 2 / 4 := by
  have e1 : ratNum 2 4 = 1 := by decide
  have e2 : ratDenom 2 4 = 2 := by decide
  refine ⟨⟨by decide, by decide, e1, e2⟩, ?_, ?_⟩
  · rw [e1, e2]
    rfl
  · obtain ⟨_, _, c, hc, h⟩ := Clone_scaled bigTree 2 4 (by decide) (by decide)
      (by rw [e1]; norm_num) (by rw [e2]; norm_num)
    obtain ⟨n', hn', _, _, _, _, _, htot, _⟩ := (h []).2 bigTree.root rfl
    exact ⟨c, hc, n', hn', htot (by rw [e1]; simp [bigTree, u64])⟩

/-- C8 as stated fails: `twoLeaves` satisfies the node invariant everywhere, but
its clone with ratio 1/2 has root total 1 over children of total 0 and 0. -/
theorem Clone_nodeInv_counterexample :
    ¬ (∀ (t : Tree) (num den : Nat), 0 < num → num < 2 ^ 63 → 0 < den → den < 2 ^ 63 →
        (∀ x ∈ t.root.nodes, x.nodeInv) →
        ∀ c, t.Clone num den = some c → ∀ x ∈ c.root.nodes, x.nodeInv) := by
  intro h
  have hinv : ∀ x ∈ twoLeaves.root.nodes, x.nodeInv := by
    intro x hx
    simp [twoLeaves, nodes_mk] at hx
    rcases hx with rfl | rfl | rfl <;> simp [treeNode.nodeInv, sumTotals, u64]
  have h1 : uint64OfInt 1 = 1 := uint64OfInt_natCast 1 (by norm_num)
  have h2 : uint64OfInt 2 = 2 := uint64OfInt_natCast 2 (by norm_num)
  have hc : twoLeaves.Clone ((1 : Nat) : Int) ((2 : Nat) : Int)
      = some ⟨twoLeaves.root.clone 1 2⟩ := by
    simp [Tree.Clone, h1, h2]
  have := h twoLeaves 1 2 (by norm_num) (by norm_num) (by norm_num) (by norm_num) hinv _ hc
    _ (self_mem_nodes _)
  simp [twoLeaves, clone_mk, treeNode.nodeInv, sumTotals, u64] at this

/-- C8 (amended): if every node of `t` satisfies `total = self + Σ child.total`
as a sum of naturals and `root.Total * num` is below `2^64`, then for a positive
ratio `num/den` every node of the clone satisfies
`self + Σ child.total ≤ total ≤ self + Σ child.total + (number of children)`:
the rounding of the per-node integer divisions can leave the total above the sum
by at most one unit per child, and never below it. -/
theorem Clone_nodeInv_bounds (t : Tree) (num den : Nat) (hn : 0 < num) (hn' : num < 2 ^ 63)
    (hd : 0 < den) (hd' : den < 2 ^ 63) (hinv : ∀ x ∈ t.root.nodes, x.nodeInvExact)
    (hfit : t.root.Total * num < u64) :
    ∃ c, t.Clone num den = some c ∧
      ∀ x ∈ c.root.nodes,
        x.Self + sumTotals x.ChildrenNodes ≤ x.Total ∧
        x.Total ≤ x.Self + sumTotals x.ChildrenNodes + x.ChildrenNodes.length := by
  have _ := hn
  refine ⟨⟨t.root.clone num den⟩, ?_, ?_⟩
  · simp [Tree.Clone, uint64OfInt_natCast num hn', uint64OfInt_natCast den hd', hd.ne']
  · intro x hx
    obtain ⟨y, hy, rfl⟩ := nodes_clone num den t.root x hx
    have hyT : y.Total ≤ t.root.Total := exact_bounds _ t.root le_rfl hinv y hy
    have hyinv := hinv y hy
    cases y with
    | mk name total self cs =>
      simp only [treeNode.nodeInvExact, treeNode.Total_mk, treeNode.Self_mk,
        treeNode.ChildrenNodes_mk] at hyinv hyT
      have hfitT : total * num < u64 :=
        lt_of_le_of_lt (Nat.mul_le_mul_right _ hyT) hfit
      have hfitS : self * num < u64 :=
        lt_of_le_of_lt (Nat.mul_le_mul_right _ (by omega)) hfitT
      have hsum : sumTotals (cs.map (treeNode.clone num den))
          = ((cs.map treeNode.Total).map (fun a => a * num / den)).sum := by
        unfold sumTotals
        rw [List.map_map, List.map_map]
        congr 1
        apply List.map_congr_left
        intro c hc
        have hcT : c.Total ≤ sumTotals cs :=
          List.single_le_sum (fun _ _ => Nat.zero_le _) _ (List.mem_map_of_mem _ hc)
        have hfitC : c.Total * num < u64 :=
          lt_of_le_of_lt (Nat.mul_le_mul_right _ (by omega)) hfitT
        cases c with
        | mk cn ct cself ccs =>
          simp only [treeNode.Total_mk] at hfitC
          simp [clone_mk, Nat.mod_eq_of_lt hfitC]
      rw [clone_mk]
      simp only [treeNode.Total_mk, treeNode.Self_mk, treeNode.ChildrenNodes_mk,
        List.length_map, hsum, Nat.mod_eq_of_lt hfitT, Nat.mod_eq_of_lt hfitS]
      have hb := floor_sum_bounds num den hd (cs.map treeNode.Total) self
      rw [hyinv]
      simpa [sumTotals] using hb

theorem Clone_nodeInv_bounds_witness :
    ∃ c, twoLeaves.Clone ((1 : Nat) : Int) ((2 : Nat) : Int) = some c ∧
      ∀ x ∈ c.root.nodes,
        x.Self + sumTotals x.ChildrenNodes ≤ x.Total ∧
        x.Total ≤ x.Self + sumTotals x.ChildrenNodes + x.ChildrenNodes.length :=
  Clone_nodeInv_bounds twoLeaves 1 2 (by decide) (by norm_num) (by decide) (by norm_num)
    (by
      intro x hx
      simp [twoLeaves, nodes_mk] at hx
      rcases hx with rfl | rfl | rfl <;> simp [treeNode.nodeInvExact, sumTotals])
    (by simp [twoLeaves, u64])

section IterateLemmas

theorem foldl_prependBytes (label : List Nat) (prefixes : List (List Nat)) :
    ∀ n : Nat, (List.range n).foldl (fun ps _ => prependBytes ps label) prefixes
      = List.replicate n label ++ prefixes
  | 0 => by simp
  | n + 1 => by
    rw [List.range_succ, List.foldl_append, foldl_prependBytes label prefixes n]
    simp [prependBytes, List.replicate_succ]

theorem paths_mk (name : List Nat) (total self : Nat) (cs : List treeNode) :
    (treeNode.mk name total self cs).paths = [] :: treeNode.pathsFrom 0 cs := by
  rw [treeNode.paths]

theorem nodes_length_pos (n : treeNode) : 0 < n.nodes.length := by
  cases n; simp [nodes_mk]

theorem map_pathsFrom (F : List Nat → List Nat × Nat) (label : List Nat) :
    ∀ (cs : List treeNode) (i : Nat),
      (∀ (j : Nat) (hj : j < cs.length) (q : List Nat),
        F ((i + j) :: q) = ((cs.get ⟨j, hj⟩).keyFrom label q, (cs.get ⟨j, hj⟩).selfAt q)) →
      (treeNode.pathsFrom i cs).map F = cs.flatMap (visitsOf label)
  | [], _, _ => by simp [treeNode.pathsFrom]
  | c :: cs, i, h => by
    rw [treeNode.pathsFrom, List.map_append, List.flatMap_cons,
      map_pathsFrom F label cs (i + 1) (fun j hj q => by
        have := h (j + 1) (by simpa using hj) q
        simpa [Nat.add_assoc, Nat.add_comm 1 j] using this)]
    congr 1
    rw [List.map_map]
    apply List.map_congr_left
    intro q _
    have := h 0 (by simp) q
    simpa using this

theorem visitsOf_mk (pre name : List Nat) (total self : Nat) (cs : List treeNode) :
    visitsOf pre (.mk name total self cs)
      = (pre ++ [semicolon] ++ name, self) :: cs.flatMap (visitsOf (pre ++ [semicolon] ++ name)) := by
  unfold visitsOf
  rw [paths_mk, List.map_cons]
  congr 1
  apply map_pathsFrom
  intro j hj q
  have hget : cs[j]? = some (cs.get ⟨j, hj⟩) := by simp [List.getElem?_eq_getElem hj]
  simp [treeNode.keyFrom, treeNode.selfAt, treeNode.nodeAtIdx, hget]

mutual
theorem iterateLoop_node : ∀ (n : treeNode) (pre : List Nat) (nodes : List treeNode)
    (prefixes : List (List Nat)) (calls : List (List Nat × Nat)) (k : Nat),
    iterateLoop (n.nodes.length + k) (n :: nodes) (pre :: prefixes) calls
      = iterateLoop k nodes prefixes (calls ++ visitsOf pre n)
  | .mk name total self cs, pre, nodes, prefixes, calls, k => by
    rw [nodes_mk, List.length_cons, Nat.add_right_comm, iterateLoop]
    simp only [treeNode.ChildrenNodes_mk, treeNode.Name_mk, treeNode.Self_mk,
      foldl_prependBytes]
    rw [iterateLoop_children cs, visitsOf_mk, List.append_assoc]
    rfl
theorem iterateLoop_children : ∀ (cs : List treeNode) (label : List Nat)
    (nodes : List treeNode) (prefixes : List (List Nat)) (calls : List (List Nat × Nat))
    (k : Nat),
    iterateLoop ((cs.flatMap treeNode.nodes).length + k) (cs ++ nodes)
        (List.replicate cs.length label ++ prefixes) calls
      = iterateLoop k nodes prefixes (calls ++ cs.flatMap (visitsOf label))
  | [], label, nodes, prefixes, calls, k => by simp
  | c :: cs, label, nodes, prefixes, calls, k => by
    simp only [List.flatMap_cons, List.length_append, List.cons_append, List.length_cons,
      List.replicate_succ]
    rw [Nat.add_assoc, iterateLoop_node c, iterateLoop_children cs, List.append_assoc]
end

end IterateLemmas

section PathLemmas

theorem keyFrom_snoc : ∀ (p : List Nat) (n : treeNode) (pre : List Nat) (i : Nat) (c : treeNode),
    n.nodeAtIdx (p ++ [i]) = some c →
    n.keyFrom pre (p ++ [i]) = n.keyFrom pre p ++ [semicolon] ++ c.Name
  | [], n, pre, i, c, h => by
    simp only [List.nil_append, treeNode.nodeAtIdx] at h
    simp only [List.nil_append, treeNode.keyFrom]
    cases hc : n.ChildrenNodes[i]? with
    | none => simp [hc] at h
    | some c' =>
      simp only [hc, Option.some.injEq] at h
      subst h
      rfl
  | a :: p, n, pre, i, c, h => by
    simp only [List.cons_append, treeNode.nodeAtIdx] at h
    simp only [List.cons_append, treeNode.keyFrom]
    cases hc : n.ChildrenNodes[a]? with
    | none => simp [hc] at h
    | some c' =>
      simp only [hc] at h
      exact keyFrom_snoc p c' _ i c h

theorem mem_pathsFrom_iff (P : treeNode → List Nat → Prop) :
    ∀ (cs : List treeNode) (i : Nat), (∀ c ∈ cs, ∀ q, q ∈ c.paths ↔ P c q) →
      ∀ p, p ∈ treeNode.pathsFrom i cs ↔
        ∃ j q, p = (i + j) :: q ∧ ∃ c, cs[j]? = some c ∧ P c q
  | [], i, _, p => by simp [treeNode.pathsFrom]
  | c :: cs, i, h, p => by
    rw [treeNode.pathsFrom, List.mem_append,
      mem_pathsFrom_iff P cs (i + 1) (fun c' hc' => h c' (List.mem_cons_of_mem _ hc'))]
    constructor
    · rintro (hp | ⟨j, q, rfl, c', hc', hP⟩)
      · obtain ⟨q, hq, rfl⟩ := List.mem_map.1 hp
        exact ⟨0, q, rfl, c, by simp, (h c (List.mem_cons_self _ _) q).1 hq⟩
      · exact ⟨j + 1, q, by simp [Nat.add_assoc, Nat.add_comm 1 j], c', by simpa using hc', hP⟩
    · rintro ⟨j, q, rfl, c', hc', hP⟩
      cases j with
      | zero =>
        simp only [List.getElem?_cons_zero, Option.some.injEq] at hc'
        subst hc'
        exact Or.inl (List.mem_map.2 ⟨q, (h _ (List.mem_cons_self _ _) q).2 hP, rfl⟩)
      | succ j =>
        exact Or.inr ⟨j, q, by simp [Nat.add_assoc, Nat.add_comm 1 j], c', by simpa using hc', hP⟩

theorem mem_paths_iff : ∀ (k : Nat) (n : treeNode), n.nodes.length ≤ k →
    ∀ p, p ∈ n.paths ↔ (n.nodeAtIdx p).isSome = true := by
  intro k
  induction k with
  | zero =>
    intro n hk
    cases n
    simp [nodes_mk] at hk
  | succ k ih =>
    intro n hk p
    cases n with
    | mk name total self cs =>
      rw [nodes_mk] at hk
      have hch : ∀ c ∈ cs, ∀ q, q ∈ c.paths ↔ (c.nodeAtIdx q).isSome = true := by
        intro c hc
        apply ih
        have h1 : c.nodes.length ≤ (cs.flatMap treeNode.nodes).length := by
          have := List.sublist_flatten_of_mem (List.mem_map_of_mem treeNode.nodes hc)
          simpa [List.flatMap] using this.length_le
        simp only [List.length_cons] at hk
        omega
      rw [paths_mk, List.mem_cons,
        mem_pathsFrom_iff (fun c q => (c.nodeAtIdx q).isSome = true) cs 0 hch]
      cases p with
      | nil => simp [treeNode.nodeAtIdx]
      | cons a p =>
        simp only [treeNode.nodeAtIdx, treeNode.ChildrenNodes_mk, Nat.zero_add,
          List.cons.injEq, false_or, reduceCtorEq]
        constructor
        · rintro ⟨j, q, ⟨rfl, rfl⟩, c, hc, hP⟩
          simpa [hc] using hP
        · intro h
          cases hc : cs[a]? with
          | none => simp [hc] at h
          | some c => exact ⟨a, p, ⟨rfl, rfl⟩, c, hc, by simpa [hc] using h⟩

theorem head_ge_of_mem_pathsFrom : ∀ (cs : List treeNode) (i : Nat) (p : List Nat),
    p ∈ treeNode.pathsFrom i cs → ∃ j q, p = j :: q ∧ i ≤ j
  | [], _, _, h => by simp [treeNode.pathsFrom] at h
  | c :: cs, i, p, h => by
    rw [treeNode.pathsFrom, List.mem_append] at h
    rcases h with h | h
    · obtain ⟨q, _, rfl⟩ := List.mem_map.1 h
      exact ⟨i, q, rfl, le_rfl⟩
    · obtain ⟨j, q, rfl, hj⟩ := head_ge_of_mem_pathsFrom cs (i + 1) p h
      exact ⟨j, q, rfl, by omega⟩

mutual
theorem paths_nodup : ∀ n : treeNode, n.paths.Nodup
  | .mk name total self cs => by
    rw [paths_mk, List.nodup_cons]
    refine ⟨fun h => ?_, pathsFrom_nodup cs 0⟩
    obtain ⟨j, q, hjq, _⟩ := head_ge_of_mem_pathsFrom cs 0 [] h
    simp at hjq
theorem pathsFrom_nodup : ∀ (cs : List treeNode) (i : Nat), (treeNode.pathsFrom i cs).Nodup
  | [], _ => by simp [treeNode.pathsFrom]
  | c :: cs, i => by
    rw [treeNode.pathsFrom, List.nodup_append]
    refine ⟨(paths_nodup c).map (fun a b h => by simpa using h), pathsFrom_nodup cs (i + 1), ?_⟩
    intro p hp hp'
    obtain ⟨q, _, rfl⟩ := List.mem_map.1 hp
    obtain ⟨j, q', hjq, hj⟩ := head_ge_of_mem_pathsFrom cs (i + 1) _ hp'
    simp only [List.cons.injEq] at hjq
    omega
end

theorem nil_sublist_paths (n : treeNode) : List.Sublist [([] : List Nat)] n.paths := by
  cases n
  rw [paths_mk]
  exact (List.nil_sublist _).cons₂ _

theorem block_sublist_pathsFrom : ∀ (cs : List treeNode) (i j : Nat) (c : treeNode),
    cs[j]? = some c → List.Sublist (c.paths.map (fun p => (i + j) :: p)) (treeNode.pathsFrom i cs)
  | [], _, _, _, h => by simp at h
  | c' :: cs, i, 0, c, h => by
    simp only [List.getElem?_cons_zero, Option.some.injEq] at h
    subst h
    rw [treeNode.pathsFrom]
    exact List.sublist_append_left _ _
  | c' :: cs, i, j + 1, c, h => by
    rw [treeNode.pathsFrom]
    have := block_sublist_pathsFrom cs (i + 1) j c (by simpa using h)
    rw [show i + 1 + j = i + (j + 1) by omega] at this
    exact this.trans (List.sublist_append_right _ _)

theorem two_blocks_sublist_pathsFrom : ∀ (cs : List treeNode) (i a b : Nat) (ca cb : treeNode),
    a < b → cs[a]? = some ca → cs[b]? = some cb →
    List.Sublist (ca.paths.map (fun p => (i + a) :: p) ++ cb.paths.map (fun p => (i + b) :: p))
      (treeNode.pathsFrom i cs)
  | [], _, _, _, _, _, _, h, _ => by simp at h
  | c' :: cs, i, 0, b + 1, ca, cb, _, ha, hb => by
    simp only [List.getElem?_cons_zero, Option.some.injEq] at ha
    subst ha
    rw [treeNode.pathsFrom]
    have := block_sublist_pathsFrom cs (i + 1) b cb (by simpa using hb)
    rw [show i + 1 + b = i + (b + 1) by omega] at this
    exact List.Sublist.append (List.Sublist.refl _) this
  | c' :: cs, i, a + 1, b + 1, ca, cb, hab, ha, hb => by
    rw [treeNode.pathsFrom]
    have := two_blocks_sublist_pathsFrom cs (i + 1) a b ca cb (by omega) (by simpa using ha)
      (by simpa using hb)
    rw [show i + 1 + a = i + (a + 1) by omega, show i + 1 + b = i + (b + 1) by omega] at this
    exact this.trans (List.sublist_append_right _ _)

theorem siblings_in_order : ∀ (p : List Nat) (n : treeNode) (i j : Nat), i < j →
    (n.nodeAtIdx (p ++ [j])).isSome = true → List.Sublist [p ++ [i], p ++ [j]] n.paths
  | [], .mk name total self cs, i, j, hij, h => by
    simp only [List.nil_append, treeNode.nodeAtIdx, treeNode.ChildrenNodes_mk] at h
    rw [paths_mk]
    apply List.Sublist.cons
    cases hj : cs[j]? with
    | none => simp [hj] at h
    | some cj =>
      have hjlt : j < cs.length := by
        by_contra hcon
        rw [List.getElem?_eq_none (by omega)] at hj
        cases hj
      have hi : cs[i]? = some (cs.get ⟨i, by omega⟩) := by
        simp [List.getElem?_eq_getElem (show i < cs.length by omega)]
      have h2 := two_blocks_sublist_pathsFrom cs 0 i j _ cj hij hi hj
      refine List.Sublist.trans ?_ h2
      have h3 := ((nil_sublist_paths (cs.get ⟨i, by omega⟩)).map (fun p => (0 + i) :: p)).append
        ((nil_sublist_paths cj).map (fun p => (0 + j) :: p))
      simpa using h3
  | a :: p, .mk name total self cs, i, j, hij, h => by
    simp only [List.cons_append, treeNode.nodeAtIdx, treeNode.ChildrenNodes_mk] at h
    rw [paths_mk]
    apply List.Sublist.cons
    cases ha : cs[a]? with
    | none => simp [ha] at h
    | some c =>
      simp only [ha] at h
      have ih := siblings_in_order p c i j hij h
      have h2 := block_sublist_pathsFrom cs 0 a c ha
      refine List.Sublist.trans ?_ h2
      simpa using ih.map (fun p => (0 + a) :: p)

end PathLemmas

/-! ### Iterate -/

/-- C9: given fuel for one loop round per node, `Iterate` returns, and the calls
it makes to `cb` are, in order, `(key, self)` for the child-index paths listed by
`paths`. That list names every node of the tree exactly once (no path twice; a
path is listed iff it leads to a node). The key of the root is the empty parent
key, the separator and the root name; the key of any other node is the key of
its parent, the separator and its own name; the value is the node's `Self`; and
of two children of one node the one stored first is visited first. -/
theorem Iterate_visits_each_node_once (t : Tree) (fuel : Nat)
    (hfuel : t.root.nodes.length ≤ fuel) :
    t.Iterate fuel = some (t.root.paths.map (fun p => (t.root.keyAt p, t.root.selfAt p))) ∧
    t.root.paths.Nodup ∧
    (∀ p, p ∈ t.root.paths ↔ (t.root.nodeAtIdx p).isSome = true) ∧
    t.root.keyAt [] = [] ++ [semicolon] ++ t.root.Name ∧
    (∀ p i c, t.root.nodeAtIdx (p ++ [i]) = some c →
      t.root.keyAt (p ++ [i]) = t.root.keyAt p ++ [semicolon] ++ c.Name) ∧
    (∀ p n, t.root.nodeAtIdx p = some n → t.root.selfAt p = n.Self) ∧
    (∀ p i j, i < j → (t.root.nodeAtIdx (p ++ [j])).isSome = true →
      List.Sublist [p ++ [i], p ++ [j]] t.root.paths) := by
  refine ⟨?_, paths_nodup _, mem_paths_iff _ _ le_rfl, rfl,
    fun p i c h => keyFrom_snoc p _ _ i c h, fun p n h => by simp [treeNode.selfAt, h],
    fun p i j hij h => siblings_in_order p _ i j hij h⟩
  obtain ⟨k, rfl⟩ := Nat.exists_eq_add_of_le hfuel
  have := iterateLoop_node t.root [] [] [] [] k
  rw [Tree.Iterate, this]
  cases k <;> simp [iterateLoop, visitsOf, treeNode.keyAt]

theorem Iterate_visits_each_node_once_witness :
    sampleTree.Iterate 4 = some (sampleTree.root.paths.map
      (fun p => (sampleTree.root.keyAt p, sampleTree.root.selfAt p))) ∧
    sampleTree.root.paths = [[], [0], [0, 0], [0, 1]] :=
  ⟨(Iterate_visits_each_node_once sampleTree 4 (by decide)).1, by decide⟩

/-- C10: the tree built by `Insert("a;b", 1); Insert("c", 1)` is `deepThenWide`,
and on it `Iterate` calls `cb` for `;;a;b` (path `[0, 0]`, depth 2) before it
calls it for `;;c` (path `[1]`, depth 1): the work list is used as a stack. -/
theorem Iterate_deeper_before_shallower :
    (New.Insert [97, 59, 98] 1).Insert [99] 1 = deepThenWide ∧
    deepThenWide.Iterate 4
      = some [([59], 0), ([59, 59, 97], 0), ([59, 59, 97, 59, 98], 1), ([59, 59, 99], 1)] ∧
    deepThenWide.root.paths = [[], [0], [0, 0], [1]] :=
  ⟨rfl, by decide, by decide⟩

section SearchLemmas

theorem searchLoop_spec (f : Nat → Bool) (n : Nat)
    (hmono : ∀ a b, a ≤ b → b < n → f a = true → f b = true) :
    ∀ (fuel i j : Nat), i ≤ j → j ≤ n → j - i ≤ fuel →
      (∀ k, k < i → f k = false) → (∀ k, j ≤ k → k < n → f k = true) →
      i ≤ searchLoop f fuel i j ∧ searchLoop f fuel i j ≤ j ∧
      (∀ k, k < searchLoop f fuel i j → f k = false) ∧
      (∀ k, searchLoop f fuel i j ≤ k → k < n → f k = true)
  | 0, i, j, hij, _, hfuel, hlo, hhi => by
    have : i = j := by omega
    subst this
    simp only [searchLoop]
    exact ⟨le_rfl, le_rfl, hlo, hhi⟩
  | fuel + 1, i, j, hij, hjn, hfuel, hlo, hhi => by
    rw [searchLoop]
    by_cases hlt : i < j
    · simp only [hlt, if_true]
      have hh1 : i ≤ (i + j) / 2 := by omega
      have hh2 : (i + j) / 2 < j := by omega
      cases hf : f ((i + j) / 2) with
      | false =>
        simp only [Bool.not_false, if_true]
        have ih := searchLoop_spec f n hmono fuel ((i + j) / 2 + 1) j (by omega) hjn (by omega)
          (fun k hk => by
            cases hfk : f k with
            | false => rfl
            | true =>
              have := hmono k ((i + j) / 2) (by omega) (by omega) hfk
              rw [hf] at this
              cases this)
          hhi
        exact ⟨by omega, ih.2.1, ih.2.2⟩
      | true =>
        simp only [Bool.not_true, Bool.false_eq_true, if_false]
        have ih := searchLoop_spec f n hmono fuel i ((i + j) / 2) hh1 (by omega) (by omega) hlo
          (fun k hk hkn => hmono _ k hk hkn hf)
        exact ⟨ih.1, by omega, ih.2.2⟩
    · have : i = j := by omega
      subst this
      simp only [lt_irrefl, if_false]
      exact ⟨le_rfl, le_rfl, hlo, hhi⟩

theorem sortSearch_spec (f : Nat → Bool) (n : Nat)
    (hmono : ∀ a b, a ≤ b → b < n → f a = true → f b = true) :
    sortSearch n f ≤ n ∧ (∀ k, k < sortSearch n f → f k = false) ∧
      (∀ k, sortSearch n f ≤ k → k < n → f k = true) := by
  have := searchLoop_spec f n hmono n 0 n (Nat.zero_le _) le_rfl (by omega)
    (fun k hk => absurd hk (Nat.not_lt_zero _)) (fun k hk hkn => absurd hkn (by omega))
  exact ⟨this.2.1, this.2.2⟩

theorem searchLoop_le (f : Nat → Bool) :
    ∀ (fuel i j : Nat), i ≤ j → i ≤ searchLoop f fuel i j ∧ searchLoop f fuel i j ≤ j
  | 0, i, j, hij => by simp [searchLoop, hij]
  | fuel + 1, i, j, hij => by
    rw [searchLoop]
    by_cases hlt : i < j
    · simp only [hlt, if_true]
      cases hf : f ((i + j) / 2) with
      | false =>
        simp only [Bool.not_false, if_true]
        have := searchLoop_le f fuel ((i + j) / 2 + 1) j (by omega)
        omega
      | true =>
        simp only [Bool.not_true, Bool.false_eq_true, if_false]
        have := searchLoop_le f fuel i ((i + j) / 2) (by omega)
        omega
    · simp [hlt, hij]

theorem sortSearch_le (n : Nat) (f : Nat → Bool) : sortSearch n f ≤ n :=
  (searchLoop_le f n 0 n (Nat.zero_le _)).2

/-- With `j - i` rounds of fuel the loop of `sort.Search` ends by its own test:
more fuel does not change the result. -/
theorem searchLoop_fuel (f : Nat → Bool) :
    ∀ (fuel extra i j : Nat), j - i ≤ fuel →
      searchLoop f (fuel + extra) i j = searchLoop f fuel i j
  | 0, extra, i, j, h => by
    have : ¬ i < j := by omega
    cases extra <;> simp [searchLoop, this]
  | fuel + 1, extra, i, j, h => by
    rw [show fuel + 1 + extra = (fuel + extra) + 1 by omega, searchLoop, searchLoop]
    by_cases hlt : i < j
    · simp only [hlt, if_true]
      rw [searchLoop_fuel f fuel extra _ _ (by omega),
        searchLoop_fuel f fuel extra _ _ (by omega)]
    · simp [hlt]

end SearchLemmas

section CompareLemmas

theorem bytesCompare_eq_zero : ∀ a b : List Nat, bytesCompare a b = 0 ↔ a = b
  | [], [] => by simp [bytesCompare]
  | [], _ :: _ => by simp [bytesCompare]
  | _ :: _, [] => by simp [bytesCompare]
  | a :: as, b :: bs => by
    rw [bytesCompare]
    by_cases h1 : a < b
    · simp [h1]; omega
    · by_cases h2 : b < a
      · simp [h1, h2]; omega
      · have : a = b := by omega
        subst this
        simp [bytesCompare_eq_zero as bs]

theorem bytesCompare_swap : ∀ a b : List Nat, bytesCompare b a = - bytesCompare a b
  | [], [] => by simp [bytesCompare]
  | [], _ :: _ => by simp [bytesCompare]
  | _ :: _, [] => by simp [bytesCompare]
  | a :: as, b :: bs => by
    rw [bytesCompare, bytesCompare]
    by_cases h1 : a < b
    · have : ¬ b < a := by omega
      simp [h1, this]
    · by_cases h2 : b < a
      · simp [h1, h2]
      · simp [h1, h2, bytesCompare_swap as bs]

theorem bytesCompare_trans : ∀ a b c : List Nat,
    bytesCompare a b < 0 → bytesCompare b c < 0 → bytesCompare a c < 0
  | [], [], _, h, _ => by simp [bytesCompare] at h
  | [], _ :: _, [], _, h => by simp [bytesCompare] at h
  | [], _ :: _, _ :: _, _, _ => by simp [bytesCompare]
  | _ :: _, [], _, h, _ => by simp [bytesCompare] at h
  | _ :: _, _ :: _, [], _, h => by simp [bytesCompare] at h
  | a :: as, b :: bs, c :: cs, h1, h2 => by
    rw [bytesCompare] at h1 h2 ⊢
    by_cases hab : a < b
    · by_cases hbc : b < c
      · have : a < c := by omega
        simp [this]
      · by_cases hcb : c < b
        · simp [hbc, hcb] at h2
        · have : a < c := by omega
          simp [this]
    · by_cases hba : b < a
      · simp [hab, hba] at h1
      · simp only [hab, hba, if_false] at h1
        have hab' : a = b := by omega
        subst hab'
        by_cases hbc : a < c
        · simp [hbc]
        · by_cases hcb : c < a
          · simp [hbc, hcb] at h2
          · simp only [hbc, hcb, if_false] at h2 ⊢
            exact bytesCompare_trans as bs cs h1 h2

theorem bytesCompare_irrefl (a : List Nat) : ¬ bytesCompare a a < 0 := by
  rw [(bytesCompare_eq_zero a a).2 rfl]
  exact lt_irrefl _

end CompareLemmas

/-- The order of `bytesCompare` is the lexicographic order of the byte lists. -/
theorem bytesCompare_neg_iff_lex : ∀ a b : List Nat,
    bytesCompare a b < 0 ↔ List.Lex (fun x y : Nat => x < y) a b
  | [], [] => by simp [bytesCompare]
  | [], _ :: _ => by simp [bytesCompare, List.Lex.nil]
  | _ :: _, [] => by simp [bytesCompare]
  | a :: as, b :: bs => by
    rw [bytesCompare]
    by_cases h1 : a < b
    · simp only [h1, if_true]
      exact ⟨fun _ => List.Lex.rel h1, fun _ => by decide⟩
    · by_cases h2 : b < a
      · simp only [h1, h2, if_false, if_true]
        constructor
        · intro h; exact absurd h (by decide)
        · intro h
          cases h with
          | cons h' => exact absurd h2 (lt_irrefl _)
          | rel h' => exact absurd h' h1
      · have : a = b := by omega
        subst this
        simp only [h1, if_false]
        rw [bytesCompare_neg_iff_lex as bs]
        constructor
        · intro h; exact List.Lex.cons h
        · intro h
          cases h with
          | cons h' => exact h'
          | rel h' => exact absurd h' h1

theorem bigTree_built : New.Insert [97] (2 ^ 63) = bigTree := rfl

theorem twoLeaves_built : (New.Insert [97] 1).Insert [98] 1 = twoLeaves := rfl

theorem treeXY_built : New.Insert [120, 59, 121] 10 = treeXY := rfl

theorem treeXZ_built : New.Insert [120, 59, 122] 7 = treeXZ := rfl

section ListLemmas

variable {α : Type}

theorem modifyAt_length (f : α → α) : ∀ (i : Nat) (s : List α), (modifyAt f i s).length = s.length
  | _, [] => by simp [modifyAt]
  | 0, _ :: _ => by simp [modifyAt]
  | i + 1, _ :: s => by simp [modifyAt, modifyAt_length f i s]

theorem modifyAt_getElem? (f : α → α) : ∀ (i j : Nat) (s : List α),
    (modifyAt f i s)[j]? = if j = i then s[j]?.map f else s[j]?
  | _, _, [] => by simp [modifyAt]
  | 0, 0, _ :: _ => by simp [modifyAt]
  | 0, j + 1, _ :: _ => by simp [modifyAt]
  | i + 1, 0, _ :: _ => by simp [modifyAt]
  | i + 1, j + 1, _ :: s => by simp [modifyAt, modifyAt_getElem? f i j s]

theorem modifyAt_eq_of_le (f : α → α) : ∀ (i : Nat) (s : List α), s.length ≤ i →
    modifyAt f i s = s
  | _, [], _ => by simp [modifyAt]
  | 0, _ :: _, h => by simp at h
  | i + 1, a :: s, h => by
    simp only [modifyAt, modifyAt_eq_of_le f i s (by simpa using h)]

theorem modifyAt_eq_take_drop (f : α → α) : ∀ (i : Nat) (s : List α) (x : α), s[i]? = some x →
    modifyAt f i s = s.take i ++ f x :: s.drop (i + 1)
  | _, [], _, h => by simp at h
  | 0, a :: s, x, h => by
    simp only [List.getElem?_cons_zero, Option.some.injEq] at h
    subst h
    simp [modifyAt]
  | i + 1, a :: s, x, h => by
    simp only [List.getElem?_cons_succ] at h
    simp [modifyAt, modifyAt_eq_take_drop f i s x h]

theorem map_modifyAt {β : Type} (g : α → β) (f : α → α) (hg : ∀ a, g (f a) = g a) :
    ∀ (i : Nat) (s : List α), (modifyAt f i s).map g = s.map g
  | _, [] => by simp [modifyAt]
  | 0, _ :: _ => by simp [modifyAt, hg]
  | i + 1, _ :: s => by simp [modifyAt, map_modifyAt g f hg i s]

theorem mem_modifyAt (f : α → α) : ∀ (i : Nat) (s : List α) (y : α), y ∈ modifyAt f i s →
    y ∈ s ∨ ∃ x, s[i]? = some x ∧ y = f x
  | _, [], _, h => by simp [modifyAt] at h
  | 0, a :: s, y, h => by
    simp only [modifyAt, List.mem_cons] at h
    rcases h with h | h
    · exact Or.inr ⟨a, by simp, h⟩
    · exact Or.inl (List.mem_cons_of_mem _ h)
  | i + 1, a :: s, y, h => by
    simp only [modifyAt, List.mem_cons] at h
    rcases h with h | h
    · exact Or.inl (by simp [h])
    · rcases mem_modifyAt f i s y h with h' | ⟨x, hx, hy⟩
      · exact Or.inl (List.mem_cons_of_mem _ h')
      · exact Or.inr ⟨x, by simpa using hx, hy⟩

theorem insertAt_length (x : α) (i : Nat) (s : List α) (h : i ≤ s.length) :
    (insertAt x i s).length = s.length + 1 := by
  simp [insertAt, List.length_take, List.length_drop]
  omega

theorem insertAt_getElem?_self (x : α) (i : Nat) (s : List α) (h : i ≤ s.length) :
    (insertAt x i s)[i]? = some x := by
  unfold insertAt
  rw [List.getElem?_append_right (by simp [List.length_take, h])]
  simp [List.length_take, h]

theorem insertAt_getElem?_lt (x : α) (i j : Nat) (s : List α) (h : i ≤ s.length) (hj : j < i) :
    (insertAt x i s)[j]? = s[j]? := by
  unfold insertAt
  rw [List.getElem?_append_left (by simp [List.length_take]; omega)]
  rw [List.getElem?_take_of_lt hj]

theorem insertAt_getElem?_ge (x : α) (i j : Nat) (s : List α) (h : i ≤ s.length) (hj : i ≤ j) :
    (insertAt x i s)[j + 1]? = s[j]? := by
  unfold insertAt
  rw [List.getElem?_append_right (by simp [List.length_take]; omega)]
  have h1 : (List.take i s).length = i := by simp [List.length_take, h]
  rw [h1, show j + 1 - i = (j - i) + 1 by omega, List.getElem?_cons_succ, List.getElem?_drop]
  congr 1
  omega

theorem mem_insertAt (x y : α) (i : Nat) (s : List α) :
    y ∈ insertAt x i s ↔ y = x ∨ y ∈ s := by
  unfold insertAt
  rw [List.mem_append, List.mem_cons]
  constructor
  · rintro (h | h | h)
    · exact Or.inr (List.mem_of_mem_take h)
    · exact Or.inl h
    · exact Or.inr (List.mem_of_mem_drop h)
  · rintro (h | h)
    · exact Or.inr (Or.inl h)
    · rw [← List.take_append_drop i s, List.mem_append] at h
      rcases h with h | h
      · exact Or.inl h
      · exact Or.inr (Or.inr h)

end ListLemmas

section InsertLemmas

/-- The search predicate of `insert`. -/
theorem insert_eq (n : treeNode) (l : List Nat) :
    n.insert l =
      (let i := sortSearch n.ChildrenNodes.length (fun i =>
        match n.ChildrenNodes[i]? with
        | some c => decide (bytesCompare c.Name l ≥ 0)
        | none => false)
      if decide (i = n.ChildrenNodes.length) ||
          (match n.ChildrenNodes[i]? with
            | some c => !bytesEqual c.Name l
            | none => true) then
        (.mk n.Name n.Total n.Self (insertAt (newNode l) i n.ChildrenNodes), i)
      else (n, i)) := rfl

/-- What `insert` does on any node: the index is in range, and either the child
at that index already has the label and nothing changes, or a fresh node with
the label is placed at that index. -/
theorem insert_cases (n : treeNode) (l : List Nat) :
    (n.insert l).2 ≤ n.ChildrenNodes.length ∧
    (((n.insert l).1 = n ∧ ∃ c, n.ChildrenNodes[(n.insert l).2]? = some c ∧ c.Name = l) ∨
     ((n.insert l).1 = .mk n.Name n.Total n.Self
        (insertAt (newNode l) (n.insert l).2 n.ChildrenNodes) ∧
      ∀ c, n.ChildrenNodes[(n.insert l).2]? = some c → c.Name ≠ l)) := by
  rw [insert_eq]
  generalize hi : sortSearch n.ChildrenNodes.length _ = i
  have hle : i ≤ n.ChildrenNodes.length := hi ▸ sortSearch_le _ _
  simp only
  refine ⟨by split <;> exact hle, ?_⟩
  cases hc : n.ChildrenNodes[i]? with
  | none =>
    have : i = n.ChildrenNodes.length := by
      have := List.getElem?_eq_none_iff.1 hc
      omega
    simp [this]
  | some c =>
    have hlt : i < n.ChildrenNodes.length := by
      by_contra hcon
      rw [List.getElem?_eq_none (by omega)] at hc
      cases hc
    by_cases hcl : c.Name = l
    · simp [hcl, bytesEqual, hlt.ne, hc]
    · simp [hcl, bytesEqual, hlt.ne, hc]

theorem insert_fields (n : treeNode) (l : List Nat) :
    (n.insert l).1.Name = n.Name ∧ (n.insert l).1.Total = n.Total ∧
      (n.insert l).1.Self = n.Self := by
  rcases (insert_cases n l).2 with ⟨h, _⟩ | ⟨h, _⟩ <;> rw [h] <;> simp

theorem insert_child (n : treeNode) (l : List Nat) :
    ∃ c, (n.insert l).1.ChildrenNodes[(n.insert l).2]? = some c ∧ c.Name = l := by
  obtain ⟨hle, h | h⟩ := insert_cases n l
  · rw [h.1]; exact h.2
  · rw [h.1]
    exact ⟨newNode l, by simpa using insertAt_getElem?_self _ _ _ hle, rfl⟩

theorem insert_idx_lt (n : treeNode) (l : List Nat) :
    (n.insert l).2 < (n.insert l).1.ChildrenNodes.length := by
  obtain ⟨c, hc, _⟩ := insert_child n l
  by_contra hcon
  rw [List.getElem?_eq_none (by omega)] at hc
  cases hc

theorem sortedNames_get {cs : List treeNode} (h : sortedNames cs) {a b : Nat} {x y : treeNode}
    (hab : a < b) (hx : cs[a]? = some x) (hy : cs[b]? = some y) :
    bytesCompare x.Name y.Name < 0 := by
  unfold sortedNames at h
  rw [List.pairwise_iff_getElem] at h
  have hb : b < cs.length := by
    by_contra hcon
    rw [List.getElem?_eq_none (by omega)] at hy
    cases hy
  have ha : a < cs.length := by omega
  have := h a b (by simpa using ha) (by simpa using hb) hab
  rw [List.getElem?_eq_getElem ha] at hx
  rw [List.getElem?_eq_getElem hb] at hy
  simp only [Option.some.injEq] at hx hy
  subst hx hy
  simpa using this

/-- On sorted children the binary search of `insert` returns the partition
point: every child before the index is below the label, every child from the
index on is not. -/
theorem insert_sorted_idx (n : treeNode) (l : List Nat) (h : sortedNames n.ChildrenNodes) :
    (∀ k c, k < (n.insert l).2 → n.ChildrenNodes[k]? = some c → bytesCompare c.Name l < 0) ∧
    (∀ k c, (n.insert l).2 ≤ k → n.ChildrenNodes[k]? = some c → 0 ≤ bytesCompare c.Name l) := by
  have hidx : (n.insert l).2 = sortSearch n.ChildrenNodes.length (fun i =>
        match n.ChildrenNodes[i]? with
        | some c => decide (bytesCompare c.Name l ≥ 0)
        | none => false) := by
    rw [insert_eq]
    simp only
    split <;> rfl
  rw [hidx]
  have hmono : ∀ a b, a ≤ b → b < n.ChildrenNodes.length →
      (fun i => match n.ChildrenNodes[i]? with
        | some c => decide (bytesCompare c.Name l ≥ 0)
        | none => false) a = true →
      (fun i => match n.ChildrenNodes[i]? with
        | some c => decide (bytesCompare c.Name l ≥ 0)
        | none => false) b = true := by
    intro a b hab hb hfa
    simp only at hfa ⊢
    have ha : a < n.ChildrenNodes.length := by omega
    rw [List.getElem?_eq_getElem ha] at hfa
    rw [List.getElem?_eq_getElem hb]
    simp only [ge_iff_le, decide_eq_true_eq] at hfa ⊢
    rcases Nat.eq_or_lt_of_le hab with rfl | hlt
    · exact hfa
    · have h1 := sortedNames_get h hlt (List.getElem?_eq_getElem ha) (List.getElem?_eq_getElem hb)
      by_contra hcon
      have h2 : bytesCompare (n.ChildrenNodes[b]).Name l < 0 := by omega
      have h3 := bytesCompare_trans _ _ _ h1 h2
      omega
  obtain ⟨hle, hlo, hhi⟩ := sortSearch_spec _ n.ChildrenNodes.length hmono
  refine ⟨fun k c hk hc => ?_, fun k c hk hc => ?_⟩
  · have := hlo k hk
    simp only [hc, ge_iff_le, decide_eq_false_iff_not, not_le] at this
    exact this
  · have hklt : k < n.ChildrenNodes.length := by
      by_contra hcon
      rw [List.getElem?_eq_none (by omega)] at hc
      cases hc
    have := hhi k hk hklt
    simp only [hc, ge_iff_le, decide_eq_true_eq] at this
    exact this

/-- On sorted children, a label for which `insert` creates a node is the name of
no child, and the children stay sorted. -/
theorem insert_sorted (n : treeNode) (l : List Nat) (h : sortedNames n.ChildrenNodes) :
    sortedNames (n.insert l).1.ChildrenNodes ∧
    ((n.insert l).1 ≠ n → ∀ c ∈ n.ChildrenNodes, c.Name ≠ l) := by
  obtain ⟨hlo, hhi⟩ := insert_sorted_idx n l h
  obtain ⟨hle, ⟨heq, _⟩ | ⟨heq, hne⟩⟩ := insert_cases n l
  · rw [heq]
    exact ⟨h, fun hcon => absurd rfl hcon⟩
  · generalize (n.insert l).2 = i at *
    have hgt : ∀ k c, i ≤ k → n.ChildrenNodes[k]? = some c → bytesCompare l c.Name < 0 := by
      intro k c hk hc
      have h0 := hhi k c hk hc
      rcases Nat.eq_or_lt_of_le hk with rfl | hlt
      · have := hne c hc
        have h1 : bytesCompare c.Name l ≠ 0 := fun h' => this ((bytesCompare_eq_zero _ _).1 h')
        rw [bytesCompare_swap]
        omega
      · have hilt : i < n.ChildrenNodes.length := by
          by_contra hcon
          rw [List.getElem?_eq_none (by omega)] at hc
          cases hc
        have hci := List.getElem?_eq_getElem hilt
        have h1 := hhi i _ le_rfl hci
        have h2 := hne _ hci
        have h3 : bytesCompare (n.ChildrenNodes[i]).Name l ≠ 0 :=
          fun h' => h2 ((bytesCompare_eq_zero _ _).1 h')
        have h4 : bytesCompare l (n.ChildrenNodes[i]).Name < 0 := by
          rw [bytesCompare_swap]; omega
        exact bytesCompare_trans _ _ _ h4 (sortedNames_get h hlt hci hc)
    have hnotin : ∀ c ∈ n.ChildrenNodes, c.Name ≠ l := by
      intro c hc hcl
      obtain ⟨k, hk, hkc⟩ := List.getElem_of_mem hc
      have hck : n.ChildrenNodes[k]? = some c := by rw [List.getElem?_eq_getElem hk, hkc]
      by_cases hki : k < i
      · have := hlo k c hki hck
        rw [hcl, (bytesCompare_eq_zero l l).2 rfl] at this
        exact lt_irrefl _ this
      · have := hgt k c (by omega) hck
        rw [hcl, (bytesCompare_eq_zero l l).2 rfl] at this
        exact lt_irrefl _ this
    refine ⟨?_, fun _ => hnotin⟩
    rw [heq]
    simp only [treeNode.ChildrenNodes_mk]
    unfold sortedNames insertAt
    rw [List.map_append, List.map_cons, List.pairwise_append]
    unfold sortedNames at h
    have hsplit := h
    rw [← List.take_append_drop i n.ChildrenNodes, List.map_append, List.pairwise_append] at hsplit
    obtain ⟨h1, h2, h3⟩ := hsplit
    refine ⟨h1, ?_, ?_⟩
    · rw [List.pairwise_cons]
      refine ⟨?_, h2⟩
      intro b hb
      obtain ⟨c, hc, rfl⟩ := List.mem_map.1 hb
      obtain ⟨k, hk, hkc⟩ := List.getElem_of_mem hc
      have : n.ChildrenNodes[i + k]? = some c := by
        rw [← hkc, ← List.getElem?_eq_getElem hk, List.getElem?_drop]
      simpa [newNode] using hgt (i + k) c (by omega) this
    · intro a ha b hb
      rcases List.mem_cons.1 hb with rfl | hb
      · obtain ⟨c, hc, rfl⟩ := List.mem_map.1 ha
        obtain ⟨k, hk, hkc⟩ := List.getElem_of_mem hc
        have hki : k < i := by
          have := hk
          simp only [List.length_take] at this
          omega
        have : n.ChildrenNodes[k]? = some c := by
          rw [← hkc, ← List.getElem?_eq_getElem hk, List.getElem?_take_of_lt hki]
        simpa [newNode] using hlo k c hki this
      · exact h3 a ha b hb

end InsertLemmas

section InsertLabelsLemmas

theorem forall_nodes_mk (P : treeNode → Prop) (name : List Nat) (total self : Nat)
    (cs : List treeNode) :
    (∀ x ∈ (treeNode.mk name total self cs).nodes, P x) ↔
      P (.mk name total self cs) ∧ ∀ c ∈ cs, ∀ x ∈ c.nodes, P x := by
  rw [nodes_mk]
  simp only [List.mem_cons, List.mem_flatMap, forall_eq_or_imp]
  constructor
  · rintro ⟨h0, h⟩
    exact ⟨h0, fun c hc x hx => h x ⟨c, hc, hx⟩⟩
  · rintro ⟨h0, h⟩
    exact ⟨h0, fun x ⟨c, hc, hx⟩ => h c hc x hx⟩

theorem forall_nodes_iff (P : treeNode → Prop) (n : treeNode) :
    (∀ x ∈ n.nodes, P x) ↔ P n ∧ ∀ c ∈ n.ChildrenNodes, ∀ x ∈ c.nodes, P x := by
  cases n
  exact forall_nodes_mk P _ _ _ _

theorem sumTotals_append (a b : List treeNode) : sumTotals (a ++ b) = sumTotals a + sumTotals b := by
  simp [sumTotals]

theorem sumTotals_cons (a : treeNode) (b : List treeNode) :
    sumTotals (a :: b) = a.Total + sumTotals b := by
  simp [sumTotals]

theorem sumTotals_insertAt (l : List Nat) (i : Nat) (s : List treeNode) :
    sumTotals (insertAt (newNode l) i s) = sumTotals s := by
  unfold insertAt
  rw [sumTotals_append, sumTotals_cons]
  conv_rhs => rw [← List.take_append_drop i s, sumTotals_append]
  simp [newNode]

theorem sumTotals_modifyAt (f : treeNode → treeNode) (i : Nat) (s : List treeNode) (x : treeNode)
    (h : s[i]? = some x) :
    ∃ rest, sumTotals s = rest + x.Total ∧ sumTotals (modifyAt f i s) = rest + (f x).Total := by
  refine ⟨sumTotals (s.take i) + sumTotals (s.drop (i + 1)), ?_, ?_⟩
  · have hlt : i < s.length := by
      by_contra hcon
      rw [List.getElem?_eq_none (by omega)] at h
      cases h
    conv_lhs => rw [← List.take_append_drop i s, sumTotals_append, List.drop_eq_getElem_cons hlt,
      sumTotals_cons]
    rw [List.getElem?_eq_getElem hlt] at h
    simp only [Option.some.injEq] at h
    rw [h]
    omega
  · rw [modifyAt_eq_take_drop f i s x h, sumTotals_append, sumTotals_cons]
    omega

theorem insert_sumTotals (n : treeNode) (l : List Nat) :
    sumTotals (n.insert l).1.ChildrenNodes = sumTotals n.ChildrenNodes := by
  rcases (insert_cases n l).2 with ⟨h, _⟩ | ⟨h, _⟩
  · rw [h]
  · rw [h]
    simp [sumTotals_insertAt]

theorem insert_mem_children (n : treeNode) (l : List Nat) (c : treeNode)
    (hc : c ∈ (n.insert l).1.ChildrenNodes) : c ∈ n.ChildrenNodes ∨ c = newNode l := by
  rcases (insert_cases n l).2 with ⟨h, _⟩ | ⟨h, _⟩
  · rw [h] at hc
    exact Or.inl hc
  · rw [h] at hc
    simp only [treeNode.ChildrenNodes_mk, mem_insertAt] at hc
    exact hc.symm

theorem newNode_nodes (l : List Nat) : (newNode l).nodes = [newNode l] := by
  simp [newNode, nodes_mk]

theorem insertLabels_fields (v : Nat) : ∀ (ls : List (List Nat)) (n : treeNode),
    (insertLabels v ls n).Name = n.Name ∧ (insertLabels v ls n).Total = (n.Total + v) % u64
  | [], n => by simp [insertLabels]
  | l :: ls, n => by
    have := insert_fields n l
    simp [insertLabels, this.1, this.2.1]

theorem insertLabels_nodeInv (v : Nat) : ∀ (ls : List (List Nat)) (n : treeNode),
    (∀ x ∈ n.nodes, x.nodeInv) → ∀ x ∈ (insertLabels v ls n).nodes, x.nodeInv
  | [], n => by
    intro h
    rw [forall_nodes_iff] at h
    rw [insertLabels, forall_nodes_mk]
    refine ⟨?_, h.2⟩
    have h0 := h.1
    simp only [treeNode.nodeInv, treeNode.Total_mk, treeNode.Self_mk,
      treeNode.ChildrenNodes_mk] at h0 ⊢
    rw [h0]
    simp only [u64]
    omega
  | l :: ls, n => by
    intro h
    rw [forall_nodes_iff] at h
    rw [insertLabels, forall_nodes_mk]
    obtain ⟨c, hc, _⟩ := insert_child n l
    obtain ⟨hN, hT, hS⟩ := insert_fields n l
    have hchildren : ∀ c' ∈ (n.insert l).1.ChildrenNodes, ∀ x ∈ c'.nodes, x.nodeInv := by
      intro c' hc'
      rcases insert_mem_children n l c' hc' with h' | rfl
      · exact h.2 c' h'
      · rw [newNode_nodes]
        intro x hx
        rw [List.mem_singleton] at hx
        subst hx
        simp [treeNode.nodeInv, newNode, sumTotals]
    refine ⟨?_, ?_⟩
    · obtain ⟨rest, h1, h2⟩ := sumTotals_modifyAt (insertLabels v ls) _ _ c hc
      have h0 := h.1
      simp only [treeNode.nodeInv, treeNode.Total_mk, treeNode.Self_mk,
        treeNode.ChildrenNodes_mk] at h0 ⊢
      rw [h2, (insertLabels_fields v ls c).2, hT, hS, h0, ← insert_sumTotals n l, h1]
      simp only [u64]
      omega
    · intro c' hc'
      rcases mem_modifyAt _ _ _ _ hc' with h' | ⟨x, hx, rfl⟩
      · exact hchildren c' h'
      · exact insertLabels_nodeInv v ls x (hchildren x (List.getElem?_mem hx))

theorem sortedNames_modifyAt (f : treeNode → treeNode) (hf : ∀ a, (f a).Name = a.Name)
    (i : Nat) (s : List treeNode) : sortedNames (modifyAt f i s) ↔ sortedNames s := by
  unfold sortedNames
  rw [map_modifyAt treeNode.Name f hf]

theorem insertLabels_sorted (v : Nat) : ∀ (ls : List (List Nat)) (n : treeNode),
    n.sorted → (insertLabels v ls n).sorted
  | [], n => by
    intro h
    unfold treeNode.sorted at h ⊢
    rw [forall_nodes_iff] at h
    rw [insertLabels, forall_nodes_mk]
    exact ⟨h.1, h.2⟩
  | l :: ls, n => by
    intro h
    unfold treeNode.sorted at h ⊢
    rw [forall_nodes_iff] at h
    rw [insertLabels, forall_nodes_mk]
    have hchildren : ∀ c' ∈ (n.insert l).1.ChildrenNodes, c'.sorted := by
      intro c' hc'
      rcases insert_mem_children n l c' hc' with h' | rfl
      · exact h.2 c' h'
      · unfold treeNode.sorted
        rw [newNode_nodes]
        intro x hx
        rw [List.mem_singleton] at hx
        subst hx
        simp [sortedNames, newNode]
    refine ⟨?_, ?_⟩
    · simp only [treeNode.ChildrenNodes_mk]
      rw [sortedNames_modifyAt _ (fun a => (insertLabels_fields v ls a).1)]
      exact (insert_sorted n l h.1).1
    · intro c' hc'
      rcases mem_modifyAt _ _ _ _ hc' with h' | ⟨x, hx, rfl⟩
      · exact hchildren c' h'
      · exact insertLabels_sorted v ls x (hchildren x (List.getElem?_mem hx))

end InsertLabelsLemmas

section LookupLemmas

theorem childNamed_nil (l : List Nat) : childNamed l [] = none := rfl

theorem childNamed_cons (l : List Nat) (a : treeNode) (cs : List treeNode) :
    childNamed l (a :: cs) = if a.Name = l then some a else childNamed l cs := by
  unfold childNamed
  rw [List.find?_cons]
  by_cases h : a.Name = l <;> simp [h]

theorem childNamed_eq_none {l : List Nat} {cs : List treeNode} :
    childNamed l cs = none ↔ ∀ c ∈ cs, c.Name ≠ l := by
  unfold childNamed
  simp [List.find?_eq_none]

theorem childNamed_some_name {l : List Nat} {cs : List treeNode} {c : treeNode}
    (h : childNamed l cs = some c) : c.Name = l ∧ c ∈ cs := by
  unfold childNamed at h
  have h1 := List.find?_some h
  exact ⟨by simpa using h1, List.mem_of_find?_eq_some h⟩

theorem sortedNames_cons {a : treeNode} {cs : List treeNode} (h : sortedNames (a :: cs)) :
    (∀ c ∈ cs, bytesCompare a.Name c.Name < 0) ∧ sortedNames cs := by
  unfold sortedNames at h ⊢
  rw [List.map_cons, List.pairwise_cons] at h
  exact ⟨fun c hc => h.1 _ (List.mem_map_of_mem _ hc), h.2⟩

/-- With strictly sorted names, the child at an index is the one found by its name. -/
theorem childNamed_of_get : ∀ (cs : List treeNode) (i : Nat) (c : treeNode),
    sortedNames cs → cs[i]? = some c → childNamed c.Name cs = some c
  | [], _, _, _, h => by simp at h
  | a :: cs, 0, c, _, h => by
    simp only [List.getElem?_cons_zero, Option.some.injEq] at h
    subst h
    simp [childNamed_cons]
  | a :: cs, i + 1, c, hs, h => by
    simp only [List.getElem?_cons_succ] at h
    obtain ⟨h1, h2⟩ := sortedNames_cons hs
    have hne : a.Name ≠ c.Name := by
      intro heq
      have := h1 c (List.getElem?_mem h)
      rw [heq] at this
      exact bytesCompare_irrefl _ this
    rw [childNamed_cons, if_neg hne]
    exact childNamed_of_get cs i c h2 h

theorem childNamed_modifyAt_ne (f : treeNode → treeNode) (hf : ∀ a, (f a).Name = a.Name)
    (l : List Nat) : ∀ (cs : List treeNode) (i : Nat) (c : treeNode),
    cs[i]? = some c → c.Name ≠ l → childNamed l (modifyAt f i cs) = childNamed l cs
  | [], _, _, h, _ => by simp at h
  | a :: cs, 0, c, h, hne => by
    simp only [List.getElem?_cons_zero, Option.some.injEq] at h
    subst h
    simp [modifyAt, childNamed_cons, hf, hne]
  | a :: cs, i + 1, c, h, hne => by
    simp only [List.getElem?_cons_succ] at h
    simp only [modifyAt, childNamed_cons]
    rw [childNamed_modifyAt_ne f hf l cs i c h hne]

theorem childNamed_modifyAt_eq (f : treeNode → treeNode) (hf : ∀ a, (f a).Name = a.Name)
    (cs : List treeNode) (i : Nat) (c : treeNode) (hs : sortedNames cs) (h : cs[i]? = some c) :
    childNamed c.Name (modifyAt f i cs) = some (f c) := by
  have h1 : (modifyAt f i cs)[i]? = some (f c) := by
    rw [modifyAt_getElem?]
    simp [h]
  have := childNamed_of_get (modifyAt f i cs) i (f c)
    ((sortedNames_modifyAt f hf i cs).2 hs) h1
  rwa [hf] at this

theorem childNamed_insertAt_ne (l l' : List Nat) (i : Nat) (cs : List treeNode) (hne : l ≠ l') :
    childNamed l' (insertAt (newNode l) i cs) = childNamed l' cs := by
  have key : ∀ (a b : List treeNode),
      childNamed l' (a ++ newNode l :: b) = childNamed l' (a ++ b) := by
    intro a b
    induction a with
    | nil => simp [childNamed_cons, newNode, hne]
    | cons x a ih => simp only [List.cons_append, childNamed_cons, ih]
  unfold insertAt
  rw [key, List.take_append_drop]

theorem nodeAt_nil (n : treeNode) : n.nodeAt [] = some n := by
  cases n; rfl

theorem nodeAt_cons (n : treeNode) (l : List Nat) (p : List (List Nat)) :
    n.nodeAt (l :: p) = (childNamed l n.ChildrenNodes).bind (fun c => c.nodeAt p) := by
  rw [treeNode.nodeAt]
  cases childNamed l n.ChildrenNodes <;> rfl

theorem newNode_nodeAt_cons (l l' : List Nat) (p : List (List Nat)) :
    (newNode l).nodeAt (l' :: p) = none := by
  simp [nodeAt_cons, newNode, childNamed_nil]

theorem sorted_child {n c : treeNode} (h : n.sorted) (hc : c ∈ n.ChildrenNodes) : c.sorted := by
  unfold treeNode.sorted at h ⊢
  rw [forall_nodes_iff] at h
  exact h.2 c hc

theorem sorted_root {n : treeNode} (h : n.sorted) : sortedNames n.ChildrenNodes :=
  h n (self_mem_nodes n)

theorem newNode_sorted (l : List Nat) : (newNode l).sorted := by
  unfold treeNode.sorted
  rw [newNode_nodes]
  intro x hx
  rw [List.mem_singleton] at hx
  subst hx
  simp [sortedNames, newNode]

/-- Lookup of a label in the children after `insert`, on sorted children. -/
theorem insert_childNamed (n : treeNode) (l : List Nat) (h : sortedNames n.ChildrenNodes) :
    ∃ c, (n.insert l).1.ChildrenNodes[(n.insert l).2]? = some c ∧ c.Name = l ∧
      (c ∈ n.ChildrenNodes ∧ childNamed l n.ChildrenNodes = some c ∨
        c = newNode l ∧ childNamed l n.ChildrenNodes = none) ∧
      ∀ l', l' ≠ l → childNamed l' (n.insert l).1.ChildrenNodes = childNamed l' n.ChildrenNodes := by
  obtain ⟨hle, ⟨heq, c, hc, hcl⟩ | ⟨heq, hne⟩⟩ := insert_cases n l
  · refine ⟨c, by rw [heq]; exact hc, hcl, Or.inl ⟨List.getElem?_mem hc, ?_⟩, ?_⟩
    · rw [← hcl]
      exact childNamed_of_get _ _ c h hc
    · intro l' _
      rw [heq]
  · have hnot := (insert_sorted n l h).2 (by
      intro hcon
      have := insert_idx_lt n l
      rw [hcon] at this
      have h2 := congrArg (fun x => x.ChildrenNodes.length) heq
      simp only [hcon, treeNode.ChildrenNodes_mk] at h2
      rw [insertAt_length _ _ _ hle] at h2
      omega)
    refine ⟨newNode l, ?_, rfl, Or.inr ⟨rfl, childNamed_eq_none.2 hnot⟩, ?_⟩
    · rw [heq]
      simpa using insertAt_getElem?_self _ _ _ hle
    · intro l' hl'
      rw [heq]
      simpa using childNamed_insertAt_ne l l' _ _ (Ne.symm hl')

end LookupLemmas

section InsertPathLemmas

theorem bytesSplit_ne_nil (sep : Nat) : ∀ s : List Nat, bytesSplit sep s ≠ []
  | [] => by simp [bytesSplit]
  | b :: rest => by
    rw [bytesSplit]
    split
    · simp
    · split <;> simp

theorem bytesSplit_join (sep : Nat) : ∀ s : List Nat,
    List.intercalate [sep] (bytesSplit sep s) = s ∧ ∀ l ∈ bytesSplit sep s, sep ∉ l
  | [] => by simp [bytesSplit, List.intercalate]
  | b :: rest => by
    have ih := bytesSplit_join sep rest
    have hne := bytesSplit_ne_nil sep rest
    rw [bytesSplit]
    by_cases hb : b = sep
    · subst hb
      simp only [if_true]
      cases hr : bytesSplit b rest with
      | nil => exact absurd hr hne
      | cons l ls =>
        rw [hr] at ih
        refine ⟨?_, ?_⟩
        · have := ih.1
          simp only [List.intercalate, List.intersperse_cons_cons, List.flatten_cons,
            List.nil_append, List.singleton_append] at this ⊢
          rw [← this]
        · intro l' hl'
          rcases List.mem_cons.1 hl' with rfl | hl'
          · simp
          · exact ih.2 l' hl'
    · simp only [hb, if_false]
      cases hr : bytesSplit sep rest with
      | nil => exact absurd hr hne
      | cons l ls =>
        rw [hr] at ih
        refine ⟨?_, ?_⟩
        · have := ih.1
          cases ls with
          | nil =>
            simp only [List.intercalate, List.intersperse_single, List.flatten_cons,
              List.flatten_nil, List.append_nil] at this ⊢
            rw [this]
          | cons l2 ls =>
            simp only [List.intercalate, List.intersperse_cons_cons, List.flatten_cons,
              List.cons_append] at this ⊢
            rw [this]
        · intro l' hl'
          rcases List.mem_cons.1 hl' with rfl | hl'
          · intro hmem
            rcases List.mem_cons.1 hmem with h | h
            · exact hb h.symm
            · exact ih.2 l (List.mem_cons_self _ _) h
          · exact ih.2 l' (List.mem_cons_of_mem _ hl')

theorem totalAt_nil (n : treeNode) : n.totalAt [] = n.Total := by
  simp [treeNode.totalAt, nodeAt_nil]

theorem selfAtLabels_nil (n : treeNode) : n.selfAtLabels [] = n.Self := by
  simp [treeNode.selfAtLabels, nodeAt_nil]

/-- The effect of the walk of `Insert` on the node at any label path. -/
theorem insertLabels_nodeAt (v : Nat) : ∀ (ls : List (List Nat)) (n : treeNode), n.sorted →
    ∀ p : List (List Nat),
      (p <+: ls → ∃ x, (insertLabels v ls n).nodeAt p = some x ∧
        x.Total = (n.totalAt p + v) % u64 ∧
        x.Self = if p = ls then (n.selfAtLabels p + v) % u64 else n.selfAtLabels p) ∧
      (¬ p <+: ls → (insertLabels v ls n).nodeAt p = n.nodeAt p)
  | [], n, _, p => by
    refine ⟨fun hp => ?_, fun hp => ?_⟩
    · have : p = [] := List.prefix_nil.1 hp
      subst this
      exact ⟨_, nodeAt_nil _, by simp [insertLabels, totalAt_nil],
        by simp [insertLabels, selfAtLabels_nil]⟩
    · cases p with
      | nil => exact absurd (List.nil_prefix) hp
      | cons l p => simp [nodeAt_cons, insertLabels]
  | l :: ls, n, hs, p => by
    obtain ⟨hN, hT, hS⟩ := insert_fields n l
    obtain ⟨c, hc, hcl, hcase, hother⟩ := insert_childNamed n l (sorted_root hs)
    have hsorted' := (insert_sorted n l (sorted_root hs)).1
    have hfn : ∀ a, (insertLabels v ls a).Name = a.Name := fun a => (insertLabels_fields v ls a).1
    have hcs : c.sorted := by
      rcases hcase with ⟨hmem, _⟩ | ⟨rfl, _⟩
      · exact sorted_child hs hmem
      · exact newNode_sorted l
    -- the node at `l :: q` before the call, in terms of `c`
    have holdN : ∀ q, q ≠ [] → n.nodeAt (l :: q) = c.nodeAt q := by
      intro q hq
      rw [nodeAt_cons]
      rcases hcase with ⟨_, hfound⟩ | ⟨rfl, hnone⟩
      · rw [hfound]; rfl
      · rw [hnone]
        cases q with
        | nil => exact absurd rfl hq
        | cons l' q => simp [newNode_nodeAt_cons]
    have holdT : ∀ q, n.totalAt (l :: q) = c.totalAt q := by
      intro q
      unfold treeNode.totalAt
      rw [nodeAt_cons]
      rcases hcase with ⟨_, hfound⟩ | ⟨rfl, hnone⟩
      · rw [hfound]; rfl
      · rw [hnone]
        cases q with
        | nil => simp [nodeAt_nil, newNode]
        | cons l' q => simp [newNode_nodeAt_cons]
    have holdS : ∀ q, n.selfAtLabels (l :: q) = c.selfAtLabels q := by
      intro q
      unfold treeNode.selfAtLabels
      rw [nodeAt_cons]
      rcases hcase with ⟨_, hfound⟩ | ⟨rfl, hnone⟩
      · rw [hfound]; rfl
      · rw [hnone]
        cases q with
        | nil => simp [nodeAt_nil, newNode]
        | cons l' q => simp [newNode_nodeAt_cons]
    cases p with
    | nil =>
      refine ⟨fun _ => ⟨_, nodeAt_nil _, ?_, ?_⟩, fun hp => absurd List.nil_prefix hp⟩
      · simp [insertLabels, totalAt_nil, hT]
      · simp [insertLabels, selfAtLabels_nil, hS]
    | cons l' q =>
      by_cases hl : l' = l
      · subst hl
        have hlook : (insertLabels v (l' :: ls) n).nodeAt (l' :: q)
            = (insertLabels v ls c).nodeAt q := by
          rw [nodeAt_cons, insertLabels]
          simp only [treeNode.ChildrenNodes_mk]
          have := childNamed_modifyAt_eq (insertLabels v ls) hfn _ _ c hsorted' hc
          rw [hcl] at this
          rw [this]
          rfl
        obtain ⟨ih1, ih2⟩ := insertLabels_nodeAt v ls c hcs q
        have hpre : (l' :: q) <+: (l' :: ls) ↔ q <+: ls := by
          simp [List.cons_prefix_cons]
        refine ⟨fun hp => ?_, fun hp => ?_⟩
        · obtain ⟨x, hx, hxT, hxS⟩ := ih1 (hpre.1 hp)
          refine ⟨x, by rw [hlook, hx], ?_, ?_⟩
          · rw [hxT, holdT]
          · rw [hxS, holdS]
            by_cases hql : q = ls
            · simp [hql]
            · simp [hql]
        · have hq : q ≠ [] := fun h => hp (by rw [h]; simp [List.cons_prefix_cons])
          rw [hlook, ih2 (fun h => hp (hpre.2 h)), holdN q hq]
      · refine ⟨fun hp => ?_, fun _ => ?_⟩
        · exact absurd (List.cons_prefix_cons.1 hp).1 hl
        · rw [nodeAt_cons, nodeAt_cons, insertLabels]
          simp only [treeNode.ChildrenNodes_mk]
          rw [childNamed_modifyAt_ne (insertLabels v ls) hfn l' _ _ c hc (by rw [hcl]; exact Ne.symm hl),
            hother l' hl]

end InsertPathLemmas

/-! ### Insert -/

/-- C3: on a tree with sorted, duplicate-free siblings, `Insert(key, value)` splits
`key` at the separators into labels (at least one; the empty key gives the single
empty label; joining the labels with `;` gives back `key`, and no label contains
`;`). Afterwards every prefix `p` of the label list leads to a node whose `Total`
is the old `Total` at `p` (0 if there was no node) plus `value` in `uint64`
(exactly the sum when that is below `2^64`), and whose `Self` is the old `Self`
plus `value` if `p` is the whole label list and the old `Self` otherwise; every
other label path leads to exactly what it led to before (the same subtree, or
nothing). The scenario of the spec evaluates to `sampleTree`: root total 8, `a`
total 8 self 0, `b` 5/5, `c` 3/3. -/
theorem Insert_path_effect (t : Tree) (key : List Nat) (value : Nat) (hs : t.root.sorted) :
    bytesSplit semicolon key ≠ [] ∧ (key = [] → bytesSplit semicolon key = [[]]) ∧
    List.intercalate [semicolon] (bytesSplit semicolon key) = key ∧
    (∀ l ∈ bytesSplit semicolon key, semicolon ∉ l) ∧
    (∀ p, p <+: bytesSplit semicolon key →
      ∃ x, (t.Insert key value).root.nodeAt p = some x ∧
        x.Total = (t.root.totalAt p + value) % u64 ∧
        (t.root.totalAt p + value < u64 → x.Total = t.root.totalAt p + value) ∧
        x.Self = if p = bytesSplit semicolon key then (t.root.selfAtLabels p + value) % u64
          else t.root.selfAtLabels p) ∧
    (∀ p, ¬ p <+: bytesSplit semicolon key →
      (t.Insert key value).root.nodeAt p = t.root.nodeAt p) ∧
    (New.Insert [97, 59, 98] 5).Insert [97, 59, 99] 3 = sampleTree := by
  refine ⟨bytesSplit_ne_nil _ _, fun h => by rw [h]; rfl, (bytesSplit_join _ _).1,
    (bytesSplit_join _ _).2, fun p hp => ?_, fun p hp => ?_, rfl⟩
  · obtain ⟨x, hx, hT, hS⟩ := (insertLabels_nodeAt value _ t.root hs p).1 hp
    exact ⟨x, hx, hT, fun hlt => by rw [hT, Nat.mod_eq_of_lt hlt], hS⟩
  · exact (insertLabels_nodeAt value _ t.root hs p).2 hp

theorem Insert_path_effect_witness :
    New.root.sorted ∧
    (∀ p, ¬ p <+: bytesSplit semicolon [97, 59, 98] →
      (New.Insert [97, 59, 98] 5).root.nodeAt p = New.root.nodeAt p) :=
  ⟨newNode_sorted [], (Insert_path_effect New [97, 59, 98] 5 (newNode_sorted [])).2.2.2.2.2.1⟩

section PointerLemmas

theorem modifyAt_comp {α : Type} (f g : α → α) : ∀ (i : Nat) (s : List α),
    modifyAt g i (modifyAt f i s) = modifyAt (fun a => g (f a)) i s
  | _, [] => by simp [modifyAt]
  | 0, _ :: _ => by simp [modifyAt]
  | i + 1, _ :: s => by simp [modifyAt, modifyAt_comp f g i s]

theorem modifyAt_congr {α : Type} (f g : α → α) : ∀ (i : Nat) (s : List α),
    (∀ x, s[i]? = some x → f x = g x) → modifyAt f i s = modifyAt g i s
  | _, [], _ => by simp [modifyAt]
  | 0, a :: _, h => by simp [modifyAt, h a (by simp)]
  | i + 1, _ :: s, h => by
    simp only [modifyAt]
    rw [modifyAt_congr f g i s (fun x hx => h x (by simpa using hx))]

theorem shiftPath_append : ∀ (p : List Nat) (i j : Nat) (rest : List Nat),
    shiftPath p i (p ++ j :: rest) = p ++ shiftIdx i j :: rest
  | [], i, j, rest => by
    simp only [List.nil_append, shiftPath, shiftIdx]
    split <;> rfl
  | a :: p, i, j, rest => by
    simp [shiftPath, shiftPath_append p i j rest]

theorem shiftPath_noext : ∀ (p : List Nat) (i : Nat) (q : List Nat),
    (∀ j rest, q ≠ p ++ j :: rest) → shiftPath p i q = q
  | [], i, [], _ => rfl
  | [], i, j :: rest, h => absurd rfl (h j rest)
  | a :: p, i, [], _ => rfl
  | a :: p, i, b :: q, h => by
    rw [shiftPath]
    by_cases hab : a = b
    · subst hab
      simp only [if_true]
      rw [shiftPath_noext p i q (fun j rest hq => h j rest (by rw [hq]; rfl))]
    · simp [hab]

theorem updateAtIdx_cons (f : treeNode → treeNode) (i : Nat) (p : List Nat) (n : treeNode) :
    updateAtIdx f (i :: p) n
      = .mk n.Name n.Total n.Self (modifyAt (updateAtIdx f p) i n.ChildrenNodes) := rfl

theorem nodeAtIdx_cons (n : treeNode) (i : Nat) (p : List Nat) :
    n.nodeAtIdx (i :: p) = (n.ChildrenNodes[i]?).bind (fun c => c.nodeAtIdx p) := by
  rw [treeNode.nodeAtIdx]
  cases n.ChildrenNodes[i]? <;> rfl

theorem nodeAtIdx_updateAtIdx (f : treeNode → treeNode) : ∀ (p : List Nat) (root dt : treeNode),
    root.nodeAtIdx p = some dt → (updateAtIdx f p root).nodeAtIdx p = some (f dt)
  | [], root, dt, h => by
    simp only [treeNode.nodeAtIdx, Option.some.injEq] at h
    subst h
    simp [updateAtIdx, treeNode.nodeAtIdx]
  | i :: p, root, dt, h => by
    rw [nodeAtIdx_cons] at h
    rw [updateAtIdx_cons, nodeAtIdx_cons]
    simp only [treeNode.ChildrenNodes_mk, modifyAt_getElem?, if_true]
    cases hc : root.ChildrenNodes[i]? with
    | none => simp [hc] at h
    | some c =>
      simp only [hc, Option.bind_some] at h
      simp [nodeAtIdx_updateAtIdx f p c dt h]

theorem updateAtIdx_comp (f g : treeNode → treeNode) : ∀ (p : List Nat) (root : treeNode),
    updateAtIdx g p (updateAtIdx f p root) = updateAtIdx (fun d => g (f d)) p root
  | [], root => rfl
  | i :: p, root => by
    simp only [updateAtIdx_cons, treeNode.Name_mk, treeNode.Total_mk, treeNode.Self_mk,
      treeNode.ChildrenNodes_mk, modifyAt_comp]
    congr 1
    apply modifyAt_congr
    intro x _
    exact updateAtIdx_comp f g p x

theorem updateAtIdx_congr (f g : treeNode → treeNode) : ∀ (p : List Nat) (root dt : treeNode),
    root.nodeAtIdx p = some dt → f dt = g dt → updateAtIdx f p root = updateAtIdx g p root
  | [], root, dt, h, hfg => by
    simp only [treeNode.nodeAtIdx, Option.some.injEq] at h
    subst h
    exact hfg
  | i :: p, root, dt, h, hfg => by
    rw [nodeAtIdx_cons] at h
    simp only [updateAtIdx_cons]
    congr 1
    apply modifyAt_congr
    intro x hx
    rw [hx] at h
    exact updateAtIdx_congr f g p x dt h hfg

theorem updateAtIdx_snoc (f : treeNode → treeNode) (i : Nat) : ∀ (p : List Nat) (root : treeNode),
    updateAtIdx f (p ++ [i]) root
      = updateAtIdx (fun d => .mk d.Name d.Total d.Self (modifyAt f i d.ChildrenNodes)) p root
  | [], root => rfl
  | a :: p, root => by
    simp only [List.cons_append, updateAtIdx_cons]
    congr 1
    apply modifyAt_congr
    intro x _
    exact updateAtIdx_snoc f i p x

theorem nodeAtIdx_snoc (i : Nat) : ∀ (p : List Nat) (root : treeNode),
    root.nodeAtIdx (p ++ [i]) = (root.nodeAtIdx p).bind (fun d => d.ChildrenNodes[i]?)
  | [], root => by
    rw [List.nil_append, nodeAtIdx_cons]
    cases h : root.ChildrenNodes[i]? <;> simp [treeNode.nodeAtIdx, h]
  | a :: p, root => by
    simp only [List.cons_append, nodeAtIdx_cons]
    cases root.ChildrenNodes[a]? with
    | none => rfl
    | some c => simpa using nodeAtIdx_snoc i p c

end PointerLemmas

section InsertNamesLemmas

theorem insert_created (n : treeNode) (l : List Nat) :
    ((n.insert l).1.ChildrenNodes.length = n.ChildrenNodes.length ∧ (n.insert l).1 = n) ∨
    ((n.insert l).1.ChildrenNodes.length = n.ChildrenNodes.length + 1 ∧
      (n.insert l).1 = .mk n.Name n.Total n.Self
        (insertAt (newNode l) (n.insert l).2 n.ChildrenNodes)) := by
  obtain ⟨hle, ⟨heq, _⟩ | ⟨heq, _⟩⟩ := insert_cases n l
  · exact Or.inl ⟨by rw [heq], heq⟩
  · refine Or.inr ⟨?_, heq⟩
    rw [heq]
    simp only [treeNode.ChildrenNodes_mk]
    rw [insertAt_length _ _ _ hle]

theorem insertNames_fields : ∀ (ls : List (List Nat)) (dt : treeNode) (acc : List Nat),
    (insertNames ls dt acc).1.Name = dt.Name ∧ (insertNames ls dt acc).1.Total = dt.Total ∧
      (insertNames ls dt acc).1.Self = dt.Self ∧
      sumTotals (insertNames ls dt acc).1.ChildrenNodes = sumTotals dt.ChildrenNodes ∧
      (insertNames ls dt acc).2.length = ls.length + acc.length
  | [], dt, acc => by simp [insertNames]
  | l :: ls, dt, acc => by
    obtain ⟨h1, h2, h3, h4, h5⟩ := insertNames_fields ls (dt.insert l).1
      ((dt.insert l).2 :: (if decide ((dt.insert l).1.ChildrenNodes.length
        ≠ dt.ChildrenNodes.length) then acc.map (shiftIdx (dt.insert l).2) else acc))
    obtain ⟨hN, hT, hS⟩ := insert_fields dt l
    rw [insertNames]
    refine ⟨h1.trans hN, h2.trans hT, h3.trans hS, h4.trans (insert_sumTotals dt l), ?_⟩
    rw [h5]
    simp only [List.length_cons]
    split
    · rw [List.length_map]; omega
    · omega

theorem insertNames_idx_lt : ∀ (ls : List (List Nat)) (dt : treeNode) (acc : List Nat),
    (∀ i ∈ acc, i < dt.ChildrenNodes.length) →
    ∀ i ∈ (insertNames ls dt acc).2, i < (insertNames ls dt acc).1.ChildrenNodes.length
  | [], dt, acc, h => by simpa [insertNames] using h
  | l :: ls, dt, acc, h => by
    rw [insertNames]
    apply insertNames_idx_lt ls
    intro i hi
    rcases List.mem_cons.1 hi with rfl | hi
    · exact insert_idx_lt dt l
    · rcases insert_created dt l with ⟨hlen, _⟩ | ⟨hlen, _⟩
      · simp only [hlen, ne_eq, not_true_eq_false, decide_False, Bool.false_eq_true,
          if_false] at hi
        rw [hlen]
        exact h i hi
      · simp only [hlen, ne_eq, Nat.succ_ne_self, not_false_eq_true, decide_True, if_true,
          List.mem_map] at hi
        obtain ⟨j, hj, rfl⟩ := hi
        rw [hlen]
        have := h j hj
        unfold shiftIdx
        split <;> omega

end InsertNamesLemmas

section MergeLoopLemmas

theorem mergeNode_mk (dt : treeNode) (name : List Nat) (total self : Nat) (cs : List treeNode) :
    mergeNode dt (.mk name total self cs)
      = .mk (insertNames (cs.map treeNode.Name)
            (.mk dt.Name ((dt.Total + total) % u64) ((dt.Self + self) % u64)
              dt.ChildrenNodes) []).1.Name
          (insertNames (cs.map treeNode.Name)
            (.mk dt.Name ((dt.Total + total) % u64) ((dt.Self + self) % u64)
              dt.ChildrenNodes) []).1.Total
          (insertNames (cs.map treeNode.Name)
            (.mk dt.Name ((dt.Total + total) % u64) ((dt.Self + self) % u64)
              dt.ChildrenNodes) []).1.Self
          (mergeKids (insertNames (cs.map treeNode.Name)
            (.mk dt.Name ((dt.Total + total) % u64) ((dt.Self + self) % u64)
              dt.ChildrenNodes) []).1.ChildrenNodes
            (insertNames (cs.map treeNode.Name)
              (.mk dt.Name ((dt.Total + total) % u64) ((dt.Self + self) % u64)
                dt.ChildrenNodes) []).2.reverse cs) := by
  rw [mergeNode]

theorem mergeKids_cons (ch : List treeNode) (i : Nat) (is : List Nat) (s : treeNode)
    (ss : List treeNode) :
    mergeKids ch (i :: is) (s :: ss) = modifyAt (fun d => mergeNode d s) i (mergeKids ch is ss) := by
  rw [mergeKids]

theorem mergeKids_nil (ch : List treeNode) (is : List Nat) : mergeKids ch is [] = ch := by
  cases is <;> rw [mergeKids]

theorem mergeKids_length (ch : List treeNode) : ∀ (is : List Nat) (cs : List treeNode),
    (mergeKids ch is cs).length = ch.length
  | [], _ => by rw [mergeKids]
  | _ :: _, [] => by rw [mergeKids]
  | i :: is, s :: ss => by rw [mergeKids, modifyAt_length, mergeKids_length ch is ss]

theorem modifyAt_id {α : Type} (f : α → α) : ∀ (i : Nat) (s : List α),
    (∀ x, s[i]? = some x → f x = x) → modifyAt f i s = s
  | _, [], _ => by simp [modifyAt]
  | 0, a :: _, h => by simp [modifyAt, h a (by simp)]
  | i + 1, _ :: s, h => by
    simp only [modifyAt]
    rw [modifyAt_id f i s (fun x hx => h x (by simpa using hx))]

theorem updateAtIdx_id (f : treeNode → treeNode) (hf : ∀ d, f d = d) :
    ∀ (p : List Nat) (root : treeNode), updateAtIdx f p root = root
  | [], root => hf root
  | i :: p, .mk n t s c => by
    rw [updateAtIdx_cons]
    simp only [treeNode.Name_mk, treeNode.Total_mk, treeNode.Self_mk, treeNode.ChildrenNodes_mk]
    rw [modifyAt_id _ i c (fun x _ => updateAtIdx_id f hf p x)]

theorem treeNode.mk_eta (d : treeNode) : treeNode.mk d.Name d.Total d.Self d.ChildrenNodes = d := by
  cases d; rfl

/-- The inner loop of `Merge`, run on the children `cs` of the source node. -/
theorem foldlM_mergeChild (p : List Nat) (S : List treeNode) (P : List (List Nat))
    (hP : ∀ q ∈ P, ∀ j rest, q ≠ p ++ j :: rest) :
    ∀ (cs : List treeNode) (root dt : treeNode) (accS : List treeNode) (acc : List Nat),
      root.nodeAtIdx p = some dt →
      cs.foldlM (mergeChild p) ⟨root, accS ++ S, acc.map (fun i => p ++ [i]) ++ P⟩
        = some ⟨updateAtIdx (fun _ => (insertNames (cs.map treeNode.Name) dt acc).1) p root,
            cs.reverse ++ accS ++ S,
            (insertNames (cs.map treeNode.Name) dt acc).2.map (fun i => p ++ [i]) ++ P⟩
  | [], root, dt, accS, acc, h => by
    simp only [List.foldlM_nil, List.map_nil, insertNames, List.reverse_nil, List.nil_append]
    rw [updateAtIdx_congr (fun _ => dt) id p root dt h rfl]
    rw [updateAtIdx_id id (fun _ => rfl)]
    rfl
  | c :: cs, root, dt, accS, acc, h => by
    rw [List.foldlM_cons]
    have hstep : mergeChild p ⟨root, accS ++ S, acc.map (fun i => p ++ [i]) ++ P⟩ c
        = some ⟨updateAtIdx (fun _ => (dt.insert c.Name).1) p root, (c :: accS) ++ S,
            (((dt.insert c.Name).2 :: (if decide ((dt.insert c.Name).1.ChildrenNodes.length
                ≠ dt.ChildrenNodes.length) then acc.map (shiftIdx (dt.insert c.Name).2)
              else acc)).map (fun i => p ++ [i])) ++ P⟩ := by
      simp only [mergeChild, h, prependTreeNode]
      congr 2
      split
      · rw [List.map_cons, List.map_map, List.cons_append, List.map_append, List.map_map]
        congr 2
        · apply List.map_congr_left
          intro j _
          simp only [Function.comp]
          exact shiftPath_append p _ j []
        · conv_rhs => rw [← List.map_id P]
          apply List.map_congr_left
          intro q hq
          exact shiftPath_noext p _ q (hP q hq)
      · rfl
    rw [hstep]
    simp only [Option.bind_eq_bind, Option.some_bind]
    have ih := foldlM_mergeChild p S P hP cs (updateAtIdx (fun _ => (dt.insert c.Name).1) p root)
      (dt.insert c.Name).1 (c :: accS)
      ((dt.insert c.Name).2 :: (if decide ((dt.insert c.Name).1.ChildrenNodes.length
                ≠ dt.ChildrenNodes.length) then acc.map (shiftIdx (dt.insert c.Name).2)
              else acc))
      (nodeAtIdx_updateAtIdx _ p root dt h)
    rw [ih, updateAtIdx_comp]
    simp only [List.map_cons, insertNames, List.reverse_cons, List.append_assoc,
      List.singleton_append]

mutual
/-- Working off the pair `(st, dt)` and everything pushed on its account takes
one round per node of `st` and leaves `mergeNode dt st` where `dt` was. -/
theorem mergeLoop_node : ∀ (st root dt : treeNode) (p : List Nat) (S : List treeNode)
    (P : List (List Nat)) (k : Nat),
    root.nodeAtIdx p = some dt → (∀ q ∈ P, ∀ j rest, q ≠ p ++ j :: rest) →
    mergeLoop (st.nodes.length + k) ⟨root, st :: S, p :: P⟩
      = mergeLoop k ⟨updateAtIdx (fun d => mergeNode d st) p root, S, P⟩
  | .mk name total self cs, root, dt, p, S, P, k, h, hP => by
    rw [nodes_mk, List.length_cons, Nat.add_right_comm, mergeLoop]
    simp only [h, treeNode.Total_mk, treeNode.Self_mk, treeNode.ChildrenNodes_mk]
    have hroot1 := nodeAtIdx_updateAtIdx (fun dt => treeNode.mk dt.Name ((dt.Total + total) % u64)
      ((dt.Self + self) % u64) dt.ChildrenNodes) p root dt h
    have hf := foldlM_mergeChild p S P hP cs _ _ [] [] hroot1
    simp only [List.nil_append, List.map_nil, List.append_nil] at hf
    rw [hf]
    simp only
    have hfields := insertNames_fields (cs.map treeNode.Name) (treeNode.mk dt.Name
      ((dt.Total + total) % u64) ((dt.Self + self) % u64) dt.ChildrenNodes) []
    have hlt := insertNames_idx_lt (cs.map treeNode.Name) (treeNode.mk dt.Name
      ((dt.Total + total) % u64) ((dt.Self + self) % u64) dt.ChildrenNodes) []
      (fun i hi => absurd hi (List.not_mem_nil i))
    have hk := mergeLoop_kids cs
      (updateAtIdx (fun _ => (insertNames (cs.map treeNode.Name) (treeNode.mk dt.Name
        ((dt.Total + total) % u64) ((dt.Self + self) % u64) dt.ChildrenNodes) []).1) p
        (updateAtIdx (fun dt => treeNode.mk dt.Name ((dt.Total + total) % u64)
          ((dt.Self + self) % u64) dt.ChildrenNodes) p root))
      _ p
      (insertNames (cs.map treeNode.Name) (treeNode.mk dt.Name
        ((dt.Total + total) % u64) ((dt.Self + self) % u64) dt.ChildrenNodes) []).2.reverse
      S P k (nodeAtIdx_updateAtIdx _ p _ _ hroot1)
      (by rw [List.length_reverse, hfields.2.2.2.2]; simp)
      (fun i hi => hlt i (List.mem_reverse.1 hi))
      (fun q hq j j' rest => hP q hq j (j' :: rest))
    rw [List.reverse_reverse] at hk
    rw [hk, updateAtIdx_comp, updateAtIdx_comp]
    congr 2
    apply updateAtIdx_congr _ _ p root dt h
    rw [mergeNode_mk]
/-- Working off the pairs of the source children `cs` with the children of the
node at `p` at the indices `is`. -/
theorem mergeLoop_kids : ∀ (cs : List treeNode) (root dt : treeNode) (p : List Nat)
    (is : List Nat) (S : List treeNode) (P : List (List Nat)) (k : Nat),
    root.nodeAtIdx p = some dt → is.length = cs.length →
    (∀ i ∈ is, i < dt.ChildrenNodes.length) →
    (∀ q ∈ P, ∀ j j' rest, q ≠ p ++ j :: j' :: rest) →
    mergeLoop ((cs.flatMap treeNode.nodes).length + k)
        ⟨root, cs.reverse ++ S, is.reverse.map (fun i => p ++ [i]) ++ P⟩
      = mergeLoop k ⟨updateAtIdx (fun d => .mk d.Name d.Total d.Self
          (mergeKids d.ChildrenNodes is cs)) p root, S, P⟩
  | [], root, dt, p, is, S, P, k, h, hlen, _, _ => by
    have : is = [] := List.length_eq_zero.1 (by simpa using hlen)
    subst this
    simp only [List.flatMap_nil, List.length_nil, Nat.zero_add, List.reverse_nil,
      List.nil_append, List.map_nil]
    rw [updateAtIdx_id _ (fun d => by rw [mergeKids_nil, treeNode.mk_eta])]
  | s :: ss, root, dt, p, [], S, P, k, h, hlen, _, _ => by simp at hlen
  | s :: ss, root, dt, p, i :: is, S, P, k, h, hlen, hlt, hP => by
    have hi : i < dt.ChildrenNodes.length := hlt i (List.mem_cons_self _ _)
    simp only [List.flatMap_cons, List.length_append, List.reverse_cons, List.map_append,
      List.map_cons, List.map_nil, List.append_assoc, List.singleton_append]
    rw [show s.nodes.length + (ss.flatMap treeNode.nodes).length + k
      = (ss.flatMap treeNode.nodes).length + (s.nodes.length + k) by omega]
    rw [mergeLoop_kids ss root dt p is (s :: S) ((p ++ [i]) :: P) (s.nodes.length + k) h
      (by simpa using hlen) (fun j hj => hlt j (List.mem_cons_of_mem _ hj))
      (by
        intro q hq j j' rest
        rcases List.mem_cons.1 hq with rfl | hq
        · intro hcon
          have := congrArg List.length hcon
          simp at this
        · exact hP q hq j j' rest)]
    have hnode := nodeAtIdx_updateAtIdx (fun d => treeNode.mk d.Name d.Total d.Self
      (mergeKids d.ChildrenNodes is ss)) p root dt h
    have hlen' : i < (mergeKids dt.ChildrenNodes is ss).length := by
      rw [mergeKids_length]; exact hi
    have hchild : (updateAtIdx (fun d => treeNode.mk d.Name d.Total d.Self
        (mergeKids d.ChildrenNodes is ss)) p root).nodeAtIdx (p ++ [i])
        = some ((mergeKids dt.ChildrenNodes is ss)[i]) := by
      rw [nodeAtIdx_snoc, hnode]
      simp [List.getElem?_eq_getElem hlen']
    rw [mergeLoop_node s _ _ (p ++ [i]) S P k hchild
      (by
        intro q hq j rest hcon
        exact hP q hq i j rest (by rw [hcon, List.append_assoc]; rfl))]
    rw [updateAtIdx_snoc, updateAtIdx_comp]
    congr 2
end

/-- `Merge` returns, given one round of fuel per source node, and its result is
`mergeNode` of the two roots. -/
theorem Merge_eq (t src : Tree) (fuel : Nat) (hfuel : src.root.nodes.length ≤ fuel) :
    t.Merge fuel src = some ⟨mergeNode t.root src.root⟩ := by
  obtain ⟨k, rfl⟩ := Nat.exists_eq_add_of_le hfuel
  unfold Tree.Merge
  rw [mergeLoop_node src.root t.root t.root [] [] [] k rfl (fun q hq => absurd hq (List.not_mem_nil q))]
  cases k <;> simp [mergeLoop, updateAtIdx]

/-- Without enough fuel the loop of `Merge` does not return a tree; whenever it
returns one, it is `mergeNode` of the two roots. -/
theorem mergeLoop_mono : ∀ (fuel : Nat) (s : MergeState) (r : treeNode),
    mergeLoop fuel s = some r → ∀ k, mergeLoop (fuel + k) s = some r
  | fuel, ⟨root, [], P⟩, r, h, k => by
    rw [mergeLoop] at h ⊢
    exact h
  | 0, ⟨root, st :: S, P⟩, r, h, k => by simp [mergeLoop] at h
  | fuel + 1, ⟨root, st :: S, []⟩, r, h, k => by simp [mergeLoop] at h
  | fuel + 1, ⟨root, st :: S, p :: P⟩, r, h, k => by
    rw [show fuel + 1 + k = (fuel + k) + 1 by omega]
    rw [mergeLoop] at h ⊢
    cases hn : root.nodeAtIdx p with
    | none => simp [hn] at h
    | some dt =>
      simp only [hn] at h ⊢
      cases hf : List.foldlM (mergeChild p) ⟨updateAtIdx (fun dt =>
          treeNode.mk dt.Name ((dt.Total + st.Total) % u64) ((dt.Self + st.Self) % u64)
            dt.ChildrenNodes) p root, S, P⟩ st.ChildrenNodes with
      | none => simp [hf] at h
      | some s' =>
        simp only [hf] at h ⊢
        exact mergeLoop_mono fuel s' r h k

theorem Merge_some (t src t' : Tree) (fuel : Nat) (h : t.Merge fuel src = some t') :
    t' = ⟨mergeNode t.root src.root⟩ := by
  unfold Tree.Merge at h
  cases hl : mergeLoop fuel ⟨t.root, [src.root], [[]]⟩ with
  | none => simp [hl] at h
  | some r =>
    simp only [hl, Option.map_some', Option.some.injEq] at h
    have h1 := mergeLoop_mono fuel _ r hl src.root.nodes.length
    have h2 := Merge_eq t src (fuel + src.root.nodes.length) (by omega)
    unfold Tree.Merge at h2
    rw [h1] at h2
    simp only [Option.map_some', Option.some.injEq] at h2
    rw [← h, h2]

end MergeLoopLemmas

section MergeNodeLemmas

theorem insertNames_mem_children : ∀ (ls : List (List Nat)) (dt : treeNode) (acc : List Nat)
    (c : treeNode), c ∈ (insertNames ls dt acc).1.ChildrenNodes →
      c ∈ dt.ChildrenNodes ∨ ∃ l ∈ ls, c = newNode l
  | [], dt, acc, c, h => Or.inl (by simpa [insertNames] using h)
  | l :: ls, dt, acc, c, h => by
    rw [insertNames] at h
    rcases insertNames_mem_children ls _ _ c h with h' | ⟨l', hl', rfl⟩
    · rcases insert_mem_children dt l c h' with h'' | rfl
      · exact Or.inl h''
      · exact Or.inr ⟨l, List.mem_cons_self _ _, rfl⟩
    · exact Or.inr ⟨l', List.mem_cons_of_mem _ hl', rfl⟩

theorem mergeNode_fields (dt st : treeNode) :
    (mergeNode dt st).Name = dt.Name ∧ (mergeNode dt st).Total = (dt.Total + st.Total) % u64 ∧
      (mergeNode dt st).Self = (dt.Self + st.Self) % u64 := by
  cases st with
  | mk name total self cs =>
    rw [mergeNode_mk]
    obtain ⟨h1, h2, h3, _⟩ := insertNames_fields (cs.map treeNode.Name) (treeNode.mk dt.Name
      ((dt.Total + total) % u64) ((dt.Self + self) % u64) dt.ChildrenNodes) []
    simp [h1, h2, h3]

theorem mergeNode_children (dt st : treeNode) :
    (mergeNode dt st).ChildrenNodes
      = mergeKids (insertNames (st.ChildrenNodes.map treeNode.Name) (treeNode.mk dt.Name
          ((dt.Total + st.Total) % u64) ((dt.Self + st.Self) % u64) dt.ChildrenNodes) []).1.ChildrenNodes
        (insertNames (st.ChildrenNodes.map treeNode.Name) (treeNode.mk dt.Name
          ((dt.Total + st.Total) % u64) ((dt.Self + st.Self) % u64) dt.ChildrenNodes) []).2.reverse
        st.ChildrenNodes := by
  cases st with
  | mk name total self cs => rw [mergeNode_mk]; rfl

theorem mem_mergeKids (ch : List treeNode) : ∀ (is : List Nat) (cs : List treeNode) (y : treeNode),
    y ∈ mergeKids ch is cs → y ∈ ch ∨ ∃ x s, s ∈ cs ∧ y = mergeNode x s ∧
      (x ∈ ch ∨ ∃ is' cs', x ∈ mergeKids ch is' cs' ∧ cs'.length < cs.length ∧
        ∀ s' ∈ cs', s' ∈ cs)
  | [], _, y, h => by rw [mergeKids] at h; exact Or.inl h
  | _ :: _, [], y, h => by rw [mergeKids] at h; exact Or.inl h
  | i :: is, s :: ss, y, h => by
    rw [mergeKids] at h
    rcases mem_modifyAt _ _ _ _ h with h' | ⟨x, hx, rfl⟩
    · rcases mem_mergeKids ch is ss y h' with h'' | ⟨x, s', hs', hy, hx⟩
      · exact Or.inl h''
      · refine Or.inr ⟨x, s', List.mem_cons_of_mem _ hs', hy, ?_⟩
        rcases hx with hx | ⟨is', cs', hx, hlen, hsub⟩
        · exact Or.inl hx
        · exact Or.inr ⟨is', cs', hx, by simp only [List.length_cons]; omega,
            fun a ha => List.mem_cons_of_mem _ (hsub a ha)⟩
    · exact Or.inr ⟨x, s, List.mem_cons_self _ _, rfl,
        Or.inr ⟨is, ss, List.getElem?_mem hx, by simp, fun a ha => List.mem_cons_of_mem _ ha⟩⟩

/-- A property of single nodes that holds for fresh nodes and for the root of
every merge of two trees whose nodes all have it, holds for every node of a
merged tree. -/
theorem mergeNode_forall (Pr : treeNode → Prop) (hnew : ∀ l, Pr (newNode l))
    (hroot : ∀ dt st, (∀ x ∈ dt.nodes, Pr x) → (∀ x ∈ st.nodes, Pr x) → Pr (mergeNode dt st)) :
    ∀ (k : Nat) (st dt : treeNode), st.nodes.length ≤ k →
      (∀ x ∈ dt.nodes, Pr x) → (∀ x ∈ st.nodes, Pr x) → ∀ x ∈ (mergeNode dt st).nodes, Pr x := by
  intro k
  induction k with
  | zero =>
    intro st dt hk
    have := nodes_length_pos st
    omega
  | succ k ih =>
    intro st dt hk hdt hst
    rw [forall_nodes_iff]
    refine ⟨hroot dt st hdt hst, ?_⟩
    rw [mergeNode_children]
    have hdt' := (forall_nodes_iff Pr dt).1 hdt
    have hst' := (forall_nodes_iff Pr st).1 hst
    have hsmall : ∀ s ∈ st.ChildrenNodes, s.nodes.length ≤ k := by
      intro s hs
      cases st with
      | mk name total self cs =>
        rw [nodes_mk] at hk
        simp only [treeNode.ChildrenNodes_mk] at hs
        have h1 : s.nodes.length ≤ (cs.flatMap treeNode.nodes).length := by
          have := List.sublist_flatten_of_mem (List.mem_map_of_mem treeNode.nodes hs)
          simpa [List.flatMap] using this.length_le
        simp only [List.length_cons] at hk
        omega
    have hch : ∀ c ∈ (insertNames (st.ChildrenNodes.map treeNode.Name) (treeNode.mk dt.Name
          ((dt.Total + st.Total) % u64) ((dt.Self + st.Self) % u64) dt.ChildrenNodes)
          []).1.ChildrenNodes, ∀ x ∈ c.nodes, Pr x := by
      intro c hc
      rcases insertNames_mem_children _ _ _ c hc with h | ⟨l, _, rfl⟩
      · exact hdt'.2 c (by simpa using h)
      · rw [newNode_nodes]
        intro x hx
        rw [List.mem_singleton] at hx
        subst hx
        exact hnew l
    generalize (insertNames (st.ChildrenNodes.map treeNode.Name) (treeNode.mk dt.Name
          ((dt.Total + st.Total) % u64) ((dt.Self + st.Self) % u64) dt.ChildrenNodes)
          []).1.ChildrenNodes = ch at hch
    generalize (insertNames (st.ChildrenNodes.map treeNode.Name) (treeNode.mk dt.Name
          ((dt.Total + st.Total) % u64) ((dt.Self + st.Self) % u64) dt.ChildrenNodes)
          []).2.reverse = is
    -- all members of `mergeKids ch is' cs'` for `cs' ⊆ children of st`
    have hkids : ∀ (n : Nat) (cs' : List treeNode), cs'.length ≤ n →
        (∀ s ∈ cs', s ∈ st.ChildrenNodes) →
        ∀ (is' : List Nat) (y : treeNode), y ∈ mergeKids ch is' cs' → ∀ x ∈ y.nodes, Pr x := by
      intro n
      induction n with
      | zero =>
        intro cs' hlen _ is' y hy
        have : cs' = [] := List.length_eq_zero.1 (by omega)
        subst this
        rw [mergeKids_nil] at hy
        exact hch y hy
      | succ n ihn =>
        intro cs' hlen hsub is' y hy
        rcases mem_mergeKids ch is' cs' y hy with h | ⟨x, s, hs, rfl, hx⟩
        · exact hch y h
        · apply ih s x (hsmall s (hsub s hs)) _ (hst'.2 s (hsub s hs))
          rcases hx with hx | ⟨is'', cs'', hx, hlen', hsub'⟩
          · exact hch x hx
          · exact ihn cs'' (by omega) (fun a ha => hsub a (hsub' a ha)) is'' x hx
    exact hkids _ st.ChildrenNodes le_rfl (fun s hs => hs) is

end MergeNodeLemmas

section MergeInvariantLemmas

theorem mergeKids_sumTotals (ch : List treeNode) : ∀ (is : List Nat) (cs : List treeNode),
    is.length = cs.length → (∀ i ∈ is, i < ch.length) →
    sumTotals (mergeKids ch is cs) % u64 = (sumTotals ch + sumTotals cs) % u64
  | [], [], _, _ => by rw [mergeKids]; simp [sumTotals]
  | [], _ :: _, h, _ => by simp at h
  | _ :: _, [], h, _ => by simp at h
  | i :: is, s :: ss, hlen, hlt => by
    have ih := mergeKids_sumTotals ch is ss (by simpa using hlen)
      (fun j hj => hlt j (List.mem_cons_of_mem _ hj))
    have hi : i < (mergeKids ch is ss).length := by
      rw [mergeKids_length]; exact hlt i (List.mem_cons_self _ _)
    obtain ⟨rest, h1, h2⟩ := sumTotals_modifyAt (fun d => mergeNode d s) i (mergeKids ch is ss)
      _ (List.getElem?_eq_getElem hi)
    rw [mergeKids, h2, (mergeNode_fields _ s).2.1, sumTotals_cons]
    rw [h1] at ih
    simp only [u64] at ih ⊢
    omega

theorem mergeNode_root_nodeInv (dt st : treeNode) (hdt : dt.nodeInv) (hst : st.nodeInv) :
    (mergeNode dt st).nodeInv := by
  obtain ⟨_, hT, hS⟩ := mergeNode_fields dt st
  have hfields := insertNames_fields (st.ChildrenNodes.map treeNode.Name) (treeNode.mk dt.Name
    ((dt.Total + st.Total) % u64) ((dt.Self + st.Self) % u64) dt.ChildrenNodes) []
  have hlt := insertNames_idx_lt (st.ChildrenNodes.map treeNode.Name) (treeNode.mk dt.Name
    ((dt.Total + st.Total) % u64) ((dt.Self + st.Self) % u64) dt.ChildrenNodes) []
    (fun i hi => absurd hi (List.not_mem_nil i))
  have hsum := mergeKids_sumTotals _ _ st.ChildrenNodes
    (show (insertNames (st.ChildrenNodes.map treeNode.Name) (treeNode.mk dt.Name
      ((dt.Total + st.Total) % u64) ((dt.Self + st.Self) % u64) dt.ChildrenNodes)
      []).2.reverse.length = st.ChildrenNodes.length by
        rw [List.length_reverse, hfields.2.2.2.2]; simp)
    (fun i hi => hlt i (List.mem_reverse.1 hi))
  rw [← mergeNode_children, hfields.2.2.2.1] at hsum
  unfold treeNode.nodeInv at hdt hst ⊢
  rw [hT, hS]
  simp only [treeNode.ChildrenNodes_mk] at hsum
  generalize sumTotals (mergeNode dt st).ChildrenNodes = a at hsum
  rw [hdt, hst]
  simp only [u64] at hsum ⊢
  omega

theorem insertNames_sorted : ∀ (ls : List (List Nat)) (dt : treeNode) (acc : List Nat),
    sortedNames dt.ChildrenNodes → sortedNames (insertNames ls dt acc).1.ChildrenNodes
  | [], dt, acc, h => by simpa [insertNames] using h
  | l :: ls, dt, acc, h => by
    rw [insertNames]
    exact insertNames_sorted ls _ _ (insert_sorted dt l h).1

theorem mergeKids_names (ch : List treeNode) : ∀ (is : List Nat) (cs : List treeNode),
    (mergeKids ch is cs).map treeNode.Name = ch.map treeNode.Name
  | [], _ => by rw [mergeKids]
  | _ :: _, [] => by rw [mergeKids]
  | i :: is, s :: ss => by
    rw [mergeKids, map_modifyAt treeNode.Name _ (fun a => (mergeNode_fields a s).1),
      mergeKids_names ch is ss]

theorem mergeNode_root_sorted (dt st : treeNode) (hdt : sortedNames dt.ChildrenNodes) :
    sortedNames (mergeNode dt st).ChildrenNodes := by
  rw [mergeNode_children]
  unfold sortedNames
  rw [mergeKids_names]
  exact insertNames_sorted _ _ _ (by simpa using hdt)

theorem mergeNode_nodeInv (dt st : treeNode) (hdt : ∀ x ∈ dt.nodes, x.nodeInv)
    (hst : ∀ x ∈ st.nodes, x.nodeInv) : ∀ x ∈ (mergeNode dt st).nodes, x.nodeInv :=
  mergeNode_forall treeNode.nodeInv (fun l => by simp [treeNode.nodeInv, newNode, sumTotals])
    (fun dt st hd hs => mergeNode_root_nodeInv dt st (hd _ (self_mem_nodes _))
      (hs _ (self_mem_nodes _))) _ st dt le_rfl hdt hst

theorem mergeNode_sorted (dt st : treeNode) (hdt : dt.sorted) (hst : st.sorted) :
    (mergeNode dt st).sorted :=
  mergeNode_forall (fun x => sortedNames x.ChildrenNodes)
    (fun l => by simp [sortedNames, newNode])
    (fun dt st hd _ => mergeNode_root_sorted dt st (hd _ (self_mem_nodes _))) _ st dt le_rfl
    hdt hst

theorem reachable_invariants {t : Tree} (h : Reachable t) :
    (∀ x ∈ t.root.nodes, x.nodeInv) ∧ t.root.sorted := by
  induction h with
  | new =>
    refine ⟨?_, newNode_sorted []⟩
    intro x hx
    simp only [New, newNode_nodes, List.mem_singleton] at hx
    subst hx
    simp [treeNode.nodeInv, newNode, sumTotals]
  | insert key value _ ih =>
    exact ⟨insertLabels_nodeInv value _ _ ih.1, insertLabels_sorted value _ _ ih.2⟩
  | merge fuel _ _ hm ih1 ih2 =>
    rw [Merge_some _ _ _ fuel hm]
    exact ⟨mergeNode_nodeInv _ _ ih1.1 ih2.1, mergeNode_sorted _ _ ih1.2 ih2.2⟩

end MergeInvariantLemmas

/-! ### Invariants of reachable trees -/

/-- C1: in every tree obtained from `New()` by `Insert` and `Merge` calls (each
merged-in tree obtained the same way), every node satisfies
`total == self + Σ child.total` in `uint64` arithmetic. -/
theorem Reachable_nodeInv (t : Tree) (h : Reachable t) : ∀ x ∈ t.root.nodes, x.nodeInv :=
  (reachable_invariants h).1

theorem Reachable_nodeInv_witness :
    Reachable sampleTree ∧ ∀ x ∈ sampleTree.root.nodes, x.nodeInv :=
  ⟨Reachable.insert (t := New.Insert [97, 59, 98] 5) [97, 59, 99] 3
      (Reachable.insert [97, 59, 98] 5 Reachable.new),
    Reachable_nodeInv sampleTree (Reachable.insert (t := New.Insert [97, 59, 98] 5)
      [97, 59, 99] 3 (Reachable.insert [97, 59, 98] 5 Reachable.new))⟩

/-- C2: in every tree obtained from `New()` by `Insert` and `Merge` calls, in any
order and with any keys, the names of the children of every node are strictly
increasing in the order of `bytes.Compare`, which is the lexicographic order of
the byte lists; in particular no two siblings have the same name. -/
theorem Reachable_sorted (t : Tree) (h : Reachable t) :
    ∀ x ∈ t.root.nodes,
      (x.ChildrenNodes.map treeNode.Name).Pairwise (fun a b => bytesCompare a b < 0) ∧
      (x.ChildrenNodes.map treeNode.Name).Pairwise (List.Lex (fun a b : Nat => a < b)) ∧
      (x.ChildrenNodes.map treeNode.Name).Nodup := by
  intro x hx
  have hs := (reachable_invariants h).2 x hx
  unfold sortedNames at hs
  refine ⟨hs, hs.imp (fun {a b} hab => (bytesCompare_neg_iff_lex a b).1 hab), ?_⟩
  exact hs.imp (fun {a b} hab (heq : a = b) => bytesCompare_irrefl b (by rw [heq] at hab; exact hab))

theorem Reachable_sorted_witness :
    Reachable deepThenWide ∧ ∀ x ∈ deepThenWide.root.nodes,
      (x.ChildrenNodes.map treeNode.Name).Pairwise (fun a b => bytesCompare a b < 0) ∧
      (x.ChildrenNodes.map treeNode.Name).Pairwise (List.Lex (fun a b : Nat => a < b)) ∧
      (x.ChildrenNodes.map treeNode.Name).Nodup :=
  ⟨Reachable.insert (t := New.Insert [97, 59, 98] 1) [99] 1
      (Reachable.insert [97, 59, 98] 1 Reachable.new),
    Reachable_sorted deepThenWide (Reachable.insert (t := New.Insert [97, 59, 98] 1)
      [99] 1 (Reachable.insert [97, 59, 98] 1 Reachable.new))⟩

section MergeLookupLemmas

theorem shiftIdx_getElem? {α : Type} (x : α) (i j : Nat) (s : List α) (h : i ≤ s.length) :
    (insertAt x i s)[shiftIdx i j]? = s[j]? := by
  unfold shiftIdx
  split
  · exact insertAt_getElem?_ge x i j s h (by assumption)
  · exact insertAt_getElem?_lt x i j s h (by omega)

/-- The indices kept by `insertNames` point to children with the inserted names. -/
theorem insertNames_ptr : ∀ (ls : List (List Nat)) (dt : treeNode) (acc : List Nat)
    (accNames : List (List Nat)),
    List.Forall₂ (fun i l => ∃ c, dt.ChildrenNodes[i]? = some c ∧ c.Name = l) acc accNames →
    List.Forall₂ (fun i l => ∃ c, (insertNames ls dt acc).1.ChildrenNodes[i]? = some c ∧ c.Name = l)
      (insertNames ls dt acc).2 (ls.reverse ++ accNames)
  | [], dt, acc, accNames, h => by simpa [insertNames] using h
  | l :: ls, dt, acc, accNames, h => by
    rw [insertNames, List.reverse_cons, List.append_assoc, List.singleton_append]
    apply insertNames_ptr ls
    refine List.Forall₂.cons (insert_child dt l) ?_
    rcases insert_created dt l with ⟨hlen, heq⟩ | ⟨hlen, heq⟩
    · simp only [hlen, ne_eq, not_true_eq_false, decide_False, Bool.false_eq_true, if_false]
      rw [heq]
      exact h
    · simp only [hlen, ne_eq, Nat.succ_ne_self, not_false_eq_true, decide_True, if_true]
      rw [List.forall₂_map_left_iff]
      refine h.imp ?_
      rintro j nm ⟨c, hc, hcn⟩
      refine ⟨c, ?_, hcn⟩
      rw [heq]
      simp only [treeNode.ChildrenNodes_mk]
      rw [shiftIdx_getElem? _ _ _ _ (insert_cases dt l).1, hc]

theorem insertNames_childNamed : ∀ (ls : List (List Nat)) (dt : treeNode) (acc : List Nat),
    sortedNames dt.ChildrenNodes → ∀ l',
    childNamed l' (insertNames ls dt acc).1.ChildrenNodes
      = match childNamed l' dt.ChildrenNodes with
        | some c => some c
        | none => if l' ∈ ls then some (newNode l') else none
  | [], dt, acc, _, l' => by
    simp only [insertNames, List.not_mem_nil, if_false]
    cases childNamed l' dt.ChildrenNodes <;> rfl
  | l :: ls, dt, acc, hs, l' => by
    rw [insertNames, insertNames_childNamed ls _ _ (insert_sorted dt l hs).1 l']
    obtain ⟨c, hc, hcl, hcase, hother⟩ := insert_childNamed dt l hs
    by_cases hl : l' = l
    · subst hl
      have hfound : childNamed l' (dt.insert l').1.ChildrenNodes = some c := by
        have := childNamed_of_get _ _ c (insert_sorted dt l' hs).1 hc
        rwa [hcl] at this
      rw [hfound]
      rcases hcase with ⟨_, h⟩ | ⟨rfl, h⟩
      · rw [h]
      · rw [h]
        simp
    · rw [hother l' hl]
      cases childNamed l' dt.ChildrenNodes with
      | some c' => rfl
      | none => simp [hl]

theorem mergeKids_childNamed (ch : List treeNode) (hch : sortedNames ch) :
    ∀ (is : List Nat) (cs : List treeNode),
    List.Forall₂ (fun i l => ∃ c, ch[i]? = some c ∧ c.Name = l) is (cs.map treeNode.Name) →
    sortedNames cs → ∀ l,
    childNamed l (mergeKids ch is cs)
      = match childNamed l cs with
        | some s => (childNamed l ch).map (fun d => mergeNode d s)
        | none => childNamed l ch
  | [], [], _, _, l => by rw [mergeKids]; rfl
  | [], _ :: _, h, _, _ => by simp at h
  | _ :: _, [], h, _, _ => by simp at h
  | i :: is, s :: ss, h, hcs, l => by
    rw [List.map_cons, List.forall₂_cons] at h
    obtain ⟨⟨c, hc, hcn⟩, hrest⟩ := h
    obtain ⟨hs1, hs2⟩ := sortedNames_cons hcs
    have ih := mergeKids_childNamed ch hch is ss hrest hs2
    have hMsorted : sortedNames (mergeKids ch is ss) := by
      unfold sortedNames
      rw [mergeKids_names]
      exact hch
    have hMi : ∃ c', (mergeKids ch is ss)[i]? = some c' ∧ c'.Name = s.Name := by
      have h1 : ((mergeKids ch is ss).map treeNode.Name)[i]? = (ch.map treeNode.Name)[i]? := by
        rw [mergeKids_names]
      rw [List.getElem?_map, List.getElem?_map, hc] at h1
      cases hm : (mergeKids ch is ss)[i]? with
      | none => simp [hm] at h1
      | some c' =>
        refine ⟨c', rfl, ?_⟩
        simp only [hm, Option.map_some', Option.some.injEq] at h1
        rw [h1, hcn]
    obtain ⟨c', hc', hcn'⟩ := hMi
    have hfn : ∀ a, (mergeNode a s).Name = a.Name := fun a => (mergeNode_fields a s).1
    rw [mergeKids, childNamed_cons]
    by_cases hl : s.Name = l
    · subst hl
      simp only [if_true]
      have h1 := childNamed_modifyAt_eq (fun d => mergeNode d s) hfn _ i c' hMsorted hc'
      rw [hcn'] at h1
      rw [h1]
      have h2 := childNamed_of_get _ i c' hMsorted hc'
      rw [hcn', ih s.Name] at h2
      have h3 : childNamed s.Name ss = none := by
        rw [childNamed_eq_none]
        intro x hx hxn
        have := hs1 x hx
        rw [hxn] at this
        exact bytesCompare_irrefl _ this
      rw [h3] at h2
      simp only at h2
      rw [h2]
      rfl
    · simp only [hl, if_false]
      rw [childNamed_modifyAt_ne (fun d => mergeNode d s) hfn l _ i c' hc' (by rw [hcn']; exact hl)]
      exact ih l

/-- Lookup of a label among the children of a merged node. -/
theorem mergeNode_childNamed (dt st : treeNode) (hdt : sortedNames dt.ChildrenNodes)
    (hst : sortedNames st.ChildrenNodes) (l : List Nat) :
    childNamed l (mergeNode dt st).ChildrenNodes
      = match childNamed l st.ChildrenNodes with
        | some s => some (mergeNode ((childNamed l dt.ChildrenNodes).getD (newNode l)) s)
        | none => childNamed l dt.ChildrenNodes := by
  rw [mergeNode_children]
  have hptr := insertNames_ptr (st.ChildrenNodes.map treeNode.Name) (treeNode.mk dt.Name
    ((dt.Total + st.Total) % u64) ((dt.Self + st.Self) % u64) dt.ChildrenNodes) [] []
    List.Forall₂.nil
  rw [List.append_nil] at hptr
  have hptr' := List.forall₂_reverse_iff.2 hptr
  rw [List.reverse_reverse] at hptr'
  have hsorted := insertNames_sorted (st.ChildrenNodes.map treeNode.Name) (treeNode.mk dt.Name
    ((dt.Total + st.Total) % u64) ((dt.Self + st.Self) % u64) dt.ChildrenNodes) []
    (by simpa using hdt)
  rw [mergeKids_childNamed _ hsorted _ _ hptr' hst l,
    insertNames_childNamed _ _ _ (by simpa using hdt) l]
  simp only [treeNode.ChildrenNodes_mk]
  cases hs : childNamed l st.ChildrenNodes with
  | none =>
    simp only
    have : l ∉ st.ChildrenNodes.map treeNode.Name := by
      intro hmem
      obtain ⟨x, hx, hxn⟩ := List.mem_map.1 hmem
      exact (childNamed_eq_none.1 hs) x hx hxn
    cases childNamed l dt.ChildrenNodes <;> simp [this]
  | some s =>
    simp only
    have : l ∈ st.ChildrenNodes.map treeNode.Name := by
      obtain ⟨h1, h2⟩ := childNamed_some_name hs
      exact List.mem_map.2 ⟨s, h2, h1⟩
    cases childNamed l dt.ChildrenNodes <;> simp [this]

end MergeLookupLemmas

section MergePathLemmas

theorem child_nodes_lt {n c : treeNode} (hc : c ∈ n.ChildrenNodes) :
    c.nodes.length < n.nodes.length := by
  cases n with
  | mk name total self cs =>
    simp only [treeNode.ChildrenNodes_mk] at hc
    rw [nodes_mk, List.length_cons]
    have h1 : c.nodes.length ≤ (cs.flatMap treeNode.nodes).length := by
      have := List.sublist_flatten_of_mem (List.mem_map_of_mem treeNode.nodes hc)
      simpa [List.flatMap] using this.length_le
    omega

theorem nodeAt_mem_nodes : ∀ (p : List (List Nat)) (n x : treeNode),
    n.nodeAt p = some x → x ∈ n.nodes
  | [], n, x, h => by
    rw [nodeAt_nil] at h
    simp only [Option.some.injEq] at h
    subst h
    exact self_mem_nodes _
  | l :: p, n, x, h => by
    rw [nodeAt_cons] at h
    cases hc : childNamed l n.ChildrenNodes with
    | none => simp [hc] at h
    | some c =>
      simp only [hc, Option.some_bind] at h
      exact mem_nodes_of_child (childNamed_some_name hc).2 (nodeAt_mem_nodes p c x h)

/-- The node at a label path of a merged tree, for sorted trees. -/
theorem mergeNode_nodeAt : ∀ (p : List (List Nat)) (dt st : treeNode), dt.sorted → st.sorted →
    (mergeNode dt st).nodeAt p
      = match st.nodeAt p with
        | none => dt.nodeAt p
        | some s => some (mergeNode ((dt.nodeAt p).getD (newNode s.Name)) s)
  | [], dt, st, _, _ => by simp [nodeAt_nil]
  | l :: q, dt, st, hdt, hst => by
    rw [nodeAt_cons, mergeNode_childNamed dt st (sorted_root hdt) (sorted_root hst) l,
      nodeAt_cons, nodeAt_cons]
    cases hs : childNamed l st.ChildrenNodes with
    | none => simp
    | some s =>
      have hsn := childNamed_some_name hs
      have hs' : s.sorted := sorted_child hst hsn.2
      simp only [Option.some_bind]
      cases hd : childNamed l dt.ChildrenNodes with
      | some d =>
        have hd' : d.sorted := sorted_child hdt (childNamed_some_name hd).2
        simp only [Option.getD_some, Option.some_bind]
        exact mergeNode_nodeAt q d s hd' hs'
      | none =>
        simp only [Option.getD_none, Option.none_bind]
        rw [mergeNode_nodeAt q (newNode l) s (newNode_sorted l) hs']
        cases q with
        | nil => simp [nodeAt_nil, hsn.1]
        | cons l' q' =>
          rw [newNode_nodeAt_cons]
          rfl

theorem treeNode.ext_fields {a b : treeNode} (h1 : a.Name = b.Name) (h2 : a.Total = b.Total)
    (h3 : a.Self = b.Self) (h4 : a.ChildrenNodes = b.ChildrenNodes) : a = b := by
  cases a; cases b
  simp only [treeNode.Name_mk, treeNode.Total_mk, treeNode.Self_mk,
    treeNode.ChildrenNodes_mk] at h1 h2 h3 h4
  subst h1 h2 h3 h4
  rfl

/-- Two strictly sorted child lists with the same lookups are equal. -/
theorem sortedNames_ext : ∀ (l₁ l₂ : List treeNode), sortedNames l₁ → sortedNames l₂ →
    (∀ l, childNamed l l₁ = childNamed l l₂) → l₁ = l₂
  | [], [], _, _, _ => rfl
  | [], b :: _, _, _, h => by
    have := h b.Name
    simp [childNamed_cons, childNamed_nil] at this
  | a :: _, [], _, _, h => by
    have := h a.Name
    simp [childNamed_cons, childNamed_nil] at this
  | a :: l₁, b :: l₂, h1, h2, h => by
    obtain ⟨ha, h1'⟩ := sortedNames_cons h1
    obtain ⟨hb, h2'⟩ := sortedNames_cons h2
    have hab : a = b := by
      have ha2 := h a.Name
      have hb2 := h b.Name
      simp only [childNamed_cons, if_true] at ha2 hb2
      by_cases hn : b.Name = a.Name
      · simp only [hn, if_true, Option.some.injEq] at ha2
        exact ha2
      · exfalso
        simp only [hn, if_false] at ha2
        have hn' : ¬ a.Name = b.Name := fun h' => hn h'.symm
        simp only [hn', if_false] at hb2
        have h3 := hb a (childNamed_some_name ha2.symm).2
        have h4 := ha b (childNamed_some_name hb2).2
        exact bytesCompare_irrefl _ (bytesCompare_trans _ _ _ h3 h4)
    subst hab
    congr 1
    apply sortedNames_ext l₁ l₂ h1' h2'
    intro l
    have hl := h l
    simp only [childNamed_cons] at hl
    by_cases hn : a.Name = l
    · subst hn
      have e1 : childNamed a.Name l₁ = none :=
        childNamed_eq_none.2 (fun x hx hxn => bytesCompare_irrefl _ (by
          have := ha x hx; rwa [hxn] at this))
      have e2 : childNamed a.Name l₂ = none :=
        childNamed_eq_none.2 (fun x hx hxn => bytesCompare_irrefl _ (by
          have := hb x hx; rwa [hxn] at this))
      rw [e1, e2]
    · simpa [hn] using hl

/-- Merging two sources into a tree gives the same tree in either order. -/
theorem mergeNode_comm : ∀ (k : Nat) (a b c : treeNode), a.nodes.length + b.nodes.length ≤ k →
    a.sorted → b.sorted → c.sorted →
    mergeNode (mergeNode c a) b = mergeNode (mergeNode c b) a := by
  intro k
  induction k with
  | zero =>
    intro a b c hk
    have := nodes_length_pos a
    omega
  | succ k ih =>
    intro a b c hk ha hb hc
    obtain ⟨hN1, hT1, hS1⟩ := mergeNode_fields c a
    obtain ⟨hN2, hT2, hS2⟩ := mergeNode_fields c b
    obtain ⟨hN3, hT3, hS3⟩ := mergeNode_fields (mergeNode c a) b
    obtain ⟨hN4, hT4, hS4⟩ := mergeNode_fields (mergeNode c b) a
    have hca := mergeNode_root_sorted c a (sorted_root hc)
    have hcb := mergeNode_root_sorted c b (sorted_root hc)
    apply treeNode.ext_fields
    · rw [hN3, hN4, hN1, hN2]
    · rw [hT3, hT4, hT1, hT2]
      simp only [u64]
      omega
    · rw [hS3, hS4, hS1, hS2]
      simp only [u64]
      omega
    · apply sortedNames_ext _ _ (mergeNode_root_sorted _ b hca) (mergeNode_root_sorted _ a hcb)
      intro l
      rw [mergeNode_childNamed _ b hca (sorted_root hb) l,
        mergeNode_childNamed _ a hcb (sorted_root ha) l,
        mergeNode_childNamed c a (sorted_root hc) (sorted_root ha) l,
        mergeNode_childNamed c b (sorted_root hc) (sorted_root hb) l]
      cases hla : childNamed l a.ChildrenNodes with
      | none =>
        cases hlb : childNamed l b.ChildrenNodes with
        | none => rfl
        | some sb => rfl
      | some sa =>
        cases hlb : childNamed l b.ChildrenNodes with
        | none => rfl
        | some sb =>
          simp only [Option.getD_some, Option.some.injEq]
          have hsa := (childNamed_some_name hla).2
          have hsb := (childNamed_some_name hlb).2
          have hlt1 := child_nodes_lt hsa
          have hlt2 := child_nodes_lt hsb
          apply ih sa sb _ (by omega) (sorted_child ha hsa) (sorted_child hb hsb)
          cases hlc : childNamed l c.ChildrenNodes with
          | none => exact newNode_sorted l
          | some cd => exact sorted_child hc (childNamed_some_name hlc).2

end MergePathLemmas

theorem treeXY_reachable : Reachable treeXY :=
  Reachable.insert (t := New) [120, 59, 121] 10 Reachable.new

theorem treeXZ_reachable : Reachable treeXZ :=
  Reachable.insert (t := New) [120, 59, 122] 7 Reachable.new

theorem sampleTree_reachable : Reachable sampleTree :=
  Reachable.insert (t := New.Insert [97, 59, 98] 5) [97, 59, 99] 3
    (Reachable.insert [97, 59, 98] 5 Reachable.new)

theorem treeXZ_isU64 : treeXZ.root.isU64 := by
  intro x hx
  simp [treeXZ, nodes_mk] at hx
  rcases hx with rfl | rfl | rfl <;> simp [u64]

/-! ### Merge -/

/-- C4: for trees `t` and `src` with sorted, duplicate-free siblings and `uint64`
counters, `t.Merge(src)` returns (given one round of fuel per source node), and in
the result a node exists at a label path `p` iff one exists at `p` in the old `t`
or in `src`; its `Self` is the old `Self` of `t` at `p` plus the `Self` of `src` at
`p`, and likewise its `Total`, an absent node counting as 0 and the sum taken in
`uint64`. Merging the tree of `"x;y" = 10` into the tree of `"x;z" = 7` gives one
child `x` with total 17 over `y` (total 10) and `z` (total 7). -/
theorem Merge_pathwise_sum (t src : Tree) (fuel : Nat) (hfuel : src.root.nodes.length ≤ fuel)
    (ht : t.root.sorted) (hs : src.root.sorted) (hut : t.root.isU64) :
    ∃ r, t.Merge fuel src = some r ∧
      (∀ p, ((r.root.nodeAt p).isSome = true ↔
            (t.root.nodeAt p).isSome = true ∨ (src.root.nodeAt p).isSome = true) ∧
        ∀ x, r.root.nodeAt p = some x →
          x.Self = (t.root.selfAtLabels p + src.root.selfAtLabels p) % u64 ∧
          x.Total = (t.root.totalAt p + src.root.totalAt p) % u64) ∧
      (New.Insert [120, 59, 122] 7).Merge 3 (New.Insert [120, 59, 121] 10) = some treeXYZ := by
  refine ⟨⟨mergeNode t.root src.root⟩, Merge_eq t src fuel hfuel, fun p => ?_, rfl⟩
  have hp := mergeNode_nodeAt p t.root src.root ht hs
  simp only [hp]
  unfold treeNode.selfAtLabels treeNode.totalAt
  cases hsrc : src.root.nodeAt p with
  | none =>
    simp only [Option.isSome_none, Bool.false_eq_true, or_false, true_and, Nat.add_zero]
    intro x hx
    have hmem := hut x (nodeAt_mem_nodes p _ x hx)
    rw [hx]
    simp only
    rw [Nat.mod_eq_of_lt hmem.2, Nat.mod_eq_of_lt hmem.1]
    exact ⟨rfl, rfl⟩
  | some s =>
    simp only [Option.isSome_some, or_true, true_and, Option.some.injEq]
    intro x hx
    subst hx
    obtain ⟨_, hT, hS⟩ := mergeNode_fields ((t.root.nodeAt p).getD (newNode s.Name)) s
    rw [hT, hS]
    cases t.root.nodeAt p with
    | none => simp [newNode]
    | some d => simp

theorem Merge_pathwise_sum_witness :
    ∃ r, treeXZ.Merge 3 treeXY = some r ∧
      (∀ p, ((r.root.nodeAt p).isSome = true ↔
            (treeXZ.root.nodeAt p).isSome = true ∨ (treeXY.root.nodeAt p).isSome = true) ∧
        ∀ x, r.root.nodeAt p = some x →
          x.Self = (treeXZ.root.selfAtLabels p + treeXY.root.selfAtLabels p) % u64 ∧
          x.Total = (treeXZ.root.totalAt p + treeXY.root.totalAt p) % u64) ∧
      (New.Insert [120, 59, 122] 7).Merge 3 (New.Insert [120, 59, 121] 10) = some treeXYZ :=
  Merge_pathwise_sum treeXZ treeXY 3 (by decide) (reachable_invariants treeXZ_reachable).2
    (reachable_invariants treeXY_reachable).2 treeXZ_isU64

/-- C5: for trees `A`, `B`, `C` with sorted, duplicate-free siblings, merging `A`
into `C` and then `B` into the result returns the same tree (shape, names, `Self`
and `Total` of every node) as merging `B` into `C` and then `A`; both orders
return, given one round of fuel per source node. The sources `A` and `B` are
tree values: they are the same in both orders. -/
theorem Merge_order_independent (A B C : Tree) (fuel : Nat)
    (hA : A.root.nodes.length ≤ fuel) (hB : B.root.nodes.length ≤ fuel)
    (sA : A.root.sorted) (sB : B.root.sorted) (sC : C.root.sorted) :
    ∃ r, (C.Merge fuel A).bind (fun c => c.Merge fuel B) = some r ∧
      (C.Merge fuel B).bind (fun c => c.Merge fuel A) = some r := by
  refine ⟨⟨mergeNode (mergeNode C.root A.root) B.root⟩, ?_, ?_⟩
  · rw [Merge_eq C A fuel hA, Option.some_bind, Merge_eq _ B fuel hB]
  · rw [Merge_eq C B fuel hB, Option.some_bind, Merge_eq _ A fuel hA,
      mergeNode_comm _ A.root B.root C.root le_rfl sA sB sC]

theorem Merge_order_independent_witness :
    ∃ r, (sampleTree.Merge 3 treeXY).bind (fun c => c.Merge 3 treeXZ) = some r ∧
      (sampleTree.Merge 3 treeXZ).bind (fun c => c.Merge 3 treeXY) = some r :=
  Merge_order_independent treeXY treeXZ sampleTree 3 (by decide) (by decide)
    (reachable_invariants treeXY_reachable).2 (reachable_invariants treeXZ_reachable).2
    (reachable_invariants sampleTree_reachable).2

section ChildKeysLemmas

theorem keysWithPrefix_eq_map (pre : List Nat) (nodes : List treeNode) :
    keysWithPrefix nodes pre = nodes.map (fun c => (pre ++ [semicolon]) ++ c.Name) := by
  unfold keysWithPrefix
  have h : ∀ (acc : List (List Nat)) (ns : List treeNode),
      ns.foldl (fun keys node => keys ++ [keyWithPrefix node pre]) acc
        = acc ++ ns.map (fun c => (pre ++ [semicolon]) ++ c.Name) := by
    intro acc ns
    induction ns generalizing acc with
    | nil => simp
    | cons n ns ih =>
      rw [List.foldl_cons, ih]
      simp [keyWithPrefix, copiedByteSlice]
  simpa using h [] nodes

theorem map_pathsFrom_gen {β : Type} (F : List Nat → β) (G : treeNode → List Nat → β) :
    ∀ (cs : List treeNode) (i : Nat),
      (∀ (j : Nat) (hj : j < cs.length) (q : List Nat),
        F ((i + j) :: q) = G (cs.get ⟨j, hj⟩) q) →
      (treeNode.pathsFrom i cs).map F = cs.flatMap (fun c => c.paths.map (G c))
  | [], _, _ => by simp [treeNode.pathsFrom]
  | c :: cs, i, h => by
    rw [treeNode.pathsFrom, List.map_append, List.flatMap_cons,
      map_pathsFrom_gen F G cs (i + 1) (fun j hj q => by
        have := h (j + 1) (by simpa using hj) q
        simpa [Nat.add_assoc, Nat.add_comm 1 j] using this)]
    congr 1
    rw [List.map_map]
    apply List.map_congr_left
    intro q _
    have := h 0 (by simp) q
    simpa using this

theorem visitsWithChildKeys_mk (pre name : List Nat) (total self : Nat) (cs : List treeNode) :
    visitsWithChildKeys pre (.mk name total self cs)
      = (pre ++ [semicolon] ++ name, self,
          cs.map (fun c => (pre ++ [semicolon] ++ name) ++ [semicolon] ++ c.Name))
        :: cs.flatMap (visitsWithChildKeys (pre ++ [semicolon] ++ name)) := by
  unfold visitsWithChildKeys
  rw [paths_mk, List.map_cons]
  congr 1
  apply map_pathsFrom_gen
  intro j hj q
  have hget : cs[j]? = some (cs.get ⟨j, hj⟩) := by simp [List.getElem?_eq_getElem hj]
  simp [treeNode.keyFrom, treeNode.selfAt, treeNode.childKeysFrom, treeNode.nodeAtIdx, hget]

mutual
theorem iterateWithChildKeysLoop_node : ∀ (n : treeNode) (pre : List Nat)
    (nodes : List treeNode) (prefixes : List (List Nat))
    (calls : List (List Nat × Nat × List (List Nat))) (k : Nat),
    iterateWithChildKeysLoop (n.nodes.length + k) (n :: nodes) (pre :: prefixes) calls
      = iterateWithChildKeysLoop k nodes prefixes (calls ++ visitsWithChildKeys pre n)
  | .mk name total self cs, pre, nodes, prefixes, calls, k => by
    rw [nodes_mk, List.length_cons, Nat.add_right_comm, iterateWithChildKeysLoop]
    simp only [treeNode.ChildrenNodes_mk, treeNode.Self_mk, foldl_prependBytes,
      keysWithPrefix_eq_map]
    rw [iterateWithChildKeysLoop_children cs, visitsWithChildKeys_mk, List.append_assoc]
    simp [keyWithPrefix, copiedByteSlice]
theorem iterateWithChildKeysLoop_children : ∀ (cs : List treeNode) (label : List Nat)
    (nodes : List treeNode) (prefixes : List (List Nat))
    (calls : List (List Nat × Nat × List (List Nat))) (k : Nat),
    iterateWithChildKeysLoop ((cs.flatMap treeNode.nodes).length + k) (cs ++ nodes)
        (List.replicate cs.length label ++ prefixes) calls
      = iterateWithChildKeysLoop k nodes prefixes (calls ++ cs.flatMap (visitsWithChildKeys label))
  | [], label, nodes, prefixes, calls, k => by simp
  | c :: cs, label, nodes, prefixes, calls, k => by
    simp only [List.flatMap_cons, List.length_append, List.cons_append, List.length_cons,
      List.replicate_succ]
    rw [Nat.add_assoc, iterateWithChildKeysLoop_node c, iterateWithChildKeysLoop_children cs,
      List.append_assoc]
end

theorem Iterate_eq_visitsOf (t : Tree) (fuel : Nat) (hfuel : t.root.nodes.length ≤ fuel) :
    t.Iterate fuel = some (visitsOf [] t.root) := by
  obtain ⟨k, rfl⟩ := Nat.exists_eq_add_of_le hfuel
  have := iterateLoop_node t.root [] [] [] [] k
  rw [Tree.Iterate, this]
  cases k <;> simp [iterateLoop]

theorem IterateWithChildKeys_eq (t : Tree) (fuel : Nat) (hfuel : t.root.nodes.length ≤ fuel) :
    t.IterateWithChildKeys fuel = some (visitsWithChildKeys [] t.root) := by
  obtain ⟨k, rfl⟩ := Nat.exists_eq_add_of_le hfuel
  have := iterateWithChildKeysLoop_node t.root [] [] [] [] k
  rw [Tree.IterateWithChildKeys, firstPrefix, this]
  cases k <;> simp [iterateWithChildKeysLoop]

theorem parent_before_child : ∀ (p : List Nat) (n : treeNode) (i : Nat),
    (n.nodeAtIdx (p ++ [i])).isSome = true → List.Sublist [p, p ++ [i]] n.paths
  | [], .mk name total self cs, i, h => by
    simp only [List.nil_append, treeNode.nodeAtIdx, treeNode.ChildrenNodes_mk] at h
    rw [paths_mk]
    apply List.Sublist.cons₂
    cases hi : cs[i]? with
    | none => simp [hi] at h
    | some c =>
      have h2 := block_sublist_pathsFrom cs 0 i c hi
      refine List.Sublist.trans ?_ h2
      simpa using (nil_sublist_paths c).map (fun p => (0 + i) :: p)
  | a :: p, .mk name total self cs, i, h => by
    simp only [List.cons_append, treeNode.nodeAtIdx, treeNode.ChildrenNodes_mk] at h
    rw [paths_mk]
    apply List.Sublist.cons
    cases ha : cs[a]? with
    | none => simp [ha] at h
    | some c =>
      simp only [ha] at h
      have ih := parent_before_child p c i h
      have h2 := block_sublist_pathsFrom cs 0 a c ha
      refine List.Sublist.trans ?_ h2
      simpa using ih.map (fun p => (0 + a) :: p)

end ChildKeysLemmas

/-! ### Traversals of the empty tree, IterateWithChildKeys -/

/-- C11 as stated fails: on the empty tree `Iterate` never passes the empty key;
no amount of fuel makes its call list `[("", 0)]`. -/
theorem Iterate_New_not_empty_key : ¬ ∃ fuel, New.Iterate fuel = some [([], 0)] := by
  rintro ⟨fuel, h⟩
  cases fuel with
  | zero => simp [Tree.Iterate, New, iterateLoop] at h
  | succ k =>
    have := Iterate_eq_visitsOf New (k + 1) (by simp [New, newNode_nodes])
    rw [this] at h
    simp [visitsOf, New, newNode, paths_mk, treeNode.pathsFrom, treeNode.keyFrom] at h

/-- C11 (amended): on the empty tree `New()`, `Iterate`, `IterateWithChildKeys` and
`iterateWithTotal` (whatever its callback answers) each return after invoking
their callback exactly once, for the root: `Iterate` passes the key `";"` (empty
parent key, separator, empty root name; it is also what `RootKey` returns) and
`self = 0`, `IterateWithChildKeys` passes the same key and value with no child
keys, and `iterateWithTotal` passes the total 0. -/
theorem traversals_of_New (fuel : Nat) (hfuel : 1 ≤ fuel) (cb : List Nat → Nat → Bool) :
    New.Iterate fuel = some [([semicolon], 0)] ∧
    New.IterateWithChildKeys fuel = some [([semicolon], 0, [])] ∧
    New.iterateWithTotal cb fuel = some [0] ∧
    New.RootKey = [semicolon] := by
  obtain ⟨k, rfl⟩ := Nat.exists_eq_add_of_le hfuel
  rw [Nat.add_comm]
  refine ⟨?_, ?_, ?_, rfl⟩
  · simp [Tree.Iterate, New, newNode, iterateLoop, prependBytes]
  · simp [Tree.IterateWithChildKeys, New, newNode, iterateWithChildKeysLoop, prependBytes,
      keyWithPrefix, copiedByteSlice, firstPrefix, keysWithPrefix]
  · simp only [Tree.iterateWithTotal, New, newNode, iterateWithTotalLoop, treeNode.Total_mk,
      treeNode.ChildrenNodes_mk, List.nil_append]
    split <;> cases k <;> simp [iterateWithTotalLoop]

theorem traversals_of_New_witness :
    New.Iterate 1 = some [([semicolon], 0)] ∧
    New.IterateWithChildKeys 1 = some [([semicolon], 0, [])] ∧
    New.iterateWithTotal (fun _ _ => true) 1 = some [0] ∧
    New.RootKey = [semicolon] :=
  traversals_of_New 1 (by decide) (fun _ _ => true)

/-- C12: given fuel for one loop round per node, `IterateWithChildKeys` returns,
and the `(key, self)` pairs of its calls are, element for element and in order,
the calls of `Iterate`. Its calls are those for the child-index paths listed by
`paths`; the `childKeys` passed for the node at path `p` are, in sibling order,
the key of that node followed by the separator and the child's name, which is the
key passed when the child (path `p ++ [i]`) is visited, and that visit comes
after the visit of `p`. -/
theorem IterateWithChildKeys_same_traversal (t : Tree) (fuel : Nat)
    (hfuel : t.root.nodes.length ≤ fuel) :
    ∃ calls, t.IterateWithChildKeys fuel = some calls ∧
      t.Iterate fuel = some (calls.map (fun c => (c.1, c.2.1))) ∧
      calls = t.root.paths.map
        (fun p => (t.root.keyAt p, t.root.selfAt p, t.root.childKeysFrom [] p)) ∧
      (∀ p n, t.root.nodeAtIdx p = some n →
        t.root.childKeysFrom [] p
          = n.ChildrenNodes.map (fun c => t.root.keyAt p ++ [semicolon] ++ c.Name) ∧
        t.root.childKeysFrom [] p
          = (List.range n.ChildrenNodes.length).map (fun i => t.root.keyAt (p ++ [i]))) ∧
      (∀ p i, (t.root.nodeAtIdx (p ++ [i])).isSome = true →
        List.Sublist [p, p ++ [i]] t.root.paths) := by
  refine ⟨_, IterateWithChildKeys_eq t fuel hfuel, ?_, rfl, ?_,
    fun p i h => parent_before_child p _ i h⟩
  · rw [Iterate_eq_visitsOf t fuel hfuel]
    simp [visitsOf, visitsWithChildKeys, List.map_map, Function.comp]
  · intro p n hn
    have h1 : t.root.childKeysFrom [] p
        = n.ChildrenNodes.map (fun c => t.root.keyAt p ++ [semicolon] ++ c.Name) := by
      simp [treeNode.childKeysFrom, hn, treeNode.keyAt]
    refine ⟨h1, ?_⟩
    rw [h1]
    apply List.ext_getElem
    · simp
    · intro i hi1 hi2
      simp only [List.length_map, List.length_range] at hi1 hi2
      simp only [List.getElem_map, List.getElem_range]
      have hc : t.root.nodeAtIdx (p ++ [i]) = some (n.ChildrenNodes[i]) := by
        rw [nodeAtIdx_snoc, hn]
        simp [List.getElem?_eq_getElem hi1]
      exact (keyFrom_snoc p t.root [] i _ hc).symm

theorem IterateWithChildKeys_same_traversal_witness :
    ∃ calls, sampleTree.IterateWithChildKeys 4 = some calls ∧
      sampleTree.Iterate 4 = some (calls.map (fun c => (c.1, c.2.1))) ∧
      calls = sampleTree.root.paths.map
        (fun p => (sampleTree.root.keyAt p, sampleTree.root.selfAt p,
          sampleTree.root.childKeysFrom [] p)) ∧
      (∀ p n, sampleTree.root.nodeAtIdx p = some n →
        sampleTree.root.childKeysFrom [] p
          = n.ChildrenNodes.map (fun c => sampleTree.root.keyAt p ++ [semicolon] ++ c.Name) ∧
        sampleTree.root.childKeysFrom [] p
          = (List.range n.ChildrenNodes.length).map (fun i => sampleTree.root.keyAt (p ++ [i]))) ∧
      (∀ p i, (sampleTree.root.nodeAtIdx (p ++ [i])).isSome = true →
        List.Sublist [p, p ++ [i]] sampleTree.root.paths) :=
  IterateWithChildKeys_same_traversal sampleTree 4 (by decide)

section DecodeLemmas

theorem wrapInt_add_wrapInt (a s : Int) : wrapInt (a + wrapInt s) = wrapInt (a + s) := by
  unfold wrapInt; omega

theorem wrapInt_of_range (x : Int) (h1 : -9223372036854775808 ≤ x)
    (h2 : x < 9223372036854775808) : wrapInt x = x := by
  unfold wrapInt; omega

theorem decodeList_short (names : List (List Nat)) (l : List Int) (prev : Int)
    (h1 : 0 < l.length) (h2 : l.length < 4) : decodeList names l prev = none := by
  match l, h1, h2 with
  | [_], _, _ => rfl
  | [_, _], _, _ => rfl
  | [_, _, _], _, _ => rfl
  | _ :: _ :: _ :: _ :: _, _, h => simp at h; omega

theorem decodeRowLoop_eq_decodeList (names : List (List Nat)) (row : List Int) :
    ∀ (fuel i : Nat) (prev : Int) (out : List OutputItem), row.length - i ≤ fuel →
      decodeRowLoop names row fuel i prev out
        = (decodeList names (row.drop i) prev).map (fun items => out ++ items)
  | 0, i, prev, out, h => by
    have hle : row.length ≤ i := by omega
    rw [decodeRowLoop, if_neg (by omega), List.drop_eq_nil_of_le hle]
    simp [decodeList]
  | fuel + 1, i, prev, out, h => by
    rw [decodeRowLoop]
    by_cases hi : i < row.length
    · rw [if_pos hi]
      by_cases hi3 : i + 3 < row.length
      · have e0 : row[i]? = some row[i] := List.getElem?_eq_getElem hi
        have e1 : row[i + 1]? = some row[i + 1] := List.getElem?_eq_getElem (by omega)
        have e2 : row[i + 2]? = some row[i + 2] := List.getElem?_eq_getElem (by omega)
        have e3 : row[i + 3]? = some row[i + 3] := List.getElem?_eq_getElem hi3
        have hdrop : row.drop i
            = row[i] :: row[i + 1] :: row[i + 2] :: row[i + 3] :: row.drop (i + 4) := by
          rw [List.drop_eq_getElem_cons hi, List.drop_eq_getElem_cons (show i + 1 < _ by omega),
            List.drop_eq_getElem_cons (show i + 1 + 1 < _ by omega),
            List.drop_eq_getElem_cons (show i + 1 + 1 + 1 < _ by omega)]
        rw [e0, e1, e2, e3, hdrop, decodeList]
        simp only
        cases hn : indexInt names row[i + 3] with
        | none => rfl
        | some name =>
          simp only [hn]
          rw [decodeRowLoop_eq_decodeList names row fuel (i + 4) _ _ (by omega)]
          cases decodeList names (row.drop (i + 4)) (wrapInt (prev + wrapInt (row[i] + row[i + 1])))
            <;> simp
      · have e3 : row[i + 3]? = none := List.getElem?_eq_none (by omega)
        rw [e3, decodeList_short names (row.drop i) prev (by simp; omega) (by simp; omega)]
        simp only [Option.map_none']
    · rw [if_neg hi, List.drop_eq_nil_of_le (by omega)]
      simp [decodeList]

theorem decodeRow_eq_decodeList (names : List (List Nat)) (row : List Int) :
    decodeRow names row = decodeList names row 0 := by
  unfold decodeRow
  rw [decodeRowLoop_eq_decodeList names row _ 0 0 [] (by omega)]
  simp only [List.drop_zero, List.nil_append]
  cases h : decodeList names row 0 <;> simp

end DecodeLemmas

section DecodeListLemmas

theorem getD_quad_succ (a b c d : Int) (rest : List Int) (j k : Nat) :
    (a :: b :: c :: d :: rest).getD (4 * (j + 1) + k) 0 = rest.getD (4 * j + k) 0 := by
  rw [show 4 * (j + 1) + k = (4 * j + k) + 1 + 1 + 1 + 1 by omega]
  simp only [List.getD_cons_succ]

theorem sumBefore_quad_succ (a b c d : Int) (rest : List Int) (j : Nat) :
    sumBefore (a :: b :: c :: d :: rest) (j + 1) = (a + b) + sumBefore rest j := by
  unfold sumBefore
  rw [List.range_succ_eq_map, List.map_cons, List.sum_cons, List.map_map]
  congr 1

theorem sumBefore_zero (row : List Int) : sumBefore row 0 = 0 := by
  simp [sumBefore]

theorem sumBefore_succ (row : List Int) (j : Nat) :
    sumBefore row (j + 1) = sumBefore row j + (row.getD (4 * j) 0 + row.getD (4 * j + 1) 0) := by
  unfold sumBefore
  rw [List.range_succ, List.map_append, List.sum_append]
  simp

theorem rowWellFormed_quad (names : List (List Nat)) (a b c ni : Int) (rest : List Int) :
    rowWellFormed names (a :: b :: c :: ni :: rest) ↔
      (0 ≤ ni ∧ ni < names.length) ∧ rowWellFormed names rest := by
  unfold rowWellFormed
  have hlen : (a :: b :: c :: ni :: rest).length = rest.length + 4 := by simp
  have hdiv : (rest.length + 4) / 4 = rest.length / 4 + 1 := by omega
  rw [hlen, hdiv]
  constructor
  · rintro ⟨h4, hall⟩
    refine ⟨?_, ?_, ?_⟩
    · have := hall 0 (by omega)
      simpa using this
    · omega
    · intro j hj
      have := hall (j + 1) (by omega)
      rwa [getD_quad_succ] at this
  · rintro ⟨hni, h4, hall⟩
    refine ⟨by omega, ?_⟩
    intro j hj
    cases j with
    | zero => simpa using hni
    | succ j =>
      rw [getD_quad_succ]
      exact hall j (by omega)

theorem indexInt_of_range {α : Type} (s : List α) (i : Int) (d : α) (h0 : 0 ≤ i)
    (h1 : i < s.length) : indexInt s i = some (s.getD i.toNat d) := by
  unfold indexInt
  rw [if_pos h0]
  have : i.toNat < s.length := by omega
  rw [List.getElem?_eq_getElem this, List.getD_eq_getElem _ _ this]

theorem indexInt_isSome {α : Type} (s : List α) (i : Int) (x : α) (h : indexInt s i = some x) :
    0 ≤ i ∧ i < s.length := by
  unfold indexInt at h
  by_cases h0 : 0 ≤ i
  · rw [if_pos h0] at h
    refine ⟨h0, ?_⟩
    by_contra hcon
    rw [List.getElem?_eq_none (by omega)] at h
    cases h
  · rw [if_neg h0] at h
    cases h

/-- On a well-formed list of entries `decodeList` returns the items described
by `decodedItem`, with `prev` added to every offset. -/
theorem decodeList_wellFormed (names : List (List Nat)) :
    ∀ (l : List Int) (prev : Int), rowWellFormed names l →
      decodeList names l prev
        = some ((List.range (l.length / 4)).map (fun j =>
            (⟨(decodedItem names l j).Name, wrapInt (exactOffset l j + prev),
              (decodedItem names l j).Total, (decodedItem names l j).Self⟩ : OutputItem)))
  | [], prev, _ => by simp [decodeList]
  | [_], _, h => by
    have := h.1
    simp only [List.length_cons, List.length_nil] at this
    omega
  | [_, _], _, h => by
    have := h.1
    simp only [List.length_cons, List.length_nil] at this
    omega
  | [_, _, _], _, h => by
    have := h.1
    simp only [List.length_cons, List.length_nil] at this
    omega
  | a :: b :: c :: ni :: rest, prev, h => by
    obtain ⟨hni, hrest⟩ := (rowWellFormed_quad names a b c ni rest).1 h
    rw [decodeList, indexInt_of_range names ni [] hni.1 hni.2]
    simp only
    rw [decodeList_wellFormed names rest _ hrest]
    have hlen : (a :: b :: c :: ni :: rest).length = rest.length + 4 := by simp
    have hdiv : (rest.length + 4) / 4 = rest.length / 4 + 1 := by omega
    rw [hlen, hdiv, List.range_succ_eq_map, List.map_cons, List.map_map, Option.map_some']
    congr 1
    congr 1
    · simp only [decodedItem, exactOffset, sumBefore_zero]
      simp only [Nat.mul_zero, Nat.zero_add, List.getD_cons_zero, List.getD_cons_succ,
        Int.add_zero]
    · apply List.map_congr_left
      intro j _
      simp only [Function.comp, decodedItem, exactOffset]
      rw [show Nat.succ j = j + 1 by rfl]
      have e0 := getD_quad_succ a b c ni rest j 0
      have e1 := getD_quad_succ a b c ni rest j 1
      have e2 := getD_quad_succ a b c ni rest j 2
      have e3 := getD_quad_succ a b c ni rest j 3
      simp only [Nat.add_zero] at e0
      rw [e0, e1, e2, e3, sumBefore_quad_succ]
      congr 1
      generalize rest.getD (4 * j) 0 = x
      generalize sumBefore rest j = y
      unfold wrapInt
      omega

/-- `decodeList` returns only on a well-formed list of entries. -/
theorem decodeList_some (names : List (List Nat)) :
    ∀ (l : List Int) (prev : Int) (res : List OutputItem),
      decodeList names l prev = some res → rowWellFormed names l
  | [], _, _, _ => by
    unfold rowWellFormed
    simp
  | [_], _, _, h => by simp [decodeList] at h
  | [_, _], _, _, h => by simp [decodeList] at h
  | [_, _, _], _, _, h => by simp [decodeList] at h
  | a :: b :: c :: ni :: rest, prev, res, h => by
    rw [decodeList] at h
    cases hn : indexInt names ni with
    | none => simp [hn] at h
    | some name =>
      simp only [hn] at h
      cases hr : decodeList names rest (wrapInt (prev + wrapInt (a + b))) with
      | none => simp [hr] at h
      | some items =>
        exact (rowWellFormed_quad names a b c ni rest).2
          ⟨indexInt_isSome names ni name hn, decodeList_some names rest _ items hr⟩

theorem decodeRow_wellFormed (names : List (List Nat)) (row : List Int)
    (h : rowWellFormed names row) :
    decodeRow names row = some ((List.range (row.length / 4)).map (decodedItem names row)) := by
  rw [decodeRow_eq_decodeList, decodeList_wellFormed names row 0 h]
  congr 1
  apply List.map_congr_left
  intro j _
  simp [decodedItem]

theorem decodeRows_wellFormed (names : List (List Nat)) :
    ∀ (levels : List (List Int)) (out : List (List OutputItem)),
      (∀ row ∈ levels, rowWellFormed names row) →
      decodeRows names levels out
        = some (out ++ levels.map (fun row =>
            (List.range (row.length / 4)).map (decodedItem names row)))
  | [], out, _ => by simp [decodeRows]
  | row :: rest, out, h => by
    rw [decodeRows, decodeRow_wellFormed names row (h row (List.mem_cons_self _ _))]
    simp only
    rw [decodeRows_wellFormed names rest _ (fun r hr => h r (List.mem_cons_of_mem _ hr))]
    simp

theorem decodeRows_some (names : List (List Nat)) :
    ∀ (levels : List (List Int)) (out res : List (List OutputItem)),
      decodeRows names levels out = some res → ∀ row ∈ levels, rowWellFormed names row
  | [], _, _, _ => by simp
  | row :: rest, out, res, h => by
    rw [decodeRows] at h
    cases hr : decodeRow names row with
    | none => simp [hr] at h
    | some outRow =>
      simp only [hr] at h
      intro r hr'
      rcases List.mem_cons.1 hr' with rfl | hr'
      · rw [decodeRow_eq_decodeList] at hr
        exact decodeList_some names r 0 outRow hr
      · exact decodeRows_some names rest _ res h r hr'

end DecodeListLemmas

section DecodeOrderLemmas

theorem sumBefore_mono (row : List Int) (n : Nat)
    (hnonneg : ∀ j, j < n → 0 ≤ row.getD (4 * j) 0 ∧ 0 ≤ row.getD (4 * j + 1) 0) :
    ∀ (j' j : Nat), j ≤ j' → j' ≤ n → 0 ≤ sumBefore row j ∧ sumBefore row j ≤ sumBefore row j'
  | 0, j, hj, _ => by
    have : j = 0 := by omega
    subst this
    simp [sumBefore_zero]
  | j' + 1, j, hj, hn => by
    have ih := sumBefore_mono row n hnonneg j'
    have h0 := ih j' le_rfl (by omega)
    have hq := hnonneg j' (by omega)
    rcases Nat.eq_or_lt_of_le hj with rfl | hlt
    · refine ⟨?_, le_rfl⟩
      rw [sumBefore_succ]
      omega
    · have h1 := ih j (by omega) (by omega)
      refine ⟨h1.1, ?_⟩
      rw [sumBefore_succ]
      omega

theorem sampleInput_wellFormed :
    ∀ row ∈ sampleInput.Flamebearer.Levels, rowWellFormed sampleInput.Flamebearer.Names row := by
  intro row hrow
  simp only [sampleInput, List.mem_cons, List.mem_singleton, List.not_mem_nil, or_false] at hrow
  rcases hrow with rfl | rfl
  · refine ⟨by decide, ?_⟩
    intro j hj
    have : j = 0 := by simp at hj; omega
    subst this
    simp [sampleInput]
  · refine ⟨by decide, ?_⟩
    intro j hj
    have : j = 0 ∨ j = 1 := by simp at hj; omega
    rcases this with rfl | rfl <;> simp [sampleInput]

end DecodeOrderLemmas

/-! ### decodeLevels -/

/-- C13: on a well-formed input (every row length a multiple of 4, every name
index within the name table) `decodeLevels` returns one output row per input row,
in order, each with `len(row)/4` items; item `j` of a row has the name
`names[row[4j+3]]`, `Total = row[4j+1]`, `Self = row[4j+2]` and as `Offset` the Go
`int` value of `row[4j] + Σ_{k<j} (row[4k] + row[4k+1])`, which is that sum itself
whenever the sum is in the range of a Go `int`. -/
theorem decodeLevels_wellFormed (input : Input)
    (hwf : ∀ row ∈ input.Flamebearer.Levels, rowWellFormed input.Flamebearer.Names row) :
    decodeLevels input = some ⟨⟨input.Flamebearer.Levels.map (fun row =>
      (List.range (row.length / 4)).map (decodedItem input.Flamebearer.Names row))⟩⟩ ∧
    ∀ row ∈ input.Flamebearer.Levels, ∀ j, j < row.length / 4 →
      input.Flamebearer.Names[(row.getD (4 * j + 3) 0).toNat]?
        = some (decodedItem input.Flamebearer.Names row j).Name ∧
      (decodedItem input.Flamebearer.Names row j).Total = row.getD (4 * j + 1) 0 ∧
      (decodedItem input.Flamebearer.Names row j).Self = row.getD (4 * j + 2) 0 ∧
      (decodedItem input.Flamebearer.Names row j).Offset
        = wrapInt (row.getD (4 * j) 0
            + ((List.range j).map (fun k => row.getD (4 * k) 0 + row.getD (4 * k + 1) 0)).sum) ∧
      (-9223372036854775808 ≤ exactOffset row j → exactOffset row j < 9223372036854775808 →
        (decodedItem input.Flamebearer.Names row j).Offset
          = row.getD (4 * j) 0
            + ((List.range j).map (fun k => row.getD (4 * k) 0 + row.getD (4 * k + 1) 0)).sum) := by
  refine ⟨?_, ?_⟩
  · unfold decodeLevels
    rw [decodeRows_wellFormed _ _ [] hwf]
    simp
  · intro row hrow j hj
    have hidx := (hwf row hrow).2 j hj
    have hlt : (row.getD (4 * j + 3) 0).toNat < input.Flamebearer.Names.length := by omega
    refine ⟨?_, rfl, rfl, rfl, fun h1 h2 => ?_⟩
    · rw [List.getElem?_eq_getElem hlt]
      simp only [decodedItem]
      rw [List.getD_eq_getElem _ _ hlt]
    · simp only [decodedItem]
      rw [wrapInt_of_range _ h1 h2]
      rfl

theorem decodeLevels_wellFormed_witness :
    (∀ row ∈ sampleInput.Flamebearer.Levels, rowWellFormed sampleInput.Flamebearer.Names row) ∧
    decodeLevels sampleInput = some ⟨⟨sampleInput.Flamebearer.Levels.map (fun row =>
      (List.range (row.length / 4)).map (decodedItem sampleInput.Flamebearer.Names row))⟩⟩ ∧
    decodeLevels sampleInput
      = some ⟨⟨[[⟨[97], 0, 10, 2⟩], [⟨[98], 0, 4, 4⟩, ⟨[97], 6, 3, 3⟩]]⟩⟩ :=
  ⟨sampleInput_wellFormed, (decodeLevels_wellFormed sampleInput sampleInput_wellFormed).1,
    by decide⟩

/-- C14: on a well-formed input whose `offsetDelta` and `total` entries are all
non-negative and in which no addition overflows (the sum of `offsetDelta + total`
over each row is below `2^63`), `decodeLevels` returns, and for consecutive items
`a`, `b` of an output row `a.Offset ≤ b.Offset` and `a.Offset + a.Total ≤ b.Offset`. -/
theorem decodeLevels_offsets_monotone (input : Input)
    (hwf : ∀ row ∈ input.Flamebearer.Levels, rowWellFormed input.Flamebearer.Names row)
    (hnonneg : ∀ row ∈ input.Flamebearer.Levels, ∀ j, j < row.length / 4 →
      0 ≤ row.getD (4 * j) 0 ∧ 0 ≤ row.getD (4 * j + 1) 0)
    (hfit : ∀ row ∈ input.Flamebearer.Levels,
      sumBefore row (row.length / 4) < 9223372036854775808) :
    ∃ out, decodeLevels input = some out ∧
      ∀ outRow ∈ out.Flamebearer.Levels, ∀ (i : Nat) (a b : OutputItem),
        outRow[i]? = some a → outRow[i + 1]? = some b →
          a.Offset ≤ b.Offset ∧ a.Offset + a.Total ≤ b.Offset := by
  refine ⟨_, (decodeLevels_wellFormed input hwf).1, ?_⟩
  intro outRow hout i a b ha hb
  simp only [List.mem_map] at hout
  obtain ⟨row, hrow, rfl⟩ := hout
  have hi1 : i + 1 < row.length / 4 := by
    by_contra hcon
    rw [List.getElem?_eq_none (by simp; omega)] at hb
    cases hb
  rw [List.getElem?_eq_getElem (by simp; omega)] at ha hb
  simp only [List.getElem_map, List.getElem_range, Option.some.injEq] at ha hb
  subst ha hb
  have hm := sumBefore_mono row (row.length / 4) (hnonneg row hrow)
  have hq0 := hnonneg row hrow i (by omega)
  have hq1 := hnonneg row hrow (i + 1) (by omega)
  have hs0 := hm (i + 1) i (by omega) (by omega)
  have hs1 := hm (i + 2) (i + 1) (by omega) (by omega)
  have hs2 := hm (row.length / 4) (i + 2) (by omega) le_rfl
  have hfit' := hfit row hrow
  have e1 := sumBefore_succ row i
  have e2 : sumBefore row (i + 2) = sumBefore row (i + 1)
      + (row.getD (4 * (i + 1)) 0 + row.getD (4 * (i + 1) + 1) 0) := sumBefore_succ row (i + 1)
  simp only [decodedItem, exactOffset]
  rw [wrapInt_of_range _ (by omega) (by omega), wrapInt_of_range _ (by omega) (by omega)]
  constructor <;> omega

theorem decodeLevels_offsets_monotone_witness :
    ∃ out, decodeLevels sampleInput = some out ∧
      ∀ outRow ∈ out.Flamebearer.Levels, ∀ (i : Nat) (a b : OutputItem),
        outRow[i]? = some a → outRow[i + 1]? = some b →
          a.Offset ≤ b.Offset ∧ a.Offset + a.Total ≤ b.Offset :=
  decodeLevels_offsets_monotone sampleInput sampleInput_wellFormed
    (by
      intro row hrow
      simp only [sampleInput, List.mem_cons, List.mem_singleton, List.not_mem_nil,
        or_false] at hrow
      rcases hrow with rfl | rfl
      · intro j hj
        have : j = 0 := by simp at hj; omega
        subst this
        simp
      · intro j hj
        have : j = 0 ∨ j = 1 := by simp at hj; omega
        rcases this with rfl | rfl <;> simp)
    (by
      intro row hrow
      simp only [sampleInput, List.mem_cons, List.mem_singleton, List.not_mem_nil,
        or_false] at hrow
      rcases hrow with rfl | rfl <;> decide)

/-- C20: `decodeLevels` returns a result if and only if every row's length is a
multiple of 4 and every name index `row[4j+3]` satisfies
`0 ≤ row[4j+3] < len(names)`; otherwise it panics with an index out of range. In
particular an input with a row whose length is not a multiple of 4 yields no
result: such a row is never silently truncated. -/
theorem decodeLevels_returns_iff (input : Input) :
    ((∃ out, decodeLevels input = some out) ↔
      ∀ row ∈ input.Flamebearer.Levels,
        4 ∣ row.length ∧ ∀ j, j < row.length / 4 →
          0 ≤ row.getD (4 * j + 3) 0 ∧
            row.getD (4 * j + 3) 0 < input.Flamebearer.Names.length) ∧
    ((∃ row ∈ input.Flamebearer.Levels, ¬ 4 ∣ row.length) → decodeLevels input = none) := by
  have hiff : (∃ out, decodeLevels input = some out) ↔
      ∀ row ∈ input.Flamebearer.Levels, rowWellFormed input.Flamebearer.Names row := by
    constructor
    · rintro ⟨out, h⟩
      unfold decodeLevels at h
      cases hr : decodeRows input.Flamebearer.Names input.Flamebearer.Levels [] with
      | none => simp [hr] at h
      | some res => exact decodeRows_some _ _ _ res hr
    · intro h
      exact ⟨_, (decodeLevels_wellFormed input h).1⟩
  refine ⟨hiff, ?_⟩
  rintro ⟨row, hrow, h4⟩
  cases hd : decodeLevels input with
  | none => rfl
  | some out => exact absurd ((hiff.1 ⟨out, hd⟩) row hrow).1 h4

section FindLemmas

/-- The binary search for the first entry with key at least `target`, on a list
sorted ascending by key. -/
theorem search_ge_spec {α : Type} (l : List α) (key : α → Nat) (target : Nat) (f : Nat → Bool)
    (hf : ∀ i e, l[i]? = some e → f i = decide (key e ≥ target))
    (hs : (l.map key).Pairwise (fun a b => a ≤ b)) :
    sortSearch l.length f ≤ l.length ∧
    (∀ k e, k < sortSearch l.length f → l[k]? = some e → key e < target) ∧
    (∀ k e, sortSearch l.length f ≤ k → l[k]? = some e → target ≤ key e) := by
  have hmono : ∀ a b, a ≤ b → b < l.length → f a = true → f b = true := by
    intro a b hab hb hfa
    have ha : a < l.length := by omega
    rw [hf a _ (List.getElem?_eq_getElem ha)] at hfa
    rw [hf b _ (List.getElem?_eq_getElem hb)]
    simp only [ge_iff_le, decide_eq_true_eq] at hfa ⊢
    rcases Nat.eq_or_lt_of_le hab with rfl | hlt
    · exact hfa
    · rw [List.pairwise_iff_getElem] at hs
      have := hs a b (by simpa using ha) (by simpa using hb) hlt
      simp only [List.getElem_map] at this
      omega
  obtain ⟨hle, hlo, hhi⟩ := sortSearch_spec f l.length hmono
  refine ⟨hle, fun k e hk he => ?_, fun k e hk he => ?_⟩
  · have := hlo k hk
    rw [hf k e he] at this
    simpa using this
  · have hklt : k < l.length := by
      by_contra hcon
      rw [List.getElem?_eq_none (by omega)] at he
      cases he
    have := hhi k hk hklt
    rw [hf k e he] at this
    simpa using this

/-- A lookup that takes the first entry with key at least `target` and accepts
it when its key is `target`, on a list sorted ascending by key. -/
theorem lookup_sorted_spec {α : Type} (l : List α) (key : α → Nat) (target idx : Nat)
    (hs : (l.map key).Pairwise (fun a b => a ≤ b))
    (hlo : ∀ k e, k < idx → l[k]? = some e → key e < target)
    (hhi : ∀ k e, idx ≤ k → l[k]? = some e → target ≤ key e) (r : Option α)
    (hr : r = (l[idx]?).bind (fun e => if key e = target then some e else none)) :
    ((∃ e, r = some e) ↔ ∃ e ∈ l, key e = target) ∧
    (∀ e, r = some e → key e = target ∧
      ∃ i, l[i]? = some e ∧ ∀ (k : Nat) (e' : α), k < i → l[k]? = some e' → key e' < target) := by
  have hfound : ∀ e, r = some e → key e = target ∧
      ∃ i, l[i]? = some e ∧ ∀ (k : Nat) (e' : α), k < i → l[k]? = some e' → key e' < target := by
    intro e he
    rw [hr] at he
    cases hi : l[idx]? with
    | none => simp [hi] at he
    | some e0 =>
      simp only [hi, Option.some_bind] at he
      split at he
      · rename_i hk
        simp only [Option.some.injEq] at he
        subst he
        exact ⟨hk, idx, hi, hlo⟩
      · cases he
  refine ⟨⟨fun ⟨e, he⟩ => ⟨e, ?_, (hfound e he).1⟩, ?_⟩, hfound⟩
  · obtain ⟨_, i, hi, _⟩ := hfound e he
    exact List.getElem?_mem hi
  · rintro ⟨e, hmem, hid⟩
    obtain ⟨k, hk, hke⟩ := List.getElem_of_mem hmem
    have hk' : l[k]? = some e := by rw [List.getElem?_eq_getElem hk, hke]
    have hidxk : idx ≤ k := by
      by_contra hcon
      have := hlo k e (by omega) hk'
      omega
    have hidxlt : idx < l.length := by omega
    have hget := List.getElem?_eq_getElem hidxlt
    have h1 := hhi idx _ le_rfl hget
    have h2 : key (l[idx]) ≤ target := by
      rcases Nat.eq_or_lt_of_le hidxk with heq | hlt
      · subst heq
        rw [hke, hid]
      · rw [List.pairwise_iff_getElem] at hs
        have := hs idx k (by simpa using hidxlt) (by simpa using hk) hlt
        simp only [List.getElem_map] at this
        rw [hke, hid] at this
        exact this
    refine ⟨l[idx], ?_⟩
    rw [hr, hget]
    simp only [Option.some_bind]
    rw [if_pos (by omega)]

theorem findLocation_spec (x : Profile) (lid : Nat)
    (hs : (x.Location.map Location.Id).Pairwise (fun a b => a ≤ b)) :
    ((∃ e, x.findLocation lid = some e) ↔ ∃ e ∈ x.Location, e.Id = lid) ∧
    (∀ e, x.findLocation lid = some e → e.Id = lid ∧
      ∃ i, x.Location[i]? = some e ∧
        ∀ (k : Nat) (e' : Location), k < i → x.Location[k]? = some e' → e'.Id < lid) := by
  have hchar : ∃ idx, (∀ (k : Nat) (e : Location), k < idx → x.Location[k]? = some e → e.Id < lid) ∧
      (∀ (k : Nat) (e : Location), idx ≤ k → x.Location[k]? = some e → lid ≤ e.Id) ∧
      x.findLocation lid
        = (x.Location[idx]?).bind (fun e => if e.Id = lid then some e else none) := by
    unfold Profile.findLocation
    simp only
    generalize hidx : sortSearch x.Location.length _ = idx
    obtain ⟨hle, hlo, hhi⟩ : idx ≤ x.Location.length ∧
        (∀ (k : Nat) (e : Location), k < idx → x.Location[k]? = some e → e.Id < lid) ∧
        (∀ (k : Nat) (e : Location), idx ≤ k → x.Location[k]? = some e → lid ≤ e.Id) := by
      rw [← hidx]
      exact search_ge_spec x.Location Location.Id lid _ (fun i e he => by simp only [he]) hs
    refine ⟨idx, hlo, hhi, ?_⟩
    by_cases hlt : idx < x.Location.length
    · rw [if_pos hlt]
      cases x.Location[idx]? <;> rfl
    · rw [if_neg hlt, List.getElem?_eq_none (by omega)]
      rfl
  obtain ⟨idx, hlo, hhi, hr⟩ := hchar
  exact lookup_sorted_spec x.Location Location.Id lid idx hs hlo hhi _ hr

theorem findFunction_spec (x : Profile) (fid : Nat)
    (hs : (x.Function.map Function.Id).Pairwise (fun a b => a ≤ b)) :
    ((∃ e, x.findFunction fid = some e) ↔ ∃ e ∈ x.Function, e.Id = fid) ∧
    (∀ e, x.findFunction fid = some e → e.Id = fid ∧
      ∃ i, x.Function[i]? = some e ∧
        ∀ (k : Nat) (e' : Function), k < i → x.Function[k]? = some e' → e'.Id < fid) := by
  have hchar : ∃ idx, (∀ (k : Nat) (e : Function), k < idx → x.Function[k]? = some e → e.Id < fid) ∧
      (∀ (k : Nat) (e : Function), idx ≤ k → x.Function[k]? = some e → fid ≤ e.Id) ∧
      x.findFunction fid
        = (x.Function[idx]?).bind (fun e => if e.Id = fid then some e else none) := by
    unfold Profile.findFunction
    simp only
    generalize hidx : sortSearch x.Function.length _ = idx
    obtain ⟨hle, hlo, hhi⟩ : idx ≤ x.Function.length ∧
        (∀ (k : Nat) (e : Function), k < idx → x.Function[k]? = some e → e.Id < fid) ∧
        (∀ (k : Nat) (e : Function), idx ≤ k → x.Function[k]? = some e → fid ≤ e.Id) := by
      rw [← hidx]
      exact search_ge_spec x.Function Function.Id fid _ (fun i e he => by simp only [he]) hs
    refine ⟨idx, hlo, hhi, ?_⟩
    by_cases hlt : idx < x.Function.length
    · rw [if_pos hlt]
      cases x.Function[idx]? <;> rfl
    · rw [if_neg hlt, List.getElem?_eq_none (by omega)]
      rfl
  obtain ⟨idx, hlo, hhi, hr⟩ := hchar
  exact lookup_sorted_spec x.Function Function.Id fid idx hs hlo hhi _ hr

end FindLemmas

/-! ### Symbol resolver -/

/-- C15: on a location table (resp. function table) sorted ascending by id,
`findLocation` (resp. `findFunction`) returns an entry with `true` if and only if
some entry of the table has the target id, and `(nil, false)` otherwise; the
entry returned has the target id and is the first entry of the table with an id
at least the target (every entry before it has a smaller id). -/
theorem find_in_sorted_tables (x : Profile) (lid fid : Nat)
    (hl : (x.Location.map Location.Id).Pairwise (fun a b => a ≤ b))
    (hf : (x.Function.map Function.Id).Pairwise (fun a b => a ≤ b)) :
    (((∃ e, x.findLocation lid = some e) ↔ ∃ e ∈ x.Location, e.Id = lid) ∧
      ((¬ ∃ e ∈ x.Location, e.Id = lid) → x.findLocation lid = none) ∧
      (∀ e, x.findLocation lid = some e → e.Id = lid ∧
        ∃ i, x.Location[i]? = some e ∧
          ∀ (k : Nat) (e' : Location), k < i → x.Location[k]? = some e' → e'.Id < lid)) ∧
    (((∃ e, x.findFunction fid = some e) ↔ ∃ e ∈ x.Function, e.Id = fid) ∧
      ((¬ ∃ e ∈ x.Function, e.Id = fid) → x.findFunction fid = none) ∧
      (∀ e, x.findFunction fid = some e → e.Id = fid ∧
        ∃ i, x.Function[i]? = some e ∧
          ∀ (k : Nat) (e' : Function), k < i → x.Function[k]? = some e' → e'.Id < fid)) := by
  obtain ⟨l1, l2⟩ := findLocation_spec x lid hl
  obtain ⟨f1, f2⟩ := findFunction_spec x fid hf
  refine ⟨⟨l1, fun h => ?_, l2⟩, ⟨f1, fun h => ?_, f2⟩⟩
  · cases hr : x.findLocation lid with
    | none => rfl
    | some e => exact absurd (l1.1 ⟨e, hr⟩) h
  · cases hr : x.findFunction fid with
    | none => rfl
    | some e => exact absurd (f1.1 ⟨e, hr⟩) h

theorem find_in_sorted_tables_witness :
    (∃ e, sampleProfile.findLocation 3 = some e) ∧ sampleProfile.findLocation 5 = none ∧
    (∃ e, sampleProfile.findFunction 3 = some e) ∧ sampleProfile.findFunction 2 = none :=
  have h := find_in_sorted_tables sampleProfile 3 3 (by decide) (by decide)
  ⟨h.1.1.2 ⟨⟨3, [⟨3⟩]⟩, by simp [sampleProfile], rfl⟩,
    (find_in_sorted_tables sampleProfile 5 2 (by decide) (by decide)).1.2.1 (by decide),
    h.2.1.2 ⟨⟨3, 2⟩, by simp [sampleProfile], rfl⟩,
    (find_in_sorted_tables sampleProfile 5 2 (by decide) (by decide)).2.2.1 (by decide)⟩

theorem findLocation_mem (x : Profile) (lid : Nat) (e : Location)
    (h : x.findLocation lid = some e) : e ∈ x.Location := by
  unfold Profile.findLocation at h
  simp only at h
  split at h
  · split at h
    · rename_i l hl
      split at h
      · cases h
        exact List.getElem?_mem hl
      · cases h
    · cases h
  · cases h

theorem findFunction_mem (x : Profile) (fid : Nat) (e : Function)
    (h : x.findFunction fid = some e) : e ∈ x.Function := by
  unfold Profile.findFunction at h
  simp only at h
  split at h
  · split at h
    · rename_i l hl
      split at h
      · cases h
        exact List.getElem?_mem hl
      · cases h
    · cases h
  · cases h

/-- On a well-formed profile `findFunctionName` does not panic. -/
theorem findFunctionName_total (x : Profile) (hw : x.wellFormed) (locID : Nat) :
    ∃ r, x.findFunctionName locID = some r := by
  unfold Profile.findFunctionName
  cases hl : x.findLocation locID with
  | none => exact ⟨none, rfl⟩
  | some loc =>
    have hmem := findLocation_mem x locID loc hl
    obtain ⟨line, rest, hln⟩ := List.exists_cons_of_ne_nil (hw.2.2.1 loc hmem)
    cases hf : x.findFunction line.FunctionId with
    | none => exact ⟨none, by simp [hln, hf]⟩
    | some fn =>
      have hfm := findFunction_mem x _ fn hf
      obtain ⟨h0, h1⟩ := hw.2.1 fn hfm
      exact ⟨some (x.StringTable.getD fn.Name.toNat []),
        by simp [hln, hf, indexInt_of_range x.StringTable fn.Name [] h0 h1]⟩

theorem nameLoop_eq (x : Profile) (hw : x.wellFormed) : ∀ (ids : List Nat) (b : List Nat),
    x.nameLoop ids b = some ((x.resolvedNames ids).foldl appendName b)
  | [], b => rfl
  | id :: rest, b => by
    obtain ⟨r, hr⟩ := findFunctionName_total x hw id
    cases r with
    | none =>
      simp only [Profile.nameLoop, hr, Profile.resolvedNames, List.filterMap_cons, Option.join]
      exact nameLoop_eq x hw rest b
    | some name =>
      simp only [Profile.nameLoop, hr, Profile.resolvedNames, List.filterMap_cons, Option.join,
        List.foldl_cons]
      exact nameLoop_eq x hw rest _

theorem foldl_appendName_ne_nil : ∀ (names : List (List Nat)) (b : List Nat), b ≠ [] →
    names.foldl appendName b = b ++ (names.map (fun n => semicolon :: n)).flatten
  | [], b, _ => by simp
  | n :: rest, b, hb => by
    have hlen : b.length > 0 := List.length_pos.mpr hb
    have hne : appendName b n ≠ [] := by
      simp [appendName, hlen, hb]
    rw [List.foldl_cons, foldl_appendName_ne_nil rest _ hne]
    simp [appendName, hlen]

theorem intercalate_cons_eq (sep a : List Nat) (rest : List (List Nat)) :
    List.intercalate sep (a :: rest) = a ++ (rest.map (fun n => sep ++ n)).flatten := by
  induction rest generalizing a with
  | nil => simp [List.intercalate]
  | cons c rest ih =>
    have := ih c
    simp only [List.intercalate, List.intersperse_cons_cons, List.flatten_cons, List.map_cons] at this ⊢
    rw [this]
    simp only [List.append_assoc]

/-- The buffer after the name loop: leading empty names leave no separator. -/
theorem foldl_appendName_nil : ∀ names : List (List Nat),
    names.foldl appendName [] = joinNames (names.dropWhile (fun n => n.isEmpty))
  | [] => by simp [joinNames, List.intercalate]
  | n :: rest => by
    cases n with
    | nil =>
      simp only [List.foldl_cons, List.dropWhile_cons, List.isEmpty_nil, if_true]
      exact foldl_appendName_nil rest
    | cons c n =>
      have hne : appendName [] (c :: n) ≠ [] := by simp [appendName]
      rw [List.foldl_cons, foldl_appendName_ne_nil rest _ hne]
      simp only [List.dropWhile_cons, List.isEmpty_cons, joinNames]
      rw [if_neg (by simp), intercalate_cons_eq]
      simp [appendName]

theorem labelLoop_true (x : Profile) : ∀ ls : List Label,
    (∀ l ∈ ls, l.Str ≠ 0 →
      (0 ≤ l.Key ∧ l.Key < x.StringTable.length) ∧ (0 ≤ l.Str ∧ l.Str < x.StringTable.length)) →
    x.labelLoop ls = true
  | [], _ => rfl
  | l :: rest, h => by
    have ih := labelLoop_true x rest (fun l hl => h l (List.mem_cons_of_mem _ hl))
    unfold Profile.labelLoop
    by_cases hs : l.Str ≠ 0
    · obtain ⟨⟨k0, k1⟩, ⟨s0, s1⟩⟩ := h l (List.mem_cons_self _ _) hs
      rw [if_pos hs, indexInt_of_range x.StringTable l.Key [] k0 k1,
        indexInt_of_range x.StringTable l.Str [] s0 s1]
      exact ih
    · rw [if_neg hs]
      exact ih

/-- The path name `Get` passes for a sample. -/
theorem sampleLoop_eq (x : Profile) (hw : x.wellFormed) (col : Nat) :
    ∀ (ss : List Sample) (calls : List (List Nat × Int)), (∀ s ∈ ss, s ∈ x.Sample) →
    (∀ s ∈ ss, col < s.Value.length) →
    x.sampleLoop col ss calls = some (calls ++ ss.map (fun s =>
      ((x.resolvedNames s.LocationId.reverse).foldl appendName [], s.Value.getD col 0)))
  | [], calls, _, _ => by simp [Profile.sampleLoop]
  | s :: rest, calls, hmem, hcol => by
    have hc := hcol s (List.mem_cons_self _ _)
    have hl := labelLoop_true x s.Label (hw.2.2.2 s (hmem s (List.mem_cons_self _ _)))
    unfold Profile.sampleLoop
    simp only [nameLoop_eq x hw, List.getElem?_eq_getElem hc, hl, if_true]
    rw [sampleLoop_eq x hw col rest _ (fun s hs => hmem s (List.mem_cons_of_mem _ hs))
      (fun s hs => hcol s (List.mem_cons_of_mem _ hs))]
    simp [List.getElem?_eq_getElem hc]

theorem valueIndexLoop_spec (st : List (List Nat)) (sampleType : List Nat) :
    ∀ (vs : List ValueType) (i : Nat),
    (∀ v ∈ vs, 0 ≤ v.Type_ ∧ v.Type_ < st.length) →
    ∃ col, valueIndexLoop st sampleType vs i = some col ∧
      ((∀ v ∈ vs, indexInt st v.Type_ ≠ some sampleType) → col = 0) ∧
      (∀ (j : Nat) (v : ValueType), vs[j]? = some v → indexInt st v.Type_ = some sampleType →
        (∀ (k : Nat) (w : ValueType), k < j → vs[k]? = some w →
          indexInt st w.Type_ ≠ some sampleType) → col = i + j)
  | [], i, _ => ⟨0, rfl, fun _ => rfl, fun j v h => by simp at h⟩
  | v :: rest, i, h => by
    obtain ⟨h0, h1⟩ := h v (List.mem_cons_self _ _)
    have hidx := indexInt_of_range st v.Type_ [] h0 h1
    unfold valueIndexLoop
    rw [hidx]
    simp only
    by_cases hn : st.getD v.Type_.toNat [] = sampleType
    · rw [if_pos hn]
      refine ⟨i, rfl, fun hno => ?_, fun j w hj hw hfirst => ?_⟩
      · exact absurd (by rw [hidx, hn]) (hno v (List.mem_cons_self _ _))
      · cases j with
        | zero => rfl
        | succ j =>
          exact absurd (by rw [hidx, hn]) (hfirst 0 v (Nat.succ_pos _) (List.getElem?_cons_zero))
    · rw [if_neg hn]
      obtain ⟨col, hcol, hnone, hfirst⟩ :=
        valueIndexLoop_spec st sampleType rest (i + 1) (fun v hv => h v (List.mem_cons_of_mem _ hv))
      refine ⟨col, hcol, fun hno => hnone (fun v hv => hno v (List.mem_cons_of_mem _ hv)),
        fun j w hj hw hf => ?_⟩
      cases j with
      | zero =>
        simp only [List.getElem?_cons_zero, Option.some.injEq] at hj
        subst hj
        rw [hidx] at hw
        exact absurd (Option.some.inj hw) hn
      | succ j =>
        have := hfirst j w (by simpa using hj) hw (fun k w' hk hk' =>
          hf (k + 1) w' (by omega) (by simpa using hk'))
        omega

theorem Get_eq (x : Profile) (sampleType : List Nat) (col : Nat) (hw : x.wellFormed)
    (hcol : x.valueIndex sampleType = some col)
    (hval : ∀ s ∈ x.Sample, col < s.Value.length) :
    x.Get sampleType = some ⟨x.Sample.map (fun s =>
      ((x.resolvedNames s.LocationId.reverse).foldl appendName [], s.Value.getD col 0)), none⟩ := by
  unfold Profile.Get
  rw [hcol]
  simp only [sampleLoop_eq x hw col x.Sample [] (fun _ h => h) hval, List.nil_append]

theorem dropWhile_isEmpty_of_not_mem : ∀ names : List (List Nat), [] ∉ names →
    names.dropWhile (fun n => n.isEmpty) = names
  | [], _ => rfl
  | n :: rest, h => by
    cases n with
    | nil => exact absurd (List.mem_cons_self _ _) h
    | cons c n => simp

theorem findFunctionName_absent_location (x : Profile) (locID : Nat)
    (h : x.findLocation locID = none) : x.findFunctionName locID = some none := by
  unfold Profile.findFunctionName
  rw [h]

theorem findFunctionName_absent_function (x : Profile) (locID : Nat) (loc : Location)
    (line : Line) (rest : List Line) (h : x.findLocation locID = some loc)
    (hline : loc.Line = line :: rest) (hf : x.findFunction line.FunctionId = none) :
    x.findFunctionName locID = some none := by
  unfold Profile.findFunctionName
  simp [h, hline, hf]

/-- C16: on a well-formed profile whose samples all have the selected value
column, `Get` returns `nil` after calling `cb` exactly once per sample, in sample
order; the name passed for a sample is built from the names of its resolvable
frames, walking the location ids from the last to the first, but the names are
joined with `;` only after the leading empty names have been dropped: an empty
function name at the start of the walk leaves no separator behind. When no
resolved name of a sample is empty the name is the plain join. On id-sorted
tables a frame whose location id is not in the location table, or whose function
id is not in the function table, is skipped. -/
theorem Get_path_names (x : Profile) (sampleType : List Nat) (col : Nat) (hw : x.wellFormed)
    (hl : (x.Location.map Location.Id).Pairwise (fun a b => a ≤ b))
    (hf : (x.Function.map Function.Id).Pairwise (fun a b => a ≤ b))
    (hcol : x.valueIndex sampleType = some col)
    (hval : ∀ s ∈ x.Sample, col < s.Value.length) :
    x.Get sampleType = some ⟨x.Sample.map (fun s =>
      (joinNames ((x.resolvedNames s.LocationId.reverse).dropWhile (fun n => n.isEmpty)),
        s.Value.getD col 0)), none⟩ ∧
    (∀ s ∈ x.Sample, [] ∉ x.resolvedNames s.LocationId.reverse →
      joinNames ((x.resolvedNames s.LocationId.reverse).dropWhile (fun n => n.isEmpty))
        = joinNames (x.resolvedNames s.LocationId.reverse)) ∧
    (∀ locID, (¬ ∃ e ∈ x.Location, e.Id = locID) → x.findFunctionName locID = some none) ∧
    (∀ (locID : Nat) (loc : Location) (line : Line) (rest : List Line),
      x.findLocation locID = some loc → loc.Line = line :: rest →
      (¬ ∃ e ∈ x.Function, e.Id = line.FunctionId) → x.findFunctionName locID = some none) := by
  refine ⟨?_, fun s _ hs => ?_, fun locID hno => ?_, fun locID loc line rest hloc hline hno => ?_⟩
  · rw [Get_eq x sampleType col hw hcol hval]
    simp only [foldl_appendName_nil]
  · rw [dropWhile_isEmpty_of_not_mem _ hs]
  · apply findFunctionName_absent_location
    cases hr : x.findLocation locID with
    | none => rfl
    | some e => exact absurd ((findLocation_spec x locID hl).1.1 ⟨e, hr⟩) hno
  · apply findFunctionName_absent_function x locID loc line rest hloc hline
    cases hr : x.findFunction line.FunctionId with
    | none => rfl
    | some e => exact absurd ((findFunction_spec x _ hf).1.1 ⟨e, hr⟩) hno

theorem emptyNameProfile_wellFormed : emptyNameProfile.wellFormed := by
  unfold Profile.wellFormed
  simp [emptyNameProfile]

theorem sampleProfile_wellFormed : sampleProfile.wellFormed := by
  unfold Profile.wellFormed
  simp [sampleProfile]

theorem Get_path_names_witness :
    emptyNameProfile.resolvedNames [2, 1] = [[], [97]] ∧
    joinNames [[], [97]] = [59, 97] ∧
    emptyNameProfile.Get [] = some ⟨[([97], 5)], none⟩ ∧
    emptyNameProfile.Get [] = some ⟨emptyNameProfile.Sample.map (fun s =>
      (joinNames ((emptyNameProfile.resolvedNames s.LocationId.reverse).dropWhile
        (fun n => n.isEmpty)), s.Value.getD 0 0)), none⟩ :=
  ⟨by decide, by decide, by decide,
    (Get_path_names emptyNameProfile [] 0 emptyNameProfile_wellFormed (by decide) (by decide)
      rfl (by decide)).1⟩

/-- C17 as stated fails: in `badTypeProfile` the sample type `"c"` matches no
declared sample type, yet `Get("c")` does not return: the loop over the declared
types evaluates `x.StringTable[99]` on a table of three strings. `Get("a")` and
`Get("")` return on the same profile. -/
theorem Get_unmatched_type_counterexample :
    (∀ v ∈ badTypeProfile.SampleType,
      indexInt badTypeProfile.StringTable v.Type_ ≠ some [99]) ∧
    badTypeProfile.Get [99] = none ∧
    badTypeProfile.Get [97] = some ⟨[([97], 7)], none⟩ ∧
    badTypeProfile.Get [] = some ⟨[([97], 7)], none⟩ := by
  refine ⟨by decide, by decide, by decide, by decide⟩

/-- C17 (amended): on a well-formed profile (the names of the declared sample
types and of the functions and the strings of the labels lie inside the string
table, every location has a line) `Get` selects a value column `col`: 0 when
`sampleType` is empty, 0 when no declared sample type is named `sampleType`, and
otherwise the index of the first declared sample type with that name; when every
sample has a value in that column, `Get` returns `nil` and the values passed to
the callback are the values of the samples in column `col`, in sample order. -/
theorem Get_value_column (x : Profile) (sampleType : List Nat) (hw : x.wellFormed) :
    ∃ col, x.valueIndex sampleType = some col ∧
      (sampleType = [] → col = 0) ∧
      ((∀ v ∈ x.SampleType, indexInt x.StringTable v.Type_ ≠ some sampleType) → col = 0) ∧
      (sampleType ≠ [] → ∀ (i : Nat) (v : ValueType), x.SampleType[i]? = some v →
        indexInt x.StringTable v.Type_ = some sampleType →
        (∀ (k : Nat) (w : ValueType), k < i → x.SampleType[k]? = some w →
          indexInt x.StringTable w.Type_ ≠ some sampleType) → col = i) ∧
      ((∀ s ∈ x.Sample, col < s.Value.length) →
        ∃ calls, x.Get sampleType = some ⟨calls, none⟩ ∧
          calls.map Prod.snd = x.Sample.map (fun s => s.Value.getD col 0)) := by
  have key : ∃ col, x.valueIndex sampleType = some col ∧
      (sampleType = [] → col = 0) ∧
      ((∀ v ∈ x.SampleType, indexInt x.StringTable v.Type_ ≠ some sampleType) → col = 0) ∧
      (sampleType ≠ [] → ∀ (i : Nat) (v : ValueType), x.SampleType[i]? = some v →
        indexInt x.StringTable v.Type_ = some sampleType →
        (∀ (k : Nat) (w : ValueType), k < i → x.SampleType[k]? = some w →
          indexInt x.StringTable w.Type_ ≠ some sampleType) → col = i) := by
    unfold Profile.valueIndex
    by_cases he : sampleType = []
    · rw [if_neg (by simpa using he)]
      exact ⟨0, rfl, fun _ => rfl, fun _ => rfl, fun h => absurd he h⟩
    · rw [if_pos he]
      obtain ⟨col, hcol, hnone, hfirst⟩ :=
        valueIndexLoop_spec x.StringTable sampleType x.SampleType 0 hw.1
      refine ⟨col, hcol, fun h => absurd h he, hnone, fun _ i v hi hv hk => ?_⟩
      have := hfirst i v hi hv hk
      omega
  obtain ⟨col, hcol, h1, h2, h3⟩ := key
  refine ⟨col, hcol, h1, h2, h3, fun hval => ⟨_, Get_eq x sampleType col hw hcol hval, ?_⟩⟩
  simp [List.map_map, Function.comp_def]

theorem Get_value_column_witness :
    sampleProfile.Get [98] = some ⟨[([98, 59, 97], 8), ([98], 2)], none⟩ ∧
    sampleProfile.Get [99] = some ⟨[([98, 59, 97], 7), ([98], 1)], none⟩ ∧
    sampleProfile.Get [] = some ⟨[([98, 59, 97], 7), ([98], 1)], none⟩ ∧
    ∃ col, sampleProfile.valueIndex [98] = some col ∧
      ([98] = ([] : List Nat) → col = 0) ∧
      ((∀ v ∈ sampleProfile.SampleType,
        indexInt sampleProfile.StringTable v.Type_ ≠ some [98]) → col = 0) ∧
      ([98] ≠ ([] : List Nat) → ∀ (i : Nat) (v : ValueType), sampleProfile.SampleType[i]? = some v →
        indexInt sampleProfile.StringTable v.Type_ = some [98] →
        (∀ (k : Nat) (w : ValueType), k < i → sampleProfile.SampleType[k]? = some w →
          indexInt sampleProfile.StringTable w.Type_ ≠ some [98]) → col = i) ∧
      ((∀ s ∈ sampleProfile.Sample, col < s.Value.length) →
        ∃ calls, sampleProfile.Get [98] = some ⟨calls, none⟩ ∧
          calls.map Prod.snd = sampleProfile.Sample.map (fun s => s.Value.getD col 0)) :=
  ⟨by decide, by decide, by decide, Get_value_column sampleProfile [98] sampleProfile_wellFormed⟩

theorem Insert_root_fields (t : Tree) (key : List Nat) (value : Nat) :
    (t.Insert key value).root.Name = t.root.Name ∧ (t.Insert key value).root.Self = t.root.Self := by
  unfold Tree.Insert
  cases hs : bytesSplit semicolon key with
  | nil => exact absurd hs (bytesSplit_ne_nil _ _)
  | cons l ls =>
    have := insert_fields t.root l
    simp [insertLabels, this.1, this.2.2]

theorem clone_root_fields (m d : Nat) (n : treeNode) :
    (n.clone m d).Name = n.Name ∧ (n.clone m d).Self = n.Self * m % u64 / d := by
  cases n
  simp [treeNode.clone]

/-- The root of a tree obtained by `Insert`, `Merge` and `Clone` keeps the empty
name and the self weight 0 of the root made by `New`. -/
theorem reachableWithClone_root {t : Tree} (h : ReachableWithClone t) :
    t.root.Name = [] ∧ t.root.Self = 0 := by
  induction h with
  | new => exact ⟨rfl, rfl⟩
  | insert key value _ ih =>
    obtain ⟨h1, h2⟩ := Insert_root_fields _ key value
    exact ⟨h1.trans ih.1, h2.trans ih.2⟩
  | merge fuel _ _ hm ih1 ih2 =>
    rw [Merge_some _ _ _ fuel hm]
    obtain ⟨h1, _, h3⟩ := mergeNode_fields _ _
    refine ⟨h1.trans ih1.1, ?_⟩
    show (mergeNode _ _).Self = 0
    rw [h3, ih1.2, ih2.2]
    rfl
  | clone num den _ hc ih =>
    unfold Tree.Clone at hc
    simp only at hc
    split at hc
    · cases hc
    · cases hc
      obtain ⟨h1, h2⟩ := clone_root_fields (uint64OfInt num) (uint64OfInt den) _
      refine ⟨h1.trans ih.1, ?_⟩
      show (treeNode.clone _ _ _).Self = 0
      rw [h2, ih.2]
      simp

/-- The key of an existing node starts with the key of the parent of the node
the path starts from, then the separator, then the name of that node. -/
theorem keyFrom_prefix : ∀ (p : List Nat) (n : treeNode) (pre : List Nat),
    (n.nodeAtIdx p).isSome = true → (pre ++ [semicolon] ++ n.Name) <+: n.keyFrom pre p
  | [], n, pre, _ => by simp [treeNode.keyFrom]
  | i :: p, n, pre, h => by
    unfold treeNode.nodeAtIdx at h
    unfold treeNode.keyFrom
    cases hc : n.ChildrenNodes[i]? with
    | none => simp [hc] at h
    | some c =>
      simp only [hc] at h ⊢
      have := keyFrom_prefix p c (pre ++ [semicolon] ++ n.Name) h
      exact (List.prefix_append _ _).trans ((List.prefix_append _ _).trans this)

theorem stringLines_some : ∀ calls : List (List Nat × Nat),
    (∀ kv ∈ calls, kv.2 > 0 → 2 ≤ kv.1.length) → ∃ lines, stringLines calls = some lines
  | [], _ => ⟨[], rfl⟩
  | (k, v) :: rest, h => by
    obtain ⟨ls, hls⟩ := stringLines_some rest (fun kv hkv => h kv (List.mem_cons_of_mem _ hkv))
    unfold stringLines
    by_cases hv : v > 0
    · rw [if_pos hv, if_pos (h (k, v) (List.mem_cons_self _ _) hv), hls]
      exact ⟨_, rfl⟩
    · rw [if_neg hv]
      exact ⟨ls, hls⟩

theorem visitsOf_positive_key (root : treeNode) (hname : root.Name = []) (hself : root.Self = 0) :
    ∀ kv ∈ visitsOf [] root, kv.2 > 0 →
      2 ≤ kv.1.length ∧ [semicolon, semicolon] <+: kv.1 := by
  intro kv hkv hpos
  simp only [visitsOf, List.mem_map] at hkv
  obtain ⟨p, hp, rfl⟩ := hkv
  have hsome := (mem_paths_iff _ root le_rfl p).mp hp
  cases p with
  | nil =>
    simp only [treeNode.selfAt, treeNode.nodeAtIdx] at hpos
    omega
  | cons i q =>
    have hpre : [semicolon, semicolon] <+: root.keyFrom [] (i :: q) := by
      unfold treeNode.nodeAtIdx at hsome
      unfold treeNode.keyFrom
      cases hc : root.ChildrenNodes[i]? with
      | none => simp [hc] at hsome
      | some c =>
        simp only [hc] at hsome ⊢
        have := keyFrom_prefix q c ([] ++ [semicolon] ++ root.Name) hsome
        rw [hname] at this ⊢
        exact (List.prefix_append _ _).trans this
    refine ⟨?_, hpre⟩
    have := hpre.length_le
    simpa using this

/-! ### Safety of String -/

/-- C19: in every tree obtained from `New()` by `Insert`, `Merge` and `Clone`
calls the root has self weight 0; hence, with enough fuel for the loop, every
call `Iterate` makes with a value above 0 has a key of length at least 2 that
begins with `;;`, and `String` returns (its slice `k[2:]` is never out of range). -/
theorem String_slice_in_bounds (t : Tree) (h : ReachableWithClone t) (fuel : Nat)
    (hfuel : t.root.nodes.length ≤ fuel) :
    t.root.Self = 0 ∧
    (∃ calls, t.Iterate fuel = some calls ∧
      ∀ kv ∈ calls, kv.2 > 0 → 2 ≤ kv.1.length ∧ [semicolon, semicolon] <+: kv.1) ∧
    (∃ lines, t.String fuel = some lines) := by
  obtain ⟨hname, hself⟩ := reachableWithClone_root h
  have hv := visitsOf_positive_key t.root hname hself
  refine ⟨hself, ⟨_, Iterate_eq_visitsOf t fuel hfuel, hv⟩, ?_⟩
  unfold Tree.String
  rw [Iterate_eq_visitsOf t fuel hfuel]
  exact stringLines_some _ (fun kv hkv hpos => (hv kv hkv hpos).1)

theorem String_slice_in_bounds_witness :
    halvedSampleTree.root.Self = 0 ∧
    (∃ calls, halvedSampleTree.Iterate 4 = some calls ∧
      ∀ kv ∈ calls, kv.2 > 0 → 2 ≤ kv.1.length ∧ [semicolon, semicolon] <+: kv.1) ∧
    (∃ lines, halvedSampleTree.String 4 = some lines) :=
  String_slice_in_bounds halvedSampleTree
    (ReachableWithClone.clone (t := sampleTree) 1 2
      (ReachableWithClone.insert (t := New.Insert [97, 59, 98] 5) [97, 59, 99] 3
        (ReachableWithClone.insert [97, 59, 98] 5 ReachableWithClone.new)) rfl)
    4 (by decide)

section LabelPathLemmas

theorem labelsAt_nil (n : treeNode) : n.labelsAt [] = [] := by
  cases n; rfl

theorem labelsAt_cons_some (n c : treeNode) (i : Nat) (p : List Nat)
    (h : n.ChildrenNodes[i]? = some c) : n.labelsAt (i :: p) = c.Name :: c.labelsAt p := by
  rw [treeNode.labelsAt]
  simp only [h]

theorem nodeAtIdx_cons_some (n c : treeNode) (i : Nat) (p : List Nat)
    (h : n.ChildrenNodes[i]? = some c) : n.nodeAtIdx (i :: p) = c.nodeAtIdx p := by
  rw [treeNode.nodeAtIdx]
  simp only [h]

theorem nodeAtIdx_cons_inv (n x : treeNode) (i : Nat) (p : List Nat)
    (h : n.nodeAtIdx (i :: p) = some x) :
    ∃ c, n.ChildrenNodes[i]? = some c ∧ c.nodeAtIdx p = some x := by
  rw [treeNode.nodeAtIdx] at h
  cases hc : n.ChildrenNodes[i]? with
  | none => simp [hc] at h
  | some c => exact ⟨c, rfl, by simpa [hc] using h⟩

/-- In a tree with sorted children the label path of a node leads to that node. -/
theorem nodeAt_labelsAt : ∀ (p : List Nat) (n x : treeNode), n.sorted →
    n.nodeAtIdx p = some x → n.nodeAt (n.labelsAt p) = some x
  | [], n, x, _, h => by
    rw [labelsAt_nil, nodeAt_nil]
    simpa [treeNode.nodeAtIdx] using h
  | i :: p, n, x, hs, h => by
    obtain ⟨c, hc, hx⟩ := nodeAtIdx_cons_inv n x i p h
    rw [labelsAt_cons_some n c i p hc, nodeAt_cons,
      childNamed_of_get _ i c (sorted_root hs) hc, Option.some_bind]
    exact nodeAt_labelsAt p c x (sorted_child hs (List.getElem?_mem hc)) hx

/-- The key of a node is the key of the parent of the start node, then the name
of the start node and the labels of the path, each after a separator. -/
theorem keyFrom_labelsAt : ∀ (p : List Nat) (n x : treeNode) (pre : List Nat),
    n.nodeAtIdx p = some x →
    n.keyFrom pre p
      = pre ++ [semicolon] ++ n.Name ++ ((n.labelsAt p).map (fun l => [semicolon] ++ l)).flatten
  | [], n, x, pre, _ => by
    rw [labelsAt_nil]
    simp [treeNode.keyFrom]
  | i :: p, n, x, pre, h => by
    obtain ⟨c, hc, hx⟩ := nodeAtIdx_cons_inv n x i p h
    rw [labelsAt_cons_some n c i p hc, treeNode.keyFrom]
    simp only [hc]
    rw [keyFrom_labelsAt p c x _ hx]
    simp

/-- Every node at a label path is at some child-index path with these labels. -/
theorem exists_path_of_nodeAt : ∀ (ls : List (List Nat)) (n x : treeNode),
    n.nodeAt ls = some x → ∃ p, n.nodeAtIdx p = some x ∧ n.labelsAt p = ls
  | [], n, x, h => by
    rw [nodeAt_nil] at h
    exact ⟨[], by simpa [treeNode.nodeAtIdx] using h, labelsAt_nil n⟩
  | l :: ls, n, x, h => by
    rw [nodeAt_cons] at h
    cases hc : childNamed l n.ChildrenNodes with
    | none => simp [hc] at h
    | some c =>
      rw [hc, Option.some_bind] at h
      obtain ⟨hname, hmem⟩ := childNamed_some_name hc
      obtain ⟨i, hi, hget⟩ := List.getElem_of_mem hmem
      have hget' : n.ChildrenNodes[i]? = some c := by rw [List.getElem?_eq_getElem hi, hget]
      obtain ⟨p, hp, hl⟩ := exists_path_of_nodeAt ls c x h
      exact ⟨i :: p, by rw [nodeAtIdx_cons_some n c i p hget']; exact hp,
        by rw [labelsAt_cons_some n c i p hget', hname, hl]⟩

theorem sortedNames_index_unique {cs : List treeNode} (h : sortedNames cs) {i j : Nat}
    {a b : treeNode} (ha : cs[i]? = some a) (hb : cs[j]? = some b) (hn : a.Name = b.Name) :
    i = j := by
  rcases Nat.lt_trichotomy i j with hlt | heq | hgt
  · have := sortedNames_get h hlt ha hb
    rw [hn] at this
    exact absurd this (bytesCompare_irrefl _)
  · exact heq
  · have := sortedNames_get h hgt hb ha
    rw [hn] at this
    exact absurd this (bytesCompare_irrefl _)

/-- In a tree with sorted children two nodes with the same label path are the
same node. -/
theorem labelsAt_injective : ∀ (p q : List Nat) (n x y : treeNode), n.sorted →
    n.nodeAtIdx p = some x → n.nodeAtIdx q = some y → n.labelsAt p = n.labelsAt q → p = q
  | [], [], _, _, _, _, _, _, _ => rfl
  | [], j :: q, n, x, y, _, _, hq, hl => by
    obtain ⟨c, hc, _⟩ := nodeAtIdx_cons_inv n y j q hq
    rw [labelsAt_nil, labelsAt_cons_some n c j q hc] at hl
    cases hl
  | i :: p, [], n, x, y, _, hp, _, hl => by
    obtain ⟨c, hc, _⟩ := nodeAtIdx_cons_inv n x i p hp
    rw [labelsAt_nil, labelsAt_cons_some n c i p hc] at hl
    cases hl
  | i :: p, j :: q, n, x, y, hs, hp, hq, hl => by
    obtain ⟨c, hc, hx⟩ := nodeAtIdx_cons_inv n x i p hp
    obtain ⟨d, hd, hy⟩ := nodeAtIdx_cons_inv n y j q hq
    rw [labelsAt_cons_some n c i p hc, labelsAt_cons_some n d j q hd] at hl
    simp only [List.cons.injEq] at hl
    have hij := sortedNames_index_unique (sorted_root hs) hc hd hl.1
    subst hij
    rw [hc] at hd
    cases hd
    rw [labelsAt_injective p q c x y (sorted_child hs (List.getElem?_mem hc)) hx hy hl.2]

end LabelPathLemmas

section SplitLemmas

theorem bytesSplit_cons_ne (sep b : Nat) (rest : List Nat) (h : b ≠ sep) :
    ∃ l ls, bytesSplit sep rest = l :: ls ∧ bytesSplit sep (b :: rest) = (b :: l) :: ls := by
  cases hr : bytesSplit sep rest with
  | nil => exact absurd hr (bytesSplit_ne_nil sep rest)
  | cons l ls =>
    refine ⟨l, ls, rfl, ?_⟩
    rw [bytesSplit, if_neg h, hr]

theorem bytesSplit_append_free (sep : Nat) : ∀ (l rest : List Nat), sep ∉ l →
    ∃ l' ls, bytesSplit sep rest = l' :: ls ∧ bytesSplit sep (l ++ rest) = (l ++ l') :: ls
  | [], rest, _ => by
    cases hr : bytesSplit sep rest with
    | nil => exact absurd hr (bytesSplit_ne_nil sep rest)
    | cons l' ls => exact ⟨l', ls, rfl, by simpa using hr⟩
  | b :: l, rest, h => by
    have hb : b ≠ sep := fun e => h (by simp [e])
    have hl : sep ∉ l := fun e => h (List.mem_cons_of_mem _ e)
    obtain ⟨l', ls, h1, h2⟩ := bytesSplit_append_free sep l rest hl
    obtain ⟨l2, ls2, h3, h4⟩ := bytesSplit_cons_ne sep b (l ++ rest) hb
    rw [h2] at h3
    cases h3
    exact ⟨l', ls, h1, by simpa using h4⟩

/-- Splitting the join of separator-free pieces gives the pieces back. -/
theorem bytesSplit_intercalate (sep : Nat) : ∀ (l : List Nat) (ls : List (List Nat)),
    (∀ x ∈ l :: ls, sep ∉ x) → bytesSplit sep (List.intercalate [sep] (l :: ls)) = l :: ls
  | l, [], h => by
    obtain ⟨l', ls, h1, h2⟩ := bytesSplit_append_free sep l [] (h l (List.mem_cons_self _ _))
    simp only [bytesSplit, List.cons.injEq] at h1
    obtain ⟨rfl, rfl⟩ := h1
    simpa [List.intercalate] using h2
  | l, c :: ls, h => by
    have ih := bytesSplit_intercalate sep c ls (fun x hx => h x (List.mem_cons_of_mem _ hx))
    have hrest : bytesSplit sep (sep :: List.intercalate [sep] (c :: ls)) = [] :: c :: ls := by
      rw [bytesSplit, if_pos rfl, ih]
    obtain ⟨l', ls', h1, h2⟩ := bytesSplit_append_free sep l
      (sep :: List.intercalate [sep] (c :: ls)) (h l (List.mem_cons_self _ _))
    rw [hrest] at h1
    simp only [List.cons.injEq] at h1
    obtain ⟨rfl, rfl⟩ := h1
    have e : List.intercalate [sep] (l :: c :: ls)
        = l ++ (sep :: List.intercalate [sep] (c :: ls)) := by
      simp [List.intercalate]
    rw [e, h2, List.append_nil]

theorem bytesSplit_injective (sep : Nat) (a b : List Nat)
    (h : bytesSplit sep a = bytesSplit sep b) : a = b := by
  rw [← (bytesSplit_join sep a).1, ← (bytesSplit_join sep b).1, h]

end SplitLemmas

section InsertAllLemmas

theorem insertAll_nil (t : Tree) : insertAll t [] = t := rfl

theorem insertAll_cons (t : Tree) (kv : List Nat × Nat) (ops : List (List Nat × Nat)) :
    insertAll t (kv :: ops) = insertAll (t.Insert kv.1 kv.2) ops := rfl

theorem insertAll_reachable : ∀ (ops : List (List Nat × Nat)) (t : Tree),
    Reachable t → Reachable (insertAll t ops)
  | [], _, h => h
  | kv :: ops, t, h => by
    rw [insertAll_cons]
    exact insertAll_reachable ops _ (Reachable.insert kv.1 kv.2 h)

theorem insertAll_root_name : ∀ (ops : List (List Nat × Nat)) (t : Tree),
    (insertAll t ops).root.Name = t.root.Name
  | [], _ => rfl
  | kv :: ops, t => by
    rw [insertAll_cons, insertAll_root_name ops, (Insert_root_fields t kv.1 kv.2).1]

/-- The effect of one `Insert` on the self weight at every label path. -/
theorem Insert_selfAtLabels (t : Tree) (hs : t.root.sorted) (key : List Nat) (v : Nat)
    (ls : List (List Nat)) :
    (t.Insert key v).root.selfAtLabels ls
      = if ls = bytesSplit semicolon key then (t.root.selfAtLabels ls + v) % u64
        else t.root.selfAtLabels ls := by
  obtain ⟨h1, h2⟩ := insertLabels_nodeAt v (bytesSplit semicolon key) t.root hs ls
  unfold Tree.Insert
  by_cases hp : ls <+: bytesSplit semicolon key
  · obtain ⟨x, hx, _, hself⟩ := h1 hp
    rw [treeNode.selfAtLabels, hx]
    exact hself
  · have hne : ls ≠ bytesSplit semicolon key := fun e => hp (e ▸ List.prefix_refl _)
    rw [if_neg hne, treeNode.selfAtLabels, h2 hp]
    rfl

/-- The nodes after one `Insert`: those before it and those on the walked path. -/
theorem Insert_nodeAt_isSome (t : Tree) (hs : t.root.sorted) (key : List Nat) (v : Nat)
    (ls : List (List Nat)) :
    ((t.Insert key v).root.nodeAt ls).isSome = true ↔
      (t.root.nodeAt ls).isSome = true ∨ ls <+: bytesSplit semicolon key := by
  obtain ⟨h1, h2⟩ := insertLabels_nodeAt v (bytesSplit semicolon key) t.root hs ls
  unfold Tree.Insert
  by_cases hp : ls <+: bytesSplit semicolon key
  · obtain ⟨x, hx, _, _⟩ := h1 hp
    simp [hx, hp]
  · rw [h2 hp]
    simp [hp]

theorem insertAll_selfAtLabels : ∀ (ops : List (List Nat × Nat)) (t : Tree), Reachable t →
    (∀ ls, t.root.selfAtLabels ls < u64) → ∀ ls : List (List Nat),
    (insertAll t ops).root.selfAtLabels ls
      = (t.root.selfAtLabels ls
          + ((ops.filter (fun kv => decide (bytesSplit semicolon kv.1 = ls))).map Prod.snd).sum)
        % u64
  | [], t, _, hlt, ls => by
    simp only [insertAll_nil, List.filter_nil, List.map_nil, List.sum_nil, Nat.add_zero]
    exact (Nat.mod_eq_of_lt (hlt ls)).symm
  | kv :: ops, t, hr, hlt, ls => by
    have hs := (reachable_invariants hr).2
    have hstep := Insert_selfAtLabels t hs kv.1 kv.2
    have hlt' : ∀ ls, (t.Insert kv.1 kv.2).root.selfAtLabels ls < u64 := by
      intro ls
      rw [hstep ls]
      split
      · exact Nat.mod_lt _ (by simp [u64])
      · exact hlt ls
    rw [insertAll_cons, insertAll_selfAtLabels ops _ (Reachable.insert kv.1 kv.2 hr) hlt' ls,
      hstep ls, List.filter_cons]
    by_cases he : bytesSplit semicolon kv.1 = ls
    · rw [if_pos he.symm]
      simp only [he, decide_True, if_true, List.map_cons, List.sum_cons]
      simp only [u64]
      omega
    · rw [if_neg (fun e => he e.symm)]
      simp only [he, decide_False]
      rfl

theorem insertAll_nodeAt_isSome : ∀ (ops : List (List Nat × Nat)) (t : Tree), Reachable t →
    ∀ ls : List (List Nat), ((insertAll t ops).root.nodeAt ls).isSome = true ↔
      (t.root.nodeAt ls).isSome = true ∨ ∃ kv ∈ ops, ls <+: bytesSplit semicolon kv.1
  | [], t, _, ls => by simp [insertAll_nil]
  | kv :: ops, t, hr, ls => by
    have hs := (reachable_invariants hr).2
    rw [insertAll_cons, insertAll_nodeAt_isSome ops _ (Reachable.insert kv.1 kv.2 hr) ls,
      Insert_nodeAt_isSome t hs]
    simp only [List.mem_cons, exists_eq_or_imp]
    tauto

theorem New_nodeAt (ls : List (List Nat)) : (New.root.nodeAt ls).isSome = true ↔ ls = [] := by
  cases ls with
  | nil => simp [nodeAt_nil]
  | cons l ls => simp [New, newNode_nodeAt_cons]

theorem New_selfAtLabels (ls : List (List Nat)) : New.root.selfAtLabels ls = 0 := by
  cases ls with
  | nil => rfl
  | cons l ls =>
    rw [treeNode.selfAtLabels]
    simp [New, newNode_nodeAt_cons]

theorem filter_eq_singleton {α : Type} : ∀ (l : List α) (a : α) (P : α → Bool), l.Nodup →
    a ∈ l → (∀ b ∈ l, P b = true ↔ b = a) → l.filter P = [a]
  | [], _, _, _, ha, _ => by simp at ha
  | b :: l, a, P, hn, ha, hP => by
    rw [List.nodup_cons] at hn
    by_cases hb : b = a
    · subst hb
      have hPb : P b = true := (hP b (List.mem_cons_self _ _)).2 rfl
      rw [List.filter_cons, if_pos hPb]
      have : l.filter P = [] := by
        rw [List.filter_eq_nil_iff]
        intro c hc hPc
        have := (hP c (List.mem_cons_of_mem _ hc)).1 hPc
        subst this
        exact hn.1 hc
      rw [this]
    · have hPb : ¬ P b = true := fun h => hb ((hP b (List.mem_cons_self _ _)).1 h)
      rw [List.filter_cons, if_neg hPb]
      have ha' : a ∈ l := by
        rcases List.mem_cons.1 ha with h | h
        · exact absurd h.symm hb
        · exact h
      exact filter_eq_singleton l a P hn.2 ha' (fun c hc => hP c (List.mem_cons_of_mem _ hc))

end InsertAllLemmas

section InsertIterateLemmas

theorem key_of_labels (l : List Nat) (ls : List (List Nat)) :
    [] ++ [semicolon] ++ ([] : List Nat) ++ ((l :: ls).map (fun x => [semicolon] ++ x)).flatten
      = [semicolon, semicolon] ++ List.intercalate [semicolon] (l :: ls) := by
  rw [intercalate_cons_eq]
  simp

/-- What `Iterate` passes for the node at a child-index path of a tree built by
`Insert` calls alone. -/
theorem insertAll_visit (ops : List (List Nat × Nat)) (p : List Nat)
    (hp : p ∈ (insertAll New ops).root.paths) :
    (insertAll New ops).root.selfAt p
      = ((ops.filter (fun kv => decide (bytesSplit semicolon kv.1
          = (insertAll New ops).root.labelsAt p))).map Prod.snd).sum % u64 ∧
    ∀ k : List Nat, (insertAll New ops).root.keyFrom [] p = [semicolon, semicolon] ++ k ↔
      (insertAll New ops).root.labelsAt p = bytesSplit semicolon k := by
  have hr := insertAll_reachable ops New Reachable.new
  have hs := (reachable_invariants hr).2
  have hname : (insertAll New ops).root.Name = [] := insertAll_root_name ops New
  have hsome := (mem_paths_iff _ _ le_rfl p).1 hp
  obtain ⟨x, hx⟩ := Option.isSome_iff_exists.1 hsome
  have hnode := nodeAt_labelsAt p _ x hs hx
  have hkey := keyFrom_labelsAt p _ x [] hx
  rw [hname] at hkey
  constructor
  · have := insertAll_selfAtLabels ops New Reachable.new
      (fun ls => by rw [New_selfAtLabels]; simp [u64]) ((insertAll New ops).root.labelsAt p)
    rw [New_selfAtLabels, Nat.zero_add] at this
    rw [← this, treeNode.selfAt, hx, treeNode.selfAtLabels, hnode]
  · intro k
    cases hl : (insertAll New ops).root.labelsAt p with
    | nil =>
      rw [hl] at hkey
      rw [hkey]
      constructor
      · intro h
        have := congrArg List.length h
        simp at this
      · intro h
        exact absurd h.symm (bytesSplit_ne_nil _ _)
    | cons l ls =>
      rw [hl] at hkey hnode
      rw [hkey, key_of_labels]
      constructor
      · intro h
        have hk : List.intercalate [semicolon] (l :: ls) = k := List.append_cancel_left h
        have hex : ((insertAll New ops).root.nodeAt (l :: ls)).isSome = true := by
          rw [hnode]; rfl
        rw [insertAll_nodeAt_isSome ops New Reachable.new, New_nodeAt] at hex
        rcases hex with hnil | ⟨kv, _, hpre⟩
        · cases hnil
        · have hfree : ∀ y ∈ l :: ls, semicolon ∉ y := fun y hy =>
            (bytesSplit_join semicolon kv.1).2 y (hpre.subset hy)
          rw [← hk, bytesSplit_intercalate semicolon l ls hfree]
      · intro h
        rw [h, (bytesSplit_join semicolon k).1]

end InsertIterateLemmas

/-! ### Insert followed by Iterate -/

/-- C18: after any finite sequence of `Insert(key_i, value_i)` calls on an empty
tree, `Iterate` (with enough fuel for its loop) calls back exactly once with the
key `;;` followed by `k` for every key `k` of the sequence, and the value passed
is the sum of the values inserted under `k`, modulo 2^64; every call whose key
is not of this form carries the value 0. -/
theorem Insert_then_Iterate (ops : List (List Nat × Nat)) (fuel : Nat)
    (hfuel : (insertAll New ops).root.nodes.length ≤ fuel) :
    ∃ calls, (insertAll New ops).Iterate fuel = some calls ∧
      (∀ k ∈ ops.map Prod.fst,
        calls.filter (fun c => decide (c.1 = [semicolon, semicolon] ++ k))
          = [([semicolon, semicolon] ++ k, weightOf ops k % u64)]) ∧
      (∀ c ∈ calls, (∀ k ∈ ops.map Prod.fst, c.1 ≠ [semicolon, semicolon] ++ k) → c.2 = 0) := by
  have hr := insertAll_reachable ops New Reachable.new
  have hs := (reachable_invariants hr).2
  refine ⟨_, Iterate_eq_visitsOf _ fuel hfuel, fun k hk => ?_, fun c hc hno => ?_⟩
  · -- the node of `k` exists
    obtain ⟨kv, hkv, rfl⟩ := List.mem_map.1 hk
    have hex : ((insertAll New ops).root.nodeAt (bytesSplit semicolon kv.1)).isSome = true :=
      (insertAll_nodeAt_isSome ops New Reachable.new _).2 (Or.inr ⟨kv, hkv, List.prefix_refl _⟩)
    obtain ⟨x, hx⟩ := Option.isSome_iff_exists.1 hex
    obtain ⟨p0, hp0, hl0⟩ := exists_path_of_nodeAt _ _ x hx
    have hmem0 : p0 ∈ (insertAll New ops).root.paths :=
      (mem_paths_iff _ _ le_rfl p0).2 (by rw [hp0]; rfl)
    have hfilter : (insertAll New ops).root.paths.filter
        (fun p => decide ((insertAll New ops).root.keyFrom [] p = [semicolon, semicolon] ++ kv.1))
        = [p0] := by
      apply filter_eq_singleton _ _ _ (paths_nodup _) hmem0
      intro q hq
      rw [decide_eq_true_eq, (insertAll_visit ops q hq).2 kv.1]
      constructor
      · intro h
        obtain ⟨y, hy⟩ := Option.isSome_iff_exists.1 ((mem_paths_iff _ _ le_rfl q).1 hq)
        exact labelsAt_injective q p0 _ y x hs hy hp0 (h.trans hl0.symm)
      · rintro rfl
        exact hl0
    rw [visitsOf, List.filter_map]
    have hcomp : ((fun c : List Nat × Nat => decide (c.1 = [semicolon, semicolon] ++ kv.1)) ∘
        fun p => ((insertAll New ops).root.keyFrom [] p, (insertAll New ops).root.selfAt p))
        = fun p => decide ((insertAll New ops).root.keyFrom [] p = [semicolon, semicolon] ++ kv.1) :=
      rfl
    rw [hcomp, hfilter, List.map_singleton]
    obtain ⟨hv, hkey⟩ := insertAll_visit ops p0 hmem0
    rw [(hkey kv.1).2 hl0, hv, hl0]
    have hcongr : ops.filter (fun kv' => decide (bytesSplit semicolon kv'.1
        = bytesSplit semicolon kv.1)) = ops.filter (fun kv' => decide (kv'.1 = kv.1)) := by
      apply List.filter_congr
      intro kv' _
      by_cases e : kv'.1 = kv.1
      · simp [e]
      · have : bytesSplit semicolon kv'.1 ≠ bytesSplit semicolon kv.1 :=
          fun h => e (bytesSplit_injective _ _ _ h)
        simp [e, this]
    rw [hcongr]
    rfl
  · simp only [visitsOf, List.mem_map] at hc
    obtain ⟨p, hp, rfl⟩ := hc
    obtain ⟨hv, hkey⟩ := insertAll_visit ops p hp
    show (insertAll New ops).root.selfAt p = 0
    rw [hv]
    have hnil : ops.filter (fun kv => decide (bytesSplit semicolon kv.1
        = (insertAll New ops).root.labelsAt p)) = [] := by
      rw [List.filter_eq_nil_iff]
      intro kv hkv hd
      rw [decide_eq_true_eq] at hd
      exact hno kv.1 (List.mem_map_of_mem _ hkv) ((hkey kv.1).2 hd.symm)
    rw [hnil]
    rfl

theorem Insert_then_Iterate_witness :
    insertAll New [([97, 59, 98], 5), ([97, 59, 99], 3), ([97, 59, 98], 2)]
      = ⟨.mk [] 10 0 [.mk [97] 10 0 [.mk [98] 7 7 [], .mk [99] 3 3 []]]⟩ ∧
    weightOf [([97, 59, 98], 5), ([97, 59, 99], 3), ([97, 59, 98], 2)] [97, 59, 98] = 7 ∧
    ∃ calls, (insertAll New [([97, 59, 98], 5), ([97, 59, 99], 3), ([97, 59, 98], 2)]).Iterate 4
        = some calls ∧
      (∀ k ∈ [([97, 59, 98], 5), ([97, 59, 99], 3), ([97, 59, 98], 2)].map Prod.fst,
        calls.filter (fun c => decide (c.1 = [semicolon, semicolon] ++ k))
          = [([semicolon, semicolon] ++ k,
              weightOf [([97, 59, 98], 5), ([97, 59, 99], 3), ([97, 59, 98], 2)] k % u64)]) ∧
      (∀ c ∈ calls, (∀ k ∈ [([97, 59, 98], 5), ([97, 59, 99], 3), ([97, 59, 98], 2)].map Prod.fst,
        c.1 ≠ [semicolon, semicolon] ++ k) → c.2 = 0) :=
  ⟨rfl, rfl, Insert_then_Iterate [([97, 59, 98], 5), ([97, 59, 99], 3), ([97, 59, 98], 2)] 4
    (by decide)⟩

end Pyroscope
